import Mathlib

/-!
cfpinner: address-block sampling, probe dispatch and outcome classification.

A shallow embedding of `cidr_utils.cpp`, `http_client.cpp` and `cdn_tracker.cpp`.

Conventions.
* A `std::string` is a `List Char`.
* `uint32_t` values are `Nat` below `2^32`, every operation reduced `% 2^32`.
* `size_t` values are `Nat` below `2^64` (LP64), every operation reduced `% 2^64`.
* `int` values are `Int`; an increment is reduced into the two's-complement range.
* `std::string::npos` is `none`.
-/

namespace cfpinner

/-! ## Machine integers -/

/-- Modulus of `uint32_t`. -/
def U32 : Nat := 4294967296

/-- Modulus of `size_t` on an LP64 platform. -/
def SZ : Nat := 18446744073709551616

/-- The constant `SIZE_MAX`. -/
def SIZE_MAX : Nat := 18446744073709551615

/-- The 32-bit left shift `x << k` on `unsigned`, for a count `k` below 32: the low 32 bits
of the wide shift. -/
def shl32 (x k : Nat) : Nat := (x * 2 ^ k) % U32

/-- The 32-bit complement `~x`. -/
def not32 (x : Nat) : Nat := U32 - 1 - x % U32

/-- The 32-bit subtraction `a - b` with wrap-around. -/
def sub32 (a b : Nat) : Nat := (a % U32 + U32 - b % U32) % U32

/-- The 32-bit addition `a + b` with wrap-around. -/
def add32 (a b : Nat) : Nat := (a + b) % U32

/-- The increment `x++` of an `int`, kept inside the two's-complement range. -/
def incr32 (x : Int) : Int := (x + 1 + 2147483648) % 4294967296 - 2147483648

/-! ## Library functions used by the sources -/

/-- State of the dotted-quad scanner: the octets finished so far, the octet being read,
whether a digit of it has been seen, and how many octets have been started. -/
structure PtonState where
  done : List Nat
  cur : Nat
  saw_digit : Bool
  octets : Nat
deriving DecidableEq, Repr

/-- One character of the C library's `inet_pton(AF_INET, ...)` scanner: a decimal digit
extends the current octet (no leading zero, at most 255, at most four octets), a dot after a
digit closes it, anything else rejects. -/
def ptonStep (st : PtonState) (ch : Char) : Option PtonState :=
  if 48 ≤ ch.toNat ∧ ch.toNat ≤ 57 then
    let new := st.cur * 10 + (ch.toNat - 48)
    if st.saw_digit = true ∧ st.cur = 0 then none
    else if new > 255 then none
    else if st.saw_digit = false then
      if st.octets + 1 > 4 then none
      else some { done := st.done, cur := new, saw_digit := true, octets := st.octets + 1 }
    else some { st with cur := new }
  else if ch = '.' ∧ st.saw_digit = true then
    if st.octets = 4 then none
    else some { done := st.done ++ [st.cur], cur := 0, saw_digit := false, octets := st.octets }
  else none

/-- The scanner run over the remaining characters. -/
def ptonLoop : PtonState → List Char → Option PtonState
  | st, [] => some st
  | st, ch :: rest =>
    match ptonStep st ch with
    | none => none
    | some st2 => ptonLoop st2 rest

/-- The C library's `inet_pton(AF_INET, src, &addr)` followed by `ntohl`: the numeric value
of a dotted-quad address, `none` when the text is rejected. -/
def inet_pton (src : List Char) : Option Nat :=
  match ptonLoop { done := [], cur := 0, saw_digit := false, octets := 0 } src with
  | none => none
  | some st =>
    if st.octets < 4 then none
    else some ((st.done ++ [st.cur]).foldl (fun acc o => acc * 256 + o) 0)

/-- The C `isspace` test in the default locale. -/
def isspace (c : Char) : Bool :=
  c = ' ' || c = '\t' || c = '\n' || c.toNat = 11 || c.toNat = 12 || c = '\r'

/-- The leading decimal digits of a text, accumulated onto `acc`; the flag tells whether any
digit was read. -/
def readDigits : List Char → Nat → Bool → Nat × Bool
  | [], acc, seen => (acc, seen)
  | c :: cs, acc, seen =>
    if 48 ≤ c.toNat ∧ c.toNat ≤ 57 then readDigits cs (acc * 10 + (c.toNat - 48)) true
    else (acc, seen)

/-- The standard library's `std::stoi(str)`: leading white space is skipped, an optional sign
is read, then decimal digits; trailing characters are ignored. `none` stands for the two
exceptions (no digit: `invalid_argument`; outside `int`: `out_of_range`). -/
def stoi (str : List Char) : Option Int :=
  let s := str.dropWhile isspace
  let (neg, body) : Bool × List Char :=
    match s with
    | '-' :: r => (true, r)
    | '+' :: r => (false, r)
    | _ => (false, s)
  let (mag, seen) := readDigits body 0 false
  if seen = false then none
  else
    let v : Int := if neg then - (mag : Int) else (mag : Int)
    if v < -2147483648 ∨ v > 2147483647 then none else some v

/-- Decimal text of an octet (a number below 256), as `inet_ntop` prints it. -/
def octetText (n : Nat) : List Char :=
  let d (k : Nat) : Char := Char.ofNat (48 + k)
  if n < 10 then [d n]
  else if n < 100 then [d (n / 10), d (n % 10)]
  else [d (n / 100), d (n / 10 % 10), d (n % 10)]

/-- The text a C function reads from `s.c_str()`: the characters before the first NUL. -/
def c_str (s : List Char) : List Char := s.takeWhile (fun c => c.toNat != 0)

/-- Index of the first occurrence of `c` in a text (`std::string::find(char)`). -/
def findChar (c : Char) : List Char → Option Nat
  | [] => none
  | x :: xs => if x = c then some 0 else (findChar c xs).map (· + 1)

/-! ## `CIDRUtils` -/

namespace CIDRUtils

/-- `CIDRUtils::ipToUint32`: the numeric address, `0` when `inet_pton` rejects the text. -/
def ipToUint32 (ip : List Char) : Nat :=
  match inet_pton (c_str ip) with
  | none => 0
  | some v => v

/-- `CIDRUtils::uint32ToIp`: the dotted-quad text of a 32-bit address. -/
def uint32ToIp (ip : Nat) : List Char :=
  octetText (ip / 16777216 % 256) ++ '.' :: octetText (ip / 65536 % 256) ++
    '.' :: octetText (ip / 256 % 256) ++ '.' :: octetText (ip % 256)

/-- `CIDRUtils::getHostCount`: `0` outside `[0,32]`, else `1U << (32 - prefix_len)`. For
`prefix_len = 0` the count is 32, the width of the operand, where C++ leaves the shift
undefined: the shift instruction of the compiled function takes the count modulo 32, so the
value returned is `1U << 0`, that is `1`. For the prefix lengths 1 to 32 the count is below 32
and is used as it is. -/
def getHostCount (prefix_len : Int) : Nat :=
  if prefix_len < 0 ∨ prefix_len > 32 then 0
  else shl32 1 ((32 - prefix_len).toNat % 32)

/-- `CIDRUtils::parseCIDR`. The two reference parameters are passed in with the values the
caller holds (`base_ip0`, `prefix_len0`) and returned with the values they hold afterwards,
next to the boolean result. -/
def parseCIDR (cidr : List Char) (_base_ip0 : Nat) (prefix_len0 : Int) : Bool × Nat × Int :=
  match findChar '/' cidr with
  | none =>
    let base_ip := ipToUint32 cidr
    (base_ip != 0, base_ip, 32)
  | some slash_pos =>
    let ip_str := cidr.take slash_pos
    let prefix_str := cidr.drop (slash_pos + 1)
    let base_ip := ipToUint32 ip_str
    if base_ip = 0 then (false, base_ip, prefix_len0)
    else
      match stoi prefix_str with
      | none => (false, base_ip, prefix_len0)
      | some prefix_len =>
        if prefix_len < 0 ∨ prefix_len > 32 then (false, base_ip, prefix_len)
        else
          let mask := if prefix_len = 0 then 0 else shl32 (not32 0) (32 - prefix_len).toNat
          (true, Nat.land base_ip mask, prefix_len)

/-- The offset of sample `i` in the sampling branch of `expandCIDR`: stride, jitter and the
two clamps, in 32-bit arithmetic. -/
def sampleOffset (total_hosts step i : Nat) : Nat :=
  let offset := (i * step) % SZ % U32
  let offset := if i > 0 ∧ step > 4 then add32 offset (i % 4) else offset
  let offset := if offset = 0 ∧ total_hosts > 2 then 1 else offset
  let offset := if offset ≥ sub32 total_hosts 1 ∧ total_hosts > 2 then sub32 total_hosts 2 else offset
  offset

/-- The numeric addresses `expandCIDR` pushes once the block is parsed: strided sampling when
the block is larger than `max_ips` and `max_ips` is not `SIZE_MAX`, full enumeration otherwise.
`none` stands for the division by zero of `total_hosts / max_ips` when `max_ips` is `0`. -/
def expandParsed (base_ip : Nat) (prefix_len : Int) (max_ips : Nat) : Option (List Nat) :=
  let total_hosts := getHostCount prefix_len
  let force_all := decide (max_ips = SIZE_MAX)
  if total_hosts > max_ips ∧ force_all = false then
    if max_ips = 0 then none
    else
      let step := total_hosts / max_ips
      some ((List.range max_ips).map (fun i => add32 base_ip (sampleOffset total_hosts step i)))
  else
    some (((List.range total_hosts).filter
      (fun i => !(decide (prefix_len < 31) && (i == 0 || i == sub32 total_hosts 1)))).map
      (fun i => add32 base_ip i))

/-- The numeric addresses behind the result of `expandCIDR`: empty when the parse fails.
The two locals start uninitialised in the source; a successful parse assigns both. -/
def expandCIDRNums (cidr : List Char) (max_ips : Nat) : Option (List Nat) :=
  match parseCIDR cidr 0 0 with
  | (false, _, _) => some []
  | (true, base_ip, prefix_len) => expandParsed base_ip prefix_len max_ips

/-- `CIDRUtils::expandCIDR`: each pushed address printed by `uint32ToIp`. -/
def expandCIDR (cidr : List Char) (max_ips : Nat) : Option (List (List Char)) :=
  (expandCIDRNums cidr max_ips).map (fun ips => ips.map uint32ToIp)

end CIDRUtils

/-! ## `CDNTracker`: configuration and range expansion -/

/-- The data members of `CDNTracker` that the modelled methods read or write. -/
structure CDNTracker where
  ip_ranges_ : List (List Char)
  specific_ips_ : List (List Char)
  target_domain_ : List Char
  max_ips_per_range_ : Nat
  use_specific_ips_ : Bool
  force_all_ : Bool
  timeout_seconds_ : Int
deriving DecidableEq, Repr

namespace CDNTracker

/-- The constructor `CDNTracker::CDNTracker`. -/
def new : CDNTracker :=
  { ip_ranges_ := [], specific_ips_ := [], target_domain_ := [], max_ips_per_range_ := 10,
    use_specific_ips_ := false, force_all_ := false, timeout_seconds_ := 5 }

/-- `CDNTracker::setForceAll`. -/
def setForceAll (t : CDNTracker) (force_all : Bool) : CDNTracker :=
  { t with force_all_ := force_all }

/-- `CDNTracker::setMaxIPsPerRange`. -/
def setMaxIPsPerRange (t : CDNTracker) (max_ips : Nat) : CDNTracker :=
  { t with max_ips_per_range_ := max_ips }

/-- `CDNTracker::expandAllRanges`: declarations containing `':'` are skipped, the others are
expanded with `SIZE_MAX` in force-all mode and with the configured cap otherwise, and the
results are appended in declaration order; `none` when an expansion divides by zero. -/
def expandAllRanges (t : CDNTracker) : Option (List (List Char)) :=
  let expansion_limit := if t.force_all_ = true then SIZE_MAX else t.max_ips_per_range_
  t.ip_ranges_.foldl
    (fun acc ip_range =>
      match acc with
      | none => none
      | some all_ips =>
        if (findChar ':' ip_range).isSome then some all_ips
        else
          match CIDRUtils.expandCIDR ip_range expansion_limit with
          | none => none
          | some ips => some (all_ips ++ ips))
    (some [])

end CDNTracker

/-! ## `CDNTracker`: the thread pool of `track` and `scanAliveNodes` -/

namespace CDNTracker

/-- The `size_t` expression `(all_ips.size() + num_threads - 1) / num_threads`, for a target
count `n`; `none` when the divisor is zero. -/
def ips_per_thread (n num_threads : Nat) : Option Nat :=
  if num_threads = 0 then none
  else some ((((n + num_threads) % SZ + SZ - 1) % SZ) / num_threads)

/-- One pass of the thread-creation loop, for thread number `t`: the pair
`(start_idx, end_idx)` handed to the worker, `none` when no worker is started. -/
def sliceOf (n ipt t : Nat) : Option (Nat × Nat) :=
  let start_idx := (t * ipt) % SZ
  let end_idx := min ((start_idx + ipt) % SZ) n
  if start_idx < n then some (start_idx, end_idx) else none

/-- The thread-creation loop `for (t = 0; t < num_threads; t++)`: the workers started, in
order, each with its pair of indices. -/
def threadSlices (n ipt num_threads : Nat) : List (Nat × Nat) :=
  (List.range num_threads).filterMap (sliceOf n ipt)

/-- The worker loop `for (i = start_idx; i < end_idx && i < all_ips.size(); i++)`: the
indices a worker reads, in order. -/
def workerIndices (n : Nat) (se : Nat × Nat) : List Nat :=
  List.range' se.1 (min se.2 n - se.1)

/-- The thread pool of `track` and `scanAliveNodes` on `n` targets: the index list of every
started worker, in thread order; `none` when `num_threads` is zero. -/
def dispatch (n num_threads : Nat) : Option (List (List Nat)) :=
  (ips_per_thread n num_threads).map
    (fun ipt => (threadSlices n ipt num_threads).map (workerIndices n))

/-- The number of targets thread number `t` processes: `0` when no worker is started. -/
def sliceSize (n ipt t : Nat) : Nat :=
  match sliceOf n ipt t with
  | none => 0
  | some se => (workerIndices n se).length

/-- The sizes of the `num_threads` slices, in thread order. -/
def sliceSizes (n num_threads : Nat) : Option (List Nat) :=
  (ips_per_thread n num_threads).map (fun ipt => (List.range num_threads).map (sliceSize n ipt))

end CDNTracker

/-! ## `HTTPClient` -/

/-- `s.find(pat, ...)` continued from index `i`, with `s` the text left from there on. -/
def findFrom (pat : List Char) : List Char → Nat → Option Nat
  | [], i => if pat = [] then some i else none
  | c :: cs, i => if pat.isPrefixOf (c :: cs) then some i else findFrom pat cs (i + 1)

/-- `std::string::find(pat, pos)`: the least index at or after `pos` where `pat` occurs,
`none` for `npos`. -/
def find (s pat : List Char) (pos : Nat) : Option Nat :=
  if pos > s.length then none else findFrom pat (s.drop pos) pos

/-- `s.substr(start, len)`, for `start` within the text. -/
def substr (s : List Char) (start len : Nat) : List Char := (s.drop start).take len

/-- `s.find_first_not_of(" \t")`. -/
def find_first_not_of : List Char → Option Nat
  | [] => none
  | c :: cs => if c = ' ' ∨ c = '\t' then (find_first_not_of cs).map (· + 1) else some 0

/-- `s.find_last_not_of(" \t")`. -/
def find_last_not_of : List Char → Option Nat
  | [] => none
  | c :: cs =>
    match find_last_not_of cs with
    | some k => some (k + 1)
    | none => if c = ' ' ∨ c = '\t' then none else some 0

/-- `s.find_last_of(ch)`. -/
def find_last_of (ch : Char) : List Char → Option Nat
  | [] => none
  | c :: cs =>
    match find_last_of ch cs with
    | some k => some (k + 1)
    | none => if c = ch then some 0 else none

/-- The two `erase` calls that trim a header value: `s.erase(0, s.find_first_not_of(" \t"))`
(an `npos` count erases everything) and then `s.erase(s.find_last_not_of(" \t") + 1)`
(`npos + 1` wraps to `0` and erases everything). -/
def trim (s : List Char) : List Char :=
  let s1 := match find_first_not_of s with
    | none => []
    | some k => s.drop k
  match find_last_not_of s1 with
  | none => s1.take 0
  | some k => s1.take (k + 1)

/-- `HTTPResponse`. -/
structure HTTPResponse where
  status_code : Int
  body : List Char
  success : Bool
  error_message : List Char
  is_cache_hit : Bool
  cf_cache_status : List Char
  cf_ray : List Char
  cf_iata_code : List Char
  cf_ip_country : List Char
deriving DecidableEq, Repr

/-- What libcurl reports for one request: the handle could not be created, the transfer
failed with the text `curl_easy_strerror` gives for its code, or it succeeded with a response
code and the raw header block collected by `header_callback`. -/
inductive Transfer where
  | init_failed
  | failed (strerror : List Char)
  | ok (response_code : Int) (headers_data : List Char)
deriving DecidableEq, Repr

/-- The conversion `static_cast<int>` of a `long`. -/
def toInt32 (v : Int) : Int := (v + 2147483648) % 4294967296 - 2147483648

namespace HTTPClient

/-- The value of a header in the raw block: the text between the end of the header name, when
the name occurs, and the next `"\r\n"`, when there is one, trimmed. -/
def headerValue (headers_data name : List Char) : Option (List Char) :=
  match find headers_data name 0 with
  | none => none
  | some pos =>
    let start := pos + name.length
    match find headers_data ['\r', '\n'] start with
    | none => none
    | some end_ => some (trim (substr headers_data start (end_ - start)))

/-- The point-of-presence code `head` takes from the trimmed ray identifier. -/
def iataOf (cf_ray : List Char) : List Char :=
  match find_last_of '-' cf_ray with
  | none => []
  | some dash_pos =>
    if dash_pos + 3 < cf_ray.length then substr cf_ray (dash_pos + 1) 3 else []

/-- The block of `head` that reads `CF-Cache-Status:` and sets the hit flag. -/
def parseCacheStatus (response : HTTPResponse) (headers_data : List Char) : HTTPResponse :=
  match headerValue headers_data "CF-Cache-Status:".toList with
  | none => response
  | some v => { response with cf_cache_status := v, is_cache_hit := decide (v = "HIT".toList) }

/-- The block of `head` that reads `CF-Ray:` and the point-of-presence code. -/
def parseRay (response : HTTPResponse) (headers_data : List Char) : HTTPResponse :=
  match headerValue headers_data "CF-Ray:".toList with
  | none => response
  | some v => { response with cf_ray := v, cf_iata_code := iataOf v }

/-- The block of `head` that reads `CF-IPCountry:`. -/
def parseCountry (response : HTTPResponse) (headers_data : List Char) : HTTPResponse :=
  match headerValue headers_data "CF-IPCountry:".toList with
  | none => response
  | some v => { response with cf_ip_country := v }

/-- `HTTPClient::head`, as a function of what libcurl reports for the request. -/
def head (tr : Transfer) : HTTPResponse :=
  let response : HTTPResponse :=
    { status_code := 0, body := [], success := false, error_message := [],
      is_cache_hit := false, cf_cache_status := [], cf_ray := [], cf_iata_code := [],
      cf_ip_country := [] }
  match tr with
  | Transfer.init_failed =>
    { response with error_message := "Failed to initialize CURL".toList }
  | Transfer.failed strerror => { response with error_message := strerror }
  | Transfer.ok response_code headers_data =>
    let response := { response with success := true, status_code := toInt32 response_code }
    parseCountry (parseRay (parseCacheStatus response headers_data) headers_data) headers_data

end HTTPClient

/-! ## `CDNTracker`: outcomes, classification and counts -/

/-- `CDNCheckResult`. -/
structure CDNCheckResult where
  ip_range : List Char
  ip_address : List Char
  is_hit : Bool
  status_code : Int
  cache_status : List Char
  cf_ray : List Char
  cf_iata_code : List Char
  cf_ip_country : List Char
  error_message : List Char
deriving DecidableEq, Repr

/-- The three status texts the tracker prints. -/
inductive Status where
  | HIT
  | MISS
  | ERROR
deriving DecidableEq, Repr

/-- The three `int` counters of a summary. -/
structure Counts where
  hits : Int
  misses : Int
  errors : Int
deriving DecidableEq, Repr

namespace CDNTracker

/-- The outcome the worker of `track` builds from the response of `head` for one address. -/
def trackResult (ip_address : List Char) (response : HTTPResponse) : CDNCheckResult :=
  { ip_address := ip_address,
    ip_range := [],
    status_code := response.status_code,
    is_hit := response.is_cache_hit,
    cache_status := response.cf_cache_status,
    cf_ray := response.cf_ray,
    cf_iata_code := response.cf_iata_code,
    cf_ip_country := response.cf_ip_country,
    error_message := if response.success = false then response.error_message else [] }

/-- The status text chosen by `CDNTracker::displayResult`. -/
def displayResult (result : CDNCheckResult) : Status :=
  if result.error_message ≠ [] then Status.ERROR
  else if result.is_hit = true then Status.HIT
  else Status.MISS

/-- One pass of the counting loop of `CDNTracker::displaySummary`. -/
def displaySummaryStep (cnt : Counts) (result : CDNCheckResult) : Counts :=
  if result.error_message ≠ [] then { cnt with errors := incr32 cnt.errors }
  else if result.is_hit = true then { cnt with hits := incr32 cnt.hits }
  else { cnt with misses := incr32 cnt.misses }

/-- The counters of `CDNTracker::displaySummary` after its loop. -/
def displaySummary (results : List CDNCheckResult) : Counts :=
  results.foldl displaySummaryStep { hits := 0, misses := 0, errors := 0 }

/-- One pass of the statistics loop of `CDNTracker::displayResultsTable`. -/
def displayResultsTableStep (cnt : Counts) (result : CDNCheckResult) : Counts :=
  if result.error_message ≠ [] then { cnt with errors := incr32 cnt.errors }
  else if result.is_hit = true then { cnt with hits := incr32 cnt.hits }
  else { cnt with misses := incr32 cnt.misses }

/-- The counters of `CDNTracker::displayResultsTable` after its statistics loop. -/
def displayResultsTableCounts (results : List CDNCheckResult) : Counts :=
  results.foldl displayResultsTableStep { hits := 0, misses := 0, errors := 0 }

/-- The status text `CDNTracker::displayResultsTable` prints in the row of a result. -/
def displayResultsTableStatus (result : CDNCheckResult) : Status :=
  if result.error_message ≠ [] then Status.ERROR
  else if result.is_hit = true then Status.HIT
  else Status.MISS

end CDNTracker

/-! ## `CDNTracker`: target selection and the alive scan -/

/-- How far `track` gets in choosing its target list. -/
inductive TargetChoice where
  | no_ranges
  | crashed
  | chosen (all_ips : List (List Char))
deriving DecidableEq, Repr

/-- The ways a lock-protected vector can fill up when several workers append to it: each
worker appends the entries of its own list in order, and the appends of different workers
fall in any order. `Interleave ls r` says that `r` is one such filling for the workers'
lists `ls`. -/
inductive Interleave {α : Type} : List (List α) → List α → Prop where
  | done (ls : List (List α)) (h : ∀ l ∈ ls, l = []) : Interleave ls []
  | push (pre post : List (List α)) (x : α) (xs r : List α)
      (h : Interleave (pre ++ xs :: post) r) : Interleave (pre ++ (x :: xs) :: post) (x :: r)

namespace CDNTracker

/-- `CDNTracker::setSpecificIPs`. -/
def setSpecificIPs (t : CDNTracker) (ips : List (List Char)) : CDNTracker :=
  { t with specific_ips_ := ips, use_specific_ips_ := !ips.isEmpty }

/-- The head of `CDNTracker::track`, up to the target list `all_ips`: `no_ranges` when it
prints "No IP ranges loaded" and returns, `crashed` when the expansion divides by zero,
otherwise the list chosen. -/
def trackTargets (t : CDNTracker) : TargetChoice :=
  if t.use_specific_ips_ = false ∧ t.ip_ranges_ = [] then TargetChoice.no_ranges
  else if t.use_specific_ips_ = true then TargetChoice.chosen t.specific_ips_
  else
    match t.expandAllRanges with
    | none => TargetChoice.crashed
    | some all_ips => TargetChoice.chosen all_ips

/-- The test `response.success && response.status_code > 0` of the worker of
`scanAliveNodes`. -/
def is_alive (response : HTTPResponse) : Bool :=
  response.success && decide (response.status_code > 0)

/-- The addresses one worker of `scanAliveNodes` appends to `alive_ips`, in the order it
appends them, when the probe of target number `i` meets the transfer `probe i`. -/
def workerAlive (all_ips : List (List Char)) (probe : Nat → Transfer) (indices : List Nat) :
    List (List Char) :=
  indices.filterMap (fun i =>
    match all_ips[i]? with
    | none => none
    | some ip_address =>
      if is_alive (HTTPClient.head (probe i)) = true then some ip_address else none)

/-- The thread pool of `CDNTracker::scanAliveNodes` on the candidate list `all_ips`: `ret` is
a value the function can return. `none` stands for the division by a zero `num_threads`;
otherwise the workers of `dispatch` append their alive addresses to `alive_ips` under the
lock, in any interleaving. -/
def scanWorkers (all_ips : List (List Char)) (probe : Nat → Transfer) (num_threads : Nat)
    (ret : Option (List (List Char))) : Prop :=
  match dispatch all_ips.length num_threads with
  | none => ret = none
  | some slices =>
    ∃ alive_ips, ret = some alive_ips ∧
      Interleave (slices.map (workerAlive all_ips probe)) alive_ips

/-- `CDNTracker::scanAliveNodes`: nothing is scanned when no range is loaded; otherwise the
ranges are expanded under the cap 100 (or in full in force-all mode) and the thread pool
runs on the candidates. -/
def scanAliveNodes (t : CDNTracker) (probe : Nat → Transfer) (num_threads : Nat)
    (ret : Option (List (List Char))) : Prop :=
  if t.ip_ranges_ = [] then ret = some []
  else
    match (if t.force_all_ = false then { t with max_ips_per_range_ := 100 } else t).expandAllRanges with
    | none => ret = none
    | some all_ips => scanWorkers all_ips probe num_threads ret

end CDNTracker

/-! ## `CIDRUtils::expandCIDR` and its uninitialised locals -/

namespace CIDRUtils

/-- `CIDRUtils::expandCIDR` with the values its two uninitialised locals `base_ip` and
`prefix_len` hold before the call of `parseCIDR` made explicit: nothing else outside the two
arguments is read by the function. -/
def expandCIDRFrom (base_ip0 : Nat) (prefix_len0 : Int) (cidr : List Char) (max_ips : Nat) :
    Option (List (List Char)) :=
  match parseCIDR cidr base_ip0 prefix_len0 with
  | (false, _, _) => some []
  | (true, base_ip, prefix_len) =>
    (expandParsed base_ip prefix_len max_ips).map (fun ips => ips.map uint32ToIp)

end CIDRUtils

/-! ## Files: lines, the block file and the alive list -/

/-- The loop `while (std::getline(file, line))` over a file holding the given characters:
the lines delivered, in order. A line ends at `'\n'`, which is dropped, or at the end of the
file; a read that meets the end of the file before any character fails and ends the loop.
The second argument is the text of the line read so far. -/
def getlineLoop : List Char → List Char → List (List Char)
  | [], line => if line = [] then [] else [line]
  | c :: rest, line =>
    if c = '\n' then line :: getlineLoop rest [] else getlineLoop rest (line ++ [c])

/-- The lines `std::getline` delivers from a file with the given content. -/
def getlines (content : List Char) : List (List Char) := getlineLoop content []

/-- `s.find_first_not_of(chars)`. -/
def find_first_not_of_chars (chars : List Char) : List Char → Option Nat
  | [] => none
  | c :: cs => if c ∈ chars then (find_first_not_of_chars chars cs).map (· + 1) else some 0

/-- `s.find_last_not_of(chars)`. -/
def find_last_not_of_chars (chars : List Char) : List Char → Option Nat
  | [] => none
  | c :: cs =>
    match find_last_not_of_chars chars cs with
    | some k => some (k + 1)
    | none => if c ∈ chars then none else some 0

/-- The text `operator<<` prints for a `size_t`: its decimal digits. -/
def decimal (n : Nat) : List Char := Nat.toDigits 10 n

namespace CDNTracker

/-- The body of the loop of `CDNTracker::loadIPRanges` for one line: the declaration pushed
onto `ip_ranges_`, `none` when the line is skipped. -/
def loadIPRangesLine (line : List Char) : Option (List Char) :=
  if line.isEmpty || line.head? == some '#' then none
  else
    match find_first_not_of line, find_last_not_of line with
    | some start, some end_ => some (substr line start (end_ - start + 1))
    | _, _ => none

/-- `CDNTracker::loadIPRanges` on a file that cannot be opened (`none`) or that holds the
given characters: the boolean returned and the tracker afterwards. -/
def loadIPRanges (t : CDNTracker) (file : Option (List Char)) : Bool × CDNTracker :=
  match file with
  | none => (false, t)
  | some content =>
    let ip_ranges := t.ip_ranges_ ++ (getlines content).filterMap loadIPRangesLine
    (!ip_ranges.isEmpty, { t with ip_ranges_ := ip_ranges })

end CDNTracker

namespace CDNUpdater

/-- The characters `CDNUpdater::saveAliveIPs` writes when the file opens; `timestamp` is the
text `strftime` produced from the format `%Y-%m-%d %H:%M:%S`. -/
def saveAliveIPs (alive_ips : List (List Char)) (timestamp : List Char) : List Char :=
  "# Cloudflare CDN Alive IPs".toList ++ '\n' ::
  "# IPs that responded with HIT or MISS status".toList ++ '\n' ::
  "# Scanned: ".toList ++ timestamp ++ '\n' ::
  "# Total alive: ".toList ++ decimal alive_ips.length ++ '\n' ::
  '\n' ::
  (alive_ips.map (fun ip => ip ++ ['\n'])).flatten

/-- The body of the loop of `CDNUpdater::loadAliveIPs` for one line: the entry pushed onto
`alive_ips`, `none` when the line is skipped. The two `erase` calls are
`line.erase(0, line.find_first_not_of(" \t\r\n"))` (an `npos` count erases everything) and
`line.erase(line.find_last_not_of(" \t\r\n") + 1)` (`npos + 1` wraps to `0` and erases
everything). -/
def loadAliveIPsLine (line : List Char) : Option (List Char) :=
  if line.isEmpty || line.head? == some '#' then none
  else
    let line1 := match find_first_not_of_chars [' ', '\t', '\r', '\n'] line with
      | none => []
      | some k => line.drop k
    let line2 := match find_last_not_of_chars [' ', '\t', '\r', '\n'] line1 with
      | none => line1.take 0
      | some k => line1.take (k + 1)
    if !line2.isEmpty then some line2 else none

/-- `CDNUpdater::loadAliveIPs` on a file that cannot be opened (`none`) or that holds the
given characters: the boolean returned and the vector `alive_ips` afterwards. -/
def loadAliveIPs (file : Option (List Char)) (alive_ips : List (List Char)) :
    Bool × List (List Char) :=
  match file with
  | none => (false, alive_ips)
  | some content =>
    let alive_ips := (getlines content).filterMap loadAliveIPsLine
    (!alive_ips.isEmpty, alive_ips)

end CDNUpdater

/-! ## `CDNTracker::track`: the probe request, the workers and the report -/

/-- How a call of `CDNTracker::track` ends: `no_ranges` when it prints "No IP ranges loaded"
and returns at once, `crashed` for a division by zero, `completed` when the thread pool ran
and `displayResultsTable` printed the report; `workers` then holds, for each worker started,
the indices it read, and `results` is the vector reported. -/
inductive TrackOutcome where
  | no_ranges
  | crashed
  | completed (workers : List (List Nat)) (results : List CDNCheckResult)

namespace CDNTracker

/-- The text `url_to_check` of `track`: the target URL, with `https://` put in front when it
starts with neither `http://` nor `https://`. -/
def url_to_check (target_url : List Char) : List Char :=
  if find target_url "http://".toList 0 ≠ some 0 ∧ find target_url "https://".toList 0 ≠ some 0
  then "https://".toList ++ target_url
  else target_url

/-- The virtual host `domain` of `track`: the configured target domain, or, when that is
empty, the text between `://` and the next `'/'` of `url_to_check` (`substr(start)` is the
rest of the text). -/
def domain (t : CDNTracker) (url_to_check : List Char) : List Char :=
  if t.target_domain_.isEmpty then
    match find url_to_check "://".toList 0 with
    | none => t.target_domain_
    | some start =>
      let start := start + 3
      match find url_to_check ['/'] start with
      | some end_ => substr url_to_check start (end_ - start)
      | none => url_to_check.drop start
  else t.target_domain_

/-- The text `test_url` a worker of `track` builds for the target `ip_address`. -/
def test_url (url_to_check ip_address : List Char) : List Char :=
  match find url_to_check "://".toList 0 with
  | none => url_to_check
  | some domain_start =>
    let domain_start := domain_start + 3
    match find url_to_check ['/'] domain_start with
    | some domain_end =>
      substr url_to_check 0 domain_start ++ ip_address ++ url_to_check.drop domain_end
    | none => substr url_to_check 0 domain_start ++ ip_address

/-- `CDNTracker::displayProgress`: the value of `percent`, `none` for the division by a zero
`total`. -/
def displayProgress (current total : Nat) : Option Int :=
  if total = 0 then none else some (toInt32 (((current * 100) % SZ / total : Nat) : Int))

/-- The outcomes one worker of `track` appends to `results`, in the order it appends them,
when the probe of target number `i` with the URL and the virtual host built for it meets the
transfer `probe i url host`. -/
def workerTrack (t : CDNTracker) (target_url : List Char) (all_ips : List (List Char))
    (probe : Nat → List Char → List Char → Transfer) (indices : List Nat) :
    List CDNCheckResult :=
  indices.filterMap (fun i =>
    match all_ips[i]? with
    | none => none
    | some ip_address =>
      some (trackResult ip_address (HTTPClient.head
        (probe i (test_url (url_to_check target_url) ip_address)
          (domain t (url_to_check target_url))))))

/-- `CDNTracker::track`: `out` is a way the call can end. It returns at once when no alive
list is in use and no range is loaded; otherwise the target list is chosen, the workers of
`dispatch` append their outcomes to `results` under the lock, in any interleaving, and the
report is printed. -/
def track (t : CDNTracker) (target_url : List Char)
    (probe : Nat → List Char → List Char → Transfer) (num_threads : Nat)
    (out : TrackOutcome) : Prop :=
  match trackTargets t with
  | TargetChoice.no_ranges => out = TrackOutcome.no_ranges
  | TargetChoice.crashed => out = TrackOutcome.crashed
  | TargetChoice.chosen all_ips =>
    match dispatch all_ips.length num_threads with
    | none => out = TrackOutcome.crashed
    | some slices =>
      ∃ results, out = TrackOutcome.completed slices results ∧
        Interleave (slices.map (workerTrack t target_url all_ips probe)) results

end CDNTracker

/-! ## Specification-side definitions and invariants -/

/-- The clamp of the specification: into `[1, hostCount-2]` when `hostCount > 2`, the
identity otherwise. -/
def clampSpec (hostCount o : Nat) : Nat :=
  if hostCount > 2 then max 1 (min o (hostCount - 2)) else o

/-- The unclamped offset of the specification: `i*step`, plus `i mod 4` when `i > 0` and
`step > 4`, with `step = floor(hostCount / cap)`. -/
def offsetSpec (hostCount cap i : Nat) : Nat :=
  i * (hostCount / cap) + (if i > 0 ∧ hostCount / cap > 4 then i % 4 else 0)

/-- The number of outcomes of a list that `displayResult` classifies as `st`. -/
def classCount (st : Status) (results : List CDNCheckResult) : Nat :=
  results.countP (fun r => decide (CDNTracker.displayResult r = st))

/-- The outcome `track` builds for an address whose transfer timed out. -/
def timedOut : CDNCheckResult :=
  CDNTracker.trackResult "192.0.2.1".toList
    (HTTPClient.head (Transfer.failed "Timeout was reached".toList))

/-- The outcome `track` builds for an address that answered with the given cache-status
header value. -/
def answered (cache_status : String) : CDNCheckResult :=
  CDNTracker.trackResult "192.0.2.2".toList
    (HTTPClient.head (Transfer.ok 200
      ("HTTP/1.1 200 OK\r\nCF-Cache-Status: ".toList ++ cache_status.toList
        ++ "\r\nCF-Ray: 8428f15b8a9c1234-SJC\r\n\r\n".toList)))

/-- The text of the dotted-quad address `a.b.c.d`. -/
def dottedQuad (a b c d : Nat) : List Char :=
  octetText a ++ '.' :: octetText b ++ '.' :: octetText c ++ '.' :: octetText d

/-- The numeric value of the address `a.b.c.d`. -/
def quadValue (a b c d : Nat) : Nat := a * 16777216 + b * 65536 + c * 256 + d

/-- A text made of decimal digits only, at least one. -/
def IsDigits (ds : List Char) : Prop :=
  ds ≠ [] ∧ ∀ c ∈ ds, 48 ≤ c.toNat ∧ c.toNat ≤ 57

/-- The number a text of decimal digits denotes. -/
def digitsValue (ds : List Char) : Nat :=
  ds.foldl (fun acc c => acc * 10 + (c.toNat - 48)) 0

/-- The address part of a declaration: the text before the first `'/'`, the whole text when
there is none. -/
def addressPart (cidr : List Char) : List Char :=
  match findChar '/' cidr with
  | none => cidr
  | some slash_pos => cidr.take slash_pos

/-- The prefix part of a declaration: the text after the first `'/'`, when there is one. -/
def prefixPart (cidr : List Char) : Option (List Char) :=
  match findChar '/' cidr with
  | none => none
  | some slash_pos => some (cidr.drop (slash_pos + 1))

/-- The concatenation, in declaration order, of `expandCIDR d limit` over the declarations
`d` that contain no `':'`; it is defined when every one of these expansions is. -/
def concatExpansions (limit : Nat) : List (List Char) → Option (List (List Char))
  | [] => some []
  | d :: ds =>
    if ':' ∈ d then concatExpansions limit ds
    else
      match CIDRUtils.expandCIDR d limit, concatExpansions limit ds with
      | some a, some b => some (a ++ b)
      | _, _ => none

/-- A probe with transport success and a status code greater than 0. -/
def aliveProbe : Transfer → Bool
  | Transfer.ok response_code _ => decide (toInt32 response_code > 0)
  | _ => false

/-- The candidates whose probe had transport success and a status code greater than 0, in
candidate order. -/
def aliveSpec (all_ips : List (List Char)) (probe : Nat → Transfer) : List (List Char) :=
  (List.range all_ips.length).filterMap
    (fun i => if aliveProbe (probe i) = true then all_ips[i]? else none)

/-- The transport error of a probe: the text `head` records, `none` when the transfer
succeeded. -/
def transportError : Transfer → Option (List Char)
  | Transfer.init_failed => some "Failed to initialize CURL".toList
  | Transfer.failed strerror => some strerror
  | Transfer.ok _ _ => none

/-- A space or a tab, the two characters the header values are trimmed of. -/
def isBlank (c : Char) : Prop := c = ' ' ∨ c = '\t'

/-- The header block of a response whose headers were sent with lower-case names. -/
def lowerCaseHeaders : List Char :=
  ("HTTP/2 200 \r\ncf-cache-status: HIT\r\ncf-ray: 8428f15b8a9c1234-SJC\r\n" ++
    "cf-ipcountry: DK\r\n\r\n").toList

/-- The text of the octets the dotted-quad scanner has finished, each followed by its dot. -/
def doneText (done : List Nat) : List Char :=
  (done.map (fun o => octetText o ++ ['.'])).flatten

/-- The text the dotted-quad scanner has read when it is in state `st`. -/
def scannedText (st : PtonState) : List Char :=
  doneText st.done ++ (if st.saw_digit = true then octetText st.cur else [])

/-- The five lines that `saveAliveIPs` writes before the addresses: four comment lines and an
empty line. -/
def aliveHeader (count : Nat) (timestamp : List Char) : List (List Char) :=
  ["# Cloudflare CDN Alive IPs".toList,
   "# IPs that responded with HIT or MISS status".toList,
   "# Scanned: ".toList ++ timestamp,
   "# Total alive: ".toList ++ decimal count,
   []]

/-- An entry that the round trip through the alive list keeps as it is: not empty, without
newline, not starting with `'#'`, and with neither a space, a tab nor a carriage return at
either end. -/
@[reducible] def cleanEntry (ip : List Char) : Prop :=
  ip ≠ [] ∧ '\n' ∉ ip ∧ ip.head? ≠ some '#' ∧
    ∀ c ∈ [' ', '\t', '\r'], ip.head? ≠ some c ∧ ip.getLast? ≠ some c

/-- What the dotted-quad scanner keeps true of its state. -/
def PtonInv (st : PtonState) : Prop :=
  st.done.length + (if st.saw_digit = true then 1 else 0) = st.octets ∧ st.octets ≤ 4 ∧
    (st.saw_digit = false → st.octets < 4) ∧ st.cur ≤ 255 ∧ ∀ o ∈ st.done, o ≤ 255


/-! ## Facts about the library models -/

theorem ptonStep_inv (st st2 : PtonState) (ch : Char) (hi : PtonInv st)
    (h : ptonStep st ch = some st2) : PtonInv st2 := by
  obtain ⟨h1, h2, h3, h4, h5⟩ := hi
  simp only [ptonStep] at h
  split_ifs at h with hd hz hn hs ho hdot h4o
  · simp only [Option.some.injEq] at h; subst h
    refine ⟨?_, ?_, ?_, ?_, h5⟩ <;> simp_all
  · have hs2 : st.saw_digit = true := by simpa using hs
    simp only [Option.some.injEq] at h; subst h
    refine ⟨?_, h2, ?_, ?_, h5⟩ <;> simp_all
  · simp only [Option.some.injEq] at h; subst h
    refine ⟨?_, h2, ?_, ?_, ?_⟩
    · simp_all
    · intro _; show st.octets < 4; omega
    · simp
    · intro o ho2
      rcases List.mem_append.mp ho2 with hm | hm
      · exact h5 o hm
      · simp at hm; omega

theorem ptonLoop_inv (src : List Char) : ∀ (st st2 : PtonState), PtonInv st →
    ptonLoop st src = some st2 → PtonInv st2 := by
  induction src with
  | nil => intro st st2 hi h; simp [ptonLoop] at h; subst h; exact hi
  | cons ch rest ih =>
    intro st st2 hi h
    unfold ptonLoop at h
    cases hs : ptonStep st ch with
    | none => simp [hs] at h
    | some st3 =>
      simp only [hs] at h
      exact ih st3 st2 (ptonStep_inv st st3 ch hi hs) h

theorem foldl_octets_lt (l : List Nat) (hl : ∀ o ∈ l, o ≤ 255) :
    ∀ acc : Nat, l.foldl (fun a o => a * 256 + o) 0 + acc * 256 ^ l.length
      = l.foldl (fun a o => a * 256 + o) acc ∧
      l.foldl (fun a o => a * 256 + o) 0 < 256 ^ l.length := by
  induction l using List.reverseRecOn with
  | nil => intro acc; simp
  | append_singleton l x ih =>
    intro acc
    have hx : x ≤ 255 := hl x (by simp)
    have hl2 : ∀ o ∈ l, o ≤ 255 := fun o ho => hl o (by simp [ho])
    obtain ⟨e, b⟩ := ih hl2 acc
    simp only [List.foldl_append, List.foldl_cons, List.foldl_nil, List.length_append,
      List.length_singleton, pow_succ]
    constructor
    · rw [← e]; ring
    · omega

/-- The value `inet_pton` delivers fits 32 bits. -/
theorem inet_pton_lt (src : List Char) (v : Nat) (h : inet_pton src = some v) : v < U32 := by
  unfold inet_pton at h
  cases hl : ptonLoop { done := [], cur := 0, saw_digit := false, octets := 0 } src with
  | none => simp [hl] at h
  | some st =>
    simp only [hl] at h
    have hi : PtonInv st := ptonLoop_inv src _ st (by simp [PtonInv]) hl
    obtain ⟨h1, h2, h3, h4, h5⟩ := hi
    split_ifs at h with ho
    simp only [Option.some.injEq] at h
    have hs : st.saw_digit = true := by
      by_contra hc
      have := h3 (by simpa using hc)
      omega
    have hlen : (st.done ++ [st.cur]).length = 4 := by
      simp [hs] at h1; simp; omega
    have hall : ∀ o ∈ st.done ++ [st.cur], o ≤ 255 := by
      intro o ho2
      rcases List.mem_append.mp ho2 with hm | hm
      · exact h5 o hm
      · simp at hm; omega
    have := (foldl_octets_lt _ hall 0).2
    rw [hlen] at this
    rw [← h]; simpa [U32] using this

/-! ## Facts about `CIDRUtils` -/

namespace CIDRUtils

theorem getHostCount_of_pos (p : Int) (h1 : 1 ≤ p) (h2 : p ≤ 32) :
    getHostCount p = 2 ^ (32 - p).toNat := by
  obtain ⟨k, rfl⟩ : ∃ k : Nat, p = (k : Int) := ⟨p.toNat, by omega⟩
  have hk1 : 1 ≤ k := by omega
  have hk2 : k ≤ 32 := by omega
  interval_cases k <;> rfl

theorem getHostCount_zero : getHostCount 0 = 1 := by decide

theorem pow_le_of_pos (p : Int) (h1 : 1 ≤ p) (h2 : p ≤ 32) :
    1 ≤ 2 ^ (32 - p).toNat ∧ 2 ^ (32 - p).toNat ≤ 2147483648 := by
  obtain ⟨k, rfl⟩ : ∃ k : Nat, p = (k : Int) := ⟨p.toNat, by omega⟩
  have hk1 : 1 ≤ k := by omega
  have hk2 : k ≤ 32 := by omega
  interval_cases k <;> decide

theorem mask_add_pow (p : Int) (h1 : 1 ≤ p) (h2 : p ≤ 32) :
    shl32 (not32 0) (32 - p).toNat + 2 ^ (32 - p).toNat = U32 := by
  obtain ⟨k, rfl⟩ : ∃ k : Nat, p = (k : Int) := ⟨p.toNat, by omega⟩
  have hk1 : 1 ≤ k := by omega
  have hk2 : k ≤ 32 := by omega
  interval_cases k <;> rfl

theorem ipToUint32_lt (ip : List Char) : ipToUint32 ip < U32 := by
  unfold ipToUint32
  cases h : inet_pton (c_str ip) with
  | none => simp [U32]
  | some v => exact inet_pton_lt _ v h

/-- A successful parse does not depend on what the reference parameters held before. -/
theorem parseCIDR_success_indep (cidr : List Char) (b0 b1 : Nat) (p0 p1 : Int) (base : Nat)
    (p : Int) (h : parseCIDR cidr b0 p0 = (true, base, p)) :
    parseCIDR cidr b1 p1 = (true, base, p) := by
  unfold parseCIDR at h ⊢
  cases hf : findChar '/' cidr with
  | none => simpa [hf] using h
  | some slash_pos =>
    simp only [hf] at h ⊢
    split_ifs at h ⊢ with hz
    · simp at h
    · cases hs : stoi (cidr.drop (slash_pos + 1)) with
      | none => simp [hs] at h
      | some q => simpa [hs] using h

/-- What a successful parse delivers: a prefix length in `[0,32]`, and a base address that
leaves room for the whole block below `2^32` (the base of a `/0` block is `0`). -/
theorem parseCIDR_success (cidr : List Char) (b0 : Nat) (p0 : Int) (base : Nat) (p : Int)
    (h : parseCIDR cidr b0 p0 = (true, base, p)) :
    0 ≤ p ∧ p ≤ 32 ∧ (1 ≤ p → base + 2 ^ (32 - p).toNat ≤ U32) ∧ (p = 0 → base = 0) := by
  unfold parseCIDR at h
  cases hf : findChar '/' cidr with
  | none =>
    simp only [hf, Prod.mk.injEq] at h
    obtain ⟨_, hb, hp⟩ := h
    subst hp
    have := ipToUint32_lt cidr
    refine ⟨by decide, by decide, ?_, by intro h0; omega⟩
    intro _
    have e : (32 - (32 : Int)).toNat = 0 := by decide
    rw [e, ← hb]; simp; omega
  | some slash_pos =>
    simp only [hf] at h
    split_ifs at h with hz
    · simp at h
    · cases hs : stoi (cidr.drop (slash_pos + 1)) with
      | none => simp [hs] at h
      | some q =>
        simp only [hs] at h
        by_cases hr : q < 0 ∨ q > 32
        · rw [if_pos hr] at h; simp at h
        · rw [if_neg hr] at h
          simp only [Prod.mk.injEq, true_and] at h
          obtain ⟨hb, hq⟩ := h
          subst hq
          refine ⟨by omega, by omega, ?_, ?_⟩
          · intro hq1
            have hm := mask_add_pow q hq1 (by omega)
            have hne : ¬ q = 0 := by omega
            rw [if_neg hne] at hb
            have hle : Nat.land (ipToUint32 (cidr.take slash_pos))
                (shl32 (not32 0) (32 - q).toNat) ≤ shl32 (not32 0) (32 - q).toNat :=
              Nat.and_le_right
            omega
          · intro hq0
            rw [if_pos hq0] at hb
            rw [← hb]
            exact Nat.and_zero _

theorem stride_lt (T cap i : Nat) (hcap : 1 ≤ cap) (hi : i < cap) (hlt : cap < T) :
    i * (T / cap) + T / cap ≤ T ∧ 1 ≤ T / cap := by
  have h1 : 1 ≤ T / cap := (Nat.one_le_div_iff (by omega)).mpr (by omega)
  have h2 : T / cap * cap ≤ T := Nat.div_mul_le_self T cap
  have h3 : (i + 1) * (T / cap) ≤ cap * (T / cap) := Nat.mul_le_mul_right _ (by omega)
  refine ⟨?_, h1⟩
  have h4 : (i + 1) * (T / cap) = i * (T / cap) + T / cap := by ring
  have h5 : cap * (T / cap) = T / cap * cap := by ring
  omega

/-- In the sampling branch the 32-bit computation of an offset never wraps and gives the
clamped offset of the specification. -/
theorem sampleOffset_eq_spec (T cap i : Nat) (hcap : 1 ≤ cap) (hi : i < cap) (hlt : cap < T)
    (hT : T ≤ 2147483648) :
    sampleOffset T (T / cap) i = clampSpec T (offsetSpec T cap i) := by
  obtain ⟨hs, h1⟩ := stride_lt T cap i hcap hi hlt
  unfold sampleOffset clampSpec offsetSpec add32 sub32 U32 SZ
  generalize T / cap = s at hs h1 ⊢
  generalize i * s = o at hs ⊢
  have e1 : o % 18446744073709551616 % 4294967296 = o := by omega
  simp only [e1]
  by_cases hj : i > 0 ∧ s > 4
  · simp only [if_pos hj]
    have e2 : (o + i % 4) % 4294967296 = o + i % 4 := by omega
    simp only [e2]
    split_ifs <;> omega
  · simp only [if_neg hj]
    split_ifs <;> omega

theorem clampSpec_bounds (T o : Nat) (ho : o < T) :
    clampSpec T o ≤ T - 1 ∧ (T > 2 → 1 ≤ clampSpec T o ∧ clampSpec T o ≤ T - 2) := by
  unfold clampSpec
  split_ifs <;> omega

/-- The sampling branch, for a block of prefix length in `[1,32]` that is larger than the
cap: one address per sample index, each the base plus the clamped offset. -/
theorem expandParsed_sample (base : Nat) (p : Int) (cap : Nat) (h1 : 1 ≤ p) (h2 : p ≤ 32)
    (hcap : 1 ≤ cap) (hlt : cap < 2 ^ (32 - p).toNat)
    (hb : base + 2 ^ (32 - p).toNat ≤ U32) :
    expandParsed base p cap = some ((List.range cap).map
      (fun i => base + clampSpec (2 ^ (32 - p).toNat) (offsetSpec (2 ^ (32 - p).toNat) cap i))) := by
  obtain ⟨hT1, hT⟩ := pow_le_of_pos p h1 h2
  unfold expandParsed
  simp only [getHostCount_of_pos p h1 h2]
  generalize 2 ^ (32 - p).toNat = T at hlt hb hT1 hT ⊢
  have hne : ¬ cap = SIZE_MAX := by unfold SIZE_MAX; omega
  have hcond : T > cap ∧ decide (cap = SIZE_MAX) = false := ⟨hlt, by simpa using hne⟩
  rw [if_pos hcond, if_neg (by omega : ¬ cap = 0)]
  refine congrArg some ?_
  apply List.map_congr_left
  intro i hi
  have hi2 : i < cap := List.mem_range.mp hi
  rw [sampleOffset_eq_spec T cap i hcap hi2 hlt hT]
  obtain ⟨hs, hs1⟩ := stride_lt T cap i hcap hi2 hlt
  have ho : offsetSpec T cap i < T := by
    unfold offsetSpec; split_ifs <;> omega
  have hc := (clampSpec_bounds T _ ho).1
  unfold add32
  apply Nat.mod_eq_of_lt
  omega

theorem filter_ends (m : Nat) :
    (List.range (m + 2)).filter (fun i => !(i == 0 || i == m + 1)) = List.range' 1 m := by
  rw [List.range_eq_range', List.range'_succ, List.range'_concat]
  have hmid : (List.range' (0 + 1) m).filter (fun i => !(i == 0 || i == m + 1))
      = List.range' (0 + 1) m := by
    apply List.filter_eq_self.mpr
    intro a ha
    have := List.mem_range'_1.mp ha
    have h0 : ¬ a = 0 := by omega
    have h1 : ¬ a = m + 1 := by omega
    simp [h0, h1]
  rw [List.filter_cons, List.filter_append, hmid]
  simp [Nat.add_comm]

/-- The full-enumeration branch, for a block of prefix length in `[1,32]` that is not larger
than the cap, or in force-all mode. -/
theorem expandParsed_full (base : Nat) (p : Int) (cap : Nat) (h1 : 1 ≤ p) (h2 : p ≤ 32)
    (hcap : 2 ^ (32 - p).toNat ≤ cap ∨ cap = SIZE_MAX)
    (hb : base + 2 ^ (32 - p).toNat ≤ U32) :
    expandParsed base p cap =
      some (if p < 31 then List.range' (base + 1) (2 ^ (32 - p).toNat - 2)
        else List.range' base (2 ^ (32 - p).toNat)) := by
  obtain ⟨hT1, hT⟩ := pow_le_of_pos p h1 h2
  have hT4 : p < 31 → 4 ≤ 2 ^ (32 - p).toNat := by
    intro hp
    have : 2 ^ 2 ≤ 2 ^ (32 - p).toNat := Nat.pow_le_pow_right (by decide) (by omega)
    simpa using this
  unfold expandParsed
  simp only [getHostCount_of_pos p h1 h2]
  generalize 2 ^ (32 - p).toNat = T at hcap hb hT1 hT hT4 ⊢
  have hcond : ¬ (T > cap ∧ decide (cap = SIZE_MAX) = false) := by
    rintro ⟨ha, hbb⟩
    rcases hcap with hc | hc
    · omega
    · simp [hc] at hbb
  rw [if_neg hcond]
  refine congrArg some ?_
  have hmap : ∀ (s n : Nat), s + n ≤ T →
      (List.range' s n).map (fun i => add32 base i) = List.range' (base + s) n := by
    intro s n hsn
    rw [← List.map_add_range']
    apply List.map_congr_left
    intro i hi
    have := List.mem_range'_1.mp hi
    unfold add32
    apply Nat.mod_eq_of_lt
    omega
  by_cases hp : p < 31
  · have h4 := hT4 hp
    obtain ⟨m, rfl⟩ : ∃ m, T = m + 2 := ⟨T - 2, by omega⟩
    have hs : sub32 (m + 2) 1 = m + 1 := by unfold sub32 U32; omega
    simp only [hp, decide_True, Bool.true_and, hs, if_true]
    rw [filter_ends, hmap 1 m (by omega)]
    simp
  · simp only [hp, decide_False, Bool.false_and, Bool.not_false, if_false]
    rw [List.filter_true, List.range_eq_range', hmap 0 T (by omega)]
    simp

/-- A `/0` block: the 32-bit host count is `1`, not above any cap of at least 1, and the one
offset `0` is skipped as the network address, so no address is produced. -/
theorem expandParsed_prefix_zero (base cap : Nat) (hcap : 1 ≤ cap) :
    expandParsed base 0 cap = some [] := by
  unfold expandParsed
  simp only [getHostCount_zero]
  rw [if_neg (by omega)]
  rfl

/-- A `/0` block under the cap `0`: the host count `1` is above the cap and the stride
`total_hosts / max_ips` divides by zero. -/
theorem expandParsed_prefix_zero_cap_zero (base : Nat) : expandParsed base 0 0 = none := by
  unfold expandParsed
  simp only [getHostCount_zero]
  rfl

theorem expandCIDRNums_of_parse (cidr : List Char) (b0 : Nat) (p0 : Int) (base : Nat) (p : Int)
    (cap : Nat) (h : parseCIDR cidr b0 p0 = (true, base, p)) :
    expandCIDRNums cidr cap = expandParsed base p cap := by
  unfold expandCIDRNums
  rw [parseCIDR_success_indep cidr b0 0 p0 0 base p h]

end CIDRUtils

/-! ## Address-block sampling: results -/

namespace CIDRUtils

/-- Sampling branch, prefix length in `[1,32]`: `expandCIDR` returns, and the result has
exactly `cap` addresses. -/
theorem expandCIDR_sample_length (cidr : List Char) (b0 : Nat) (p0 : Int) (base : Nat)
    (p : Int) (cap : Nat) (h : parseCIDR cidr b0 p0 = (true, base, p)) (hp : 1 ≤ p)
    (hcap : 1 ≤ cap) (hlt : cap < 2 ^ (32 - p).toNat) :
    ∃ ips, expandCIDR cidr cap = some ips ∧ ips.length = cap := by
  obtain ⟨_, h32, hb, _⟩ := parseCIDR_success cidr b0 p0 base p h
  unfold expandCIDR
  rw [expandCIDRNums_of_parse cidr b0 p0 base p cap h,
    expandParsed_sample base p cap hp h32 hcap hlt (hb hp)]
  exact ⟨_, rfl, by simp⟩

/-- Sampling branch, prefix length in `[1,32]`: `expandCIDR` returns, sample `i` is the base
plus the clamped offset of the specification, and the sum stays below `2^32`. -/
theorem expandCIDRNums_sample_getElem (cidr : List Char) (b0 : Nat) (p0 : Int) (base : Nat)
    (p : Int) (cap i : Nat) (h : parseCIDR cidr b0 p0 = (true, base, p)) (hp : 1 ≤ p)
    (hcap : 1 ≤ cap) (hlt : cap < 2 ^ (32 - p).toNat) (hi : i < cap) :
    (∃ ips, expandCIDRNums cidr cap = some ips ∧ ips[i]? =
        some (base + clampSpec (2 ^ (32 - p).toNat) (offsetSpec (2 ^ (32 - p).toNat) cap i))) ∧
      base + clampSpec (2 ^ (32 - p).toNat) (offsetSpec (2 ^ (32 - p).toNat) cap i) < U32 := by
  obtain ⟨_, h32, hb, _⟩ := parseCIDR_success cidr b0 p0 base p h
  obtain ⟨hT1, hT⟩ := pow_le_of_pos p hp h32
  have hb2 := hb hp
  rw [expandCIDRNums_of_parse cidr b0 p0 base p cap h,
    expandParsed_sample base p cap hp h32 hcap hlt hb2]
  constructor
  · exact ⟨_, rfl, by simp [List.getElem?_range hi]⟩
  · generalize 2 ^ (32 - p).toNat = T at hlt hb2 hT1 hT ⊢
    obtain ⟨hs, hs1⟩ := stride_lt T cap i hcap hi hlt
    have ho : offsetSpec T cap i < T := by
      unfold offsetSpec; split_ifs <;> omega
    have hc := (clampSpec_bounds T _ ho).1
    omega

/-- Full enumeration, prefix length in `[1,32]`, in force-all mode or under a cap that is
not smaller than the block. -/
theorem expandCIDRNums_full (cidr : List Char) (b0 : Nat) (p0 : Int) (base : Nat)
    (p : Int) (cap : Nat) (h : parseCIDR cidr b0 p0 = (true, base, p)) (hp : 1 ≤ p)
    (hcap : 2 ^ (32 - p).toNat ≤ cap ∨ cap = SIZE_MAX) :
    expandCIDRNums cidr cap =
      some (if p < 31 then List.range' (base + 1) (2 ^ (32 - p).toNat - 2)
        else List.range' base (2 ^ (32 - p).toNat)) := by
  obtain ⟨_, h32, hb, _⟩ := parseCIDR_success cidr b0 p0 base p h
  rw [expandCIDRNums_of_parse cidr b0 p0 base p cap h,
    expandParsed_full base p cap hp h32 hcap (hb hp)]

/-- Claim C1, at the input where the code departs from it: the declaration `1.0.0.0/0` is
accepted with prefix length 0, its block of `2^32` addresses is larger than the cap 10, and
`expandCIDR` returns no address at all instead of 10. For prefix lengths in `[1,32]` the
count is right (`expandCIDR_sample_length`). -/
theorem expandCIDR_slash_zero_sample :
    parseCIDR "1.0.0.0/0".toList 0 0 = (true, 0, 0) ∧ 2 ^ (32 - 0) > 10 ∧
      expandCIDR "1.0.0.0/0".toList 10 = some [] ∧
      ¬ ∃ ips, expandCIDR "1.0.0.0/0".toList 10 = some ips ∧ ips.length = 10 := by
  have h : expandCIDR "1.0.0.0/0".toList 10 = some [] := by decide
  refine ⟨by decide, by decide, h, ?_⟩
  rintro ⟨ips, h1, h2⟩
  rw [h] at h1
  cases h1
  simp at h2

/-- Claim C2: for an accepted block with base `base` and prefix length `p`, and a cap
`cap >= 1` smaller than `hostCount = 2^(32-p)`, `expandCIDR` returns, and every address
returned lies in `[base, base + hostCount - 1]`, and strictly inside that interval when
`hostCount > 2`. -/
theorem expandCIDR_sample_in_range (cidr : List Char) (b0 : Nat) (p0 : Int) (base : Nat)
    (p : Int) (cap : Nat) (h : parseCIDR cidr b0 p0 = (true, base, p))
    (hcap : 1 ≤ cap) (hlt : cap < 2 ^ (32 - p).toNat) :
    ∃ ips, expandCIDRNums cidr cap = some ips ∧
      expandCIDR cidr cap = some (ips.map uint32ToIp) ∧
      ∀ a ∈ ips,
        (base ≤ a ∧ a ≤ base + 2 ^ (32 - p).toNat - 1) ∧
        (2 ^ (32 - p).toNat > 2 → base < a ∧ a < base + 2 ^ (32 - p).toNat - 1) := by
  obtain ⟨h0, h32, hb, hz⟩ := parseCIDR_success cidr b0 p0 base p h
  unfold expandCIDR
  rw [expandCIDRNums_of_parse cidr b0 p0 base p cap h]
  by_cases hp : 1 ≤ p
  · obtain ⟨hT1, hT⟩ := pow_le_of_pos p hp h32
    rw [expandParsed_sample base p cap hp h32 hcap hlt (hb hp)]
    refine ⟨_, rfl, rfl, ?_⟩
    intro a ha
    obtain ⟨i, hi, rfl⟩ := List.mem_map.mp ha
    have hi2 : i < cap := List.mem_range.mp hi
    generalize 2 ^ (32 - p).toNat = T at hlt hT1 hT ⊢
    obtain ⟨hs, hs1⟩ := stride_lt T cap i hcap hi2 hlt
    have ho : offsetSpec T cap i < T := by
      unfold offsetSpec; split_ifs <;> omega
    obtain ⟨hc1, hc2⟩ := clampSpec_bounds T _ ho
    refine ⟨⟨by omega, by omega⟩, ?_⟩
    intro h2
    have := hc2 h2
    omega
  · have hp0 : p = 0 := by omega
    subst hp0
    rw [expandParsed_prefix_zero base cap hcap]
    refine ⟨[], rfl, rfl, ?_⟩
    intro a ha
    simp at ha

/-- Claim C2, the scenario of the specification: `198.51.100.0/24` with cap 4 returns four
addresses, all strictly between `198.51.100.0` and `198.51.100.255`. -/
theorem expandCIDR_sample_in_range_witness :
    parseCIDR "198.51.100.0/24".toList 0 0 = (true, 3325256704, 24) ∧
      expandCIDR "198.51.100.0/24".toList 4 =
        some ["198.51.100.1".toList, "198.51.100.65".toList, "198.51.100.130".toList,
          "198.51.100.195".toList] ∧
      ∃ ips, expandCIDRNums "198.51.100.0/24".toList 4 = some ips ∧
        expandCIDR "198.51.100.0/24".toList 4 = some (ips.map uint32ToIp) ∧
        ∀ a ∈ ips,
          (3325256704 ≤ a ∧ a ≤ 3325256704 + 2 ^ (32 - (24 : Int)).toNat - 1) ∧
          (2 ^ (32 - (24 : Int)).toNat > 2 →
            3325256704 < a ∧ a < 3325256704 + 2 ^ (32 - (24 : Int)).toNat - 1) :=
  ⟨by decide, by decide,
    expandCIDR_sample_in_range "198.51.100.0/24".toList 0 0 3325256704 24 4 (by decide)
      (by decide) (by decide)⟩

/-- Claim C3, at the input where the code departs from it: for the accepted declaration
`1.0.0.0/0` and cap 10 the specification places sample 0 at `base + clamp(0) = 1`, while the
code, whose 32-bit host count cannot hold `2^32`, returns a sequence without a sample 0. For
prefix lengths in `[1,32]` every sample is the one the rule gives, without wrap-around
(`expandCIDRNums_sample_getElem`). -/
theorem expandCIDRNums_slash_zero_no_sample :
    parseCIDR "1.0.0.0/0".toList 0 0 = (true, 0, 0) ∧
      0 + clampSpec (2 ^ (32 - 0)) (offsetSpec (2 ^ (32 - 0)) 10 0) = 1 ∧
      expandCIDRNums "1.0.0.0/0".toList 10 = some [] ∧
      ([] : List Nat)[0]? = none := by
  decide

/-- Claim C4: for an accepted block with prefix length `p` in `[25,32]` and a cap that is at
least `hostCount = 2^(32-p)` (at most 128), `expandCIDR` returns, and the addresses returned
are `base+1 .. base+hostCount-2` when `p < 31` and `base .. base+hostCount-1` when `p` is 31
or 32, each once, in strictly ascending order, printed by `uint32ToIp`. -/
theorem expandCIDR_small_block (cidr : List Char) (b0 : Nat) (p0 : Int) (base : Nat)
    (p : Int) (cap : Nat) (h : parseCIDR cidr b0 p0 = (true, base, p)) (hp : 25 ≤ p)
    (hcap : 2 ^ (32 - p).toNat ≤ cap) :
    ∃ ips, expandCIDRNums cidr cap = some ips ∧
      expandCIDR cidr cap = some (ips.map uint32ToIp) ∧
      ips = (if p < 31 then List.range' (base + 1) (2 ^ (32 - p).toNat - 2)
        else List.range' base (2 ^ (32 - p).toNat)) ∧
      ips.Pairwise (· < ·) ∧ ips.Nodup ∧ 2 ^ (32 - p).toNat ≤ 128 := by
  have hfull := expandCIDRNums_full cidr b0 p0 base p cap h (by omega) (Or.inl hcap)
  obtain ⟨_, h32, _, _⟩ := parseCIDR_success cidr b0 p0 base p h
  have hpw : (if p < 31 then List.range' (base + 1) (2 ^ (32 - p).toNat - 2)
      else List.range' base (2 ^ (32 - p).toNat)).Pairwise (· < ·) := by
    split_ifs <;> exact List.pairwise_lt_range' _ _
  refine ⟨_, hfull, ?_, rfl, hpw, ?_, ?_⟩
  · unfold expandCIDR; rw [hfull]; rfl
  · exact hpw.imp (fun hab => Nat.ne_of_lt hab)
  · have : 2 ^ (32 - p).toNat ≤ 2 ^ 7 := Nat.pow_le_pow_right (by decide) (by omega)
    simpa using this

/-- Claim C4, scenario A of the specification: `198.51.100.0/30` with cap 10 returns
`[198.51.100.1, 198.51.100.2]`. -/
theorem expandCIDR_small_block_witness :
    expandCIDR "198.51.100.0/30".toList 10
        = some ["198.51.100.1".toList, "198.51.100.2".toList] ∧
    ∃ ips, expandCIDRNums "198.51.100.0/30".toList 10 = some ips ∧
      expandCIDR "198.51.100.0/30".toList 10 = some (ips.map uint32ToIp) ∧
      ips = (if (30 : Int) < 31
        then List.range' (3325256704 + 1) (2 ^ (32 - (30 : Int)).toNat - 2)
        else List.range' 3325256704 (2 ^ (32 - (30 : Int)).toNat)) ∧
      ips.Pairwise (· < ·) ∧ ips.Nodup ∧ 2 ^ (32 - (30 : Int)).toNat ≤ 128 :=
  ⟨by decide,
    expandCIDR_small_block "198.51.100.0/30".toList 0 0 3325256704 30 10 (by decide)
      (by decide) (by decide)⟩

/-- Force-all mode, prefix length in `[1,32]`: no sampling, and the number of addresses is
`2^(32-p) - 2` below `/31`, `2` for `/31` and `1` for `/32`. -/
theorem expandCIDR_force_all (cidr : List Char) (b0 : Nat) (p0 : Int) (base : Nat)
    (p : Int) (h : parseCIDR cidr b0 p0 = (true, base, p)) (hp : 1 ≤ p) :
    ∃ ips, expandCIDRNums cidr SIZE_MAX = some ips ∧
      expandCIDR cidr SIZE_MAX = some (ips.map uint32ToIp) ∧
      ips = (if p < 31 then List.range' (base + 1) (2 ^ (32 - p).toNat - 2)
        else List.range' base (2 ^ (32 - p).toNat)) ∧
      ips.length = (if p < 31 then 2 ^ (32 - p).toNat - 2 else if p = 31 then 2 else 1) := by
  have hfull := expandCIDRNums_full cidr b0 p0 base p SIZE_MAX h hp (Or.inr rfl)
  obtain ⟨_, h32, _, _⟩ := parseCIDR_success cidr b0 p0 base p h
  refine ⟨_, hfull, ?_, rfl, ?_⟩
  · unfold expandCIDR; rw [hfull]; rfl
  · by_cases h31 : p < 31
    · simp [h31]
    · by_cases e31 : p = 31
      · subst e31; simp
      · have e32 : p = 32 := by omega
        subst e32; simp

/-- Claim C6, at the input where the code departs from it: `getHostCount(0)` is a 32-bit
value, so it is not `2^32`, and it is at most 1, so it is not above any cap of at least 1;
every result of `getHostCount` is below `2^32`. For prefix lengths in `[1,32]` the result is
`2^(32-p)` (`getHostCount_of_pos`). -/
theorem getHostCount_slash_zero :
    getHostCount 0 ≠ 2 ^ (32 - 0) ∧ getHostCount 0 ≤ 1 ∧
      ∀ p : Int, getHostCount p < 2 ^ 32 := by
  refine ⟨by decide, by decide, ?_⟩
  intro p
  unfold getHostCount shl32 U32
  split_ifs
  · decide
  · exact Nat.mod_lt _ (by decide)

end CIDRUtils

/-! ## Range expansion over a tracker: results -/

namespace CDNTracker

/-- In force-all mode the expansion does not read the configured cap. -/
theorem expandAllRanges_force_all_cap (t : CDNTracker) (cap : Nat) :
    (setForceAll (setMaxIPsPerRange t cap) true).expandAllRanges =
      (setForceAll t true).expandAllRanges := by
  simp [expandAllRanges, setForceAll, setMaxIPsPerRange]

/-- Claim C5, at the input where the code departs from it: in force-all mode the accepted
declaration `1.0.0.0/0` expands to no address at all, under every configured cap, where the
claim counts `2^32 - 2`. For prefix lengths in `[1,32]` the enumeration is complete
(`CIDRUtils.expandCIDR_force_all`). -/
theorem expandAllRanges_force_all_slash_zero :
    CIDRUtils.parseCIDR "1.0.0.0/0".toList 0 0 = (true, 0, 0) ∧
      CIDRUtils.expandCIDR "1.0.0.0/0".toList SIZE_MAX = some [] ∧
      2 ^ (32 - 0) - 2 ≠ ([] : List (List Char)).length ∧
      ∀ cap : Nat, (setForceAll (setMaxIPsPerRange
        { CDNTracker.new with ip_ranges_ := ["1.0.0.0/0".toList] } cap) true).expandAllRanges
          = some [] := by
  refine ⟨by decide, by decide, by decide, ?_⟩
  intro cap
  rw [expandAllRanges_force_all_cap]
  decide

end CDNTracker

/-! ## The thread pool: results -/

namespace CDNTracker

/-- Without wrap-around the slice size is the ceiling of `n / num_threads`. -/
theorem ips_per_thread_eq (n c : Nat) (hc : 1 ≤ c) (hw : n + c ≤ SZ) :
    ips_per_thread n c = some ((n + c - 1) / c) := by
  unfold ips_per_thread
  have hne : ¬ c = 0 := by omega
  rw [if_neg hne]
  have e : ((n + c) % SZ + SZ - 1) % SZ = n + c - 1 := by
    unfold SZ at hw ⊢
    omega
  rw [e]

theorem ceil_bounds (n c : Nat) (hc : 1 ≤ c) :
    (n + c - 1) / c * c ≤ n + c - 1 ∧ n ≤ c * ((n + c - 1) / c) := by
  have h1 := Nat.div_add_mod (n + c - 1) c
  have h2 := Nat.mod_lt (n + c - 1) (show c > 0 by omega)
  have h3 : (n + c - 1) / c * c = c * ((n + c - 1) / c) := Nat.mul_comm _ _
  constructor <;> omega

theorem threadSlices_succ (n k m : Nat) :
    threadSlices n k (m + 1) = threadSlices n k m ++ (sliceOf n k m).toList := by
  unfold threadSlices
  rw [List.range_succ, List.filterMap_append]
  cases h : sliceOf n k m <;> simp [h]

/-- The first `m` passes of the thread-creation loop hand out, in order, the indices below
`min (m*k) n`, as long as `m*k` does not wrap. -/
theorem slices_flatten (n k : Nat) : ∀ m : Nat, m * k < SZ →
    ((threadSlices n k m).map (workerIndices n)).flatten = List.range (min (m * k) n) := by
  intro m
  induction m with
  | zero => intro _; simp [threadSlices]
  | succ m ih =>
    intro hw
    have e : (m + 1) * k = m * k + k := by ring
    have hw2 : m * k < SZ := by omega
    rw [threadSlices_succ, List.map_append, List.flatten_append, ih hw2]
    have e1 : (m * k) % SZ = m * k := Nat.mod_eq_of_lt hw2
    have e2 : (m * k + k) % SZ = m * k + k := Nat.mod_eq_of_lt (by omega)
    unfold sliceOf
    simp only [e1, e2]
    by_cases hs : m * k < n
    · rw [if_pos hs]
      simp only [Option.toList, List.map_cons, List.map_nil, List.flatten_cons,
        List.flatten_nil, List.append_nil, workerIndices]
      obtain ⟨d, hd⟩ : ∃ d, min (m * k + k) n = m * k + d :=
        ⟨min (m * k + k) n - m * k, by omega⟩
      have e4 : min (m * k) n = m * k := by omega
      have e6 : min (min (m * k + k) n) n - m * k = d := by omega
      rw [e, e4, e6, hd, List.range_eq_range', List.range_eq_range']
      have := List.range'_append_1 0 (m * k) d
      rw [Nat.add_comm (m * k) d]
      simpa using this
    · rw [if_neg hs]
      have e5 : min ((m + 1) * k) n = min (m * k) n := by omega
      simp [e5]

theorem sliceSize_eq (n k t : Nat) (hw : (t + 1) * k < SZ) :
    sliceSize n k t = min k (n - t * k) := by
  have e : (t + 1) * k = t * k + k := by ring
  have e1 : (t * k) % SZ = t * k := Nat.mod_eq_of_lt (by omega)
  have e2 : (t * k + k) % SZ = t * k + k := Nat.mod_eq_of_lt (by omega)
  unfold sliceSize sliceOf
  simp only [e1, e2]
  by_cases hs : t * k < n
  · simp only [if_pos hs, workerIndices, List.length_range']
    omega
  · simp only [if_neg hs]
    omega

theorem filterMap_range_getElem (l : List (List Char)) :
    (List.range l.length).filterMap (fun i => l[i]?) = l := by
  induction l using List.reverseRecOn with
  | nil => simp
  | append_singleton l x ih =>
    rw [List.length_append, List.length_singleton, List.range_succ, List.filterMap_append]
    have h1 : (List.range l.length).filterMap (fun i => (l ++ [x])[i]?)
        = (List.range l.length).filterMap (fun i => l[i]?) := by
      apply List.filterMap_congr
      intro i hi
      exact List.getElem?_append_left (List.mem_range.mp hi)
    rw [h1, ih]
    simp

theorem slice_mul_lt (n c t : Nat) (hc : 1 ≤ c) (hw : n + c ≤ SZ) (ht : t < c) :
    (t + 1) * ((n + c - 1) / c) < SZ := by
  obtain ⟨b1, _⟩ := ceil_bounds n c hc
  have h : (t + 1) * ((n + c - 1) / c) ≤ c * ((n + c - 1) / c) :=
    Nat.mul_le_mul_right _ (by omega)
  have e : (n + c - 1) / c * c = c * ((n + c - 1) / c) := Nat.mul_comm _ _
  omega

/-- Claim C7, refuted as stated: with 2 targets and `num_threads = SIZE_MAX` (at least 1) the
`size_t` sum `2 + num_threads - 1` wraps to `0`, the slice size is `0`, and no target is
assigned to any worker. -/
theorem dispatch_wraps :
    1 ≤ SIZE_MAX ∧ ips_per_thread 2 SIZE_MAX = some 0 ∧
      (dispatch 2 SIZE_MAX).map List.flatten = some [] ∧
      (dispatch 2 SIZE_MAX).map List.flatten ≠ some (List.range 2) := by
  have h0 : ips_per_thread 2 SIZE_MAX = some 0 := by decide
  have h1 : (dispatch 2 SIZE_MAX).map List.flatten = some [] := by
    unfold dispatch
    rw [h0]
    simp only [Option.map_some']
    rw [slices_flatten 2 0 SIZE_MAX (by decide)]
    simp
  refine ⟨by decide, h0, h1, ?_⟩
  rw [h1]
  decide

/-- Claim C7, amended: for a target list of `n` entries and `c >= 1` threads such that
`n + c - 1` fits `size_t`, the slice size is `k = ceil(n/c)`, thread `t` is started exactly
when `t*k < n` and then receives `[t*k, min(t*k + k, n))`, and the index lists of the started
workers, concatenated in thread order, are `0, 1, .., n-1`: every target is read by exactly
one worker, and the targets read, in thread order, are the target list. -/
theorem dispatch_partition (all_ips : List (List Char)) (c : Nat) (hc : 1 ≤ c)
    (hw : all_ips.length + c ≤ SZ) :
    ∃ k slices, ips_per_thread all_ips.length c = some k ∧
      all_ips.length ≤ c * k ∧ k * c < all_ips.length + c ∧
      (∀ t, t < c → sliceOf all_ips.length k t =
        if t * k < all_ips.length then some (t * k, min (t * k + k) all_ips.length) else none) ∧
      dispatch all_ips.length c = some slices ∧
      slices.flatten = List.range all_ips.length ∧
      slices.flatten.Nodup ∧
      slices.flatten.filterMap (fun i => all_ips[i]?) = all_ips := by
  obtain ⟨b1, b2⟩ := ceil_bounds all_ips.length c hc
  have hk := ips_per_thread_eq all_ips.length c hc hw
  have hfl := slices_flatten all_ips.length ((all_ips.length + c - 1) / c) c (by
    have := slice_mul_lt all_ips.length c (c - 1) hc hw (by omega)
    have e : c - 1 + 1 = c := by omega
    rwa [e] at this)
  have hmin : min (c * ((all_ips.length + c - 1) / c)) all_ips.length = all_ips.length := by
    omega
  rw [hmin] at hfl
  refine ⟨(all_ips.length + c - 1) / c, _, hk, b2, by omega, ?_, ?_, hfl, ?_, ?_⟩
  · intro t ht
    have hlt := slice_mul_lt all_ips.length c t hc hw ht
    generalize (all_ips.length + c - 1) / c = k at hlt ⊢
    have e : (t + 1) * k = t * k + k := by ring
    have e1 : (t * k) % SZ = t * k := Nat.mod_eq_of_lt (by omega)
    have e2 : (t * k + k) % SZ = t * k + k := Nat.mod_eq_of_lt (by omega)
    unfold sliceOf
    simp only [e1, e2]
  · unfold dispatch
    rw [hk]
    rfl
  · rw [hfl]; exact List.nodup_range _
  · rw [hfl]; exact filterMap_range_getElem all_ips

/-- Claim C7, scenario C of the specification: 23 targets and 5 threads give the slices
`[0,5) [5,10) [10,15) [15,20) [20,23)`, of sizes `[5,5,5,5,3]`. -/
theorem dispatch_partition_witness :
    sliceSizes 23 5 = some [5, 5, 5, 5, 3] ∧
    threadSlices 23 5 5 = [(0, 5), (5, 10), (10, 15), (15, 20), (20, 23)] ∧
    ∃ k slices, ips_per_thread (List.replicate 23 ['a']).length 5 = some k ∧
      (List.replicate 23 ['a']).length ≤ 5 * k ∧ k * 5 < (List.replicate 23 ['a']).length + 5 ∧
      (∀ t, t < 5 → sliceOf (List.replicate 23 ['a']).length k t =
        if t * k < (List.replicate 23 ['a']).length
        then some (t * k, min (t * k + k) (List.replicate 23 ['a']).length) else none) ∧
      dispatch (List.replicate 23 ['a']).length 5 = some slices ∧
      slices.flatten = List.range (List.replicate 23 ['a']).length ∧
      slices.flatten.Nodup ∧
      slices.flatten.filterMap (fun i => (List.replicate 23 ['a'])[i]?)
        = List.replicate 23 ['a'] :=
  ⟨by decide, by decide, dispatch_partition (List.replicate 23 ['a']) 5 (by decide) (by decide)⟩

/-- Claim C8, refuted as stated: 5 targets on 4 threads give slices of sizes `[2,2,1,0]` with
`ceil(5/4) = 2`; the third slice is not the last one and has 1 target. -/
theorem sliceSizes_short_before_last :
    ips_per_thread 5 4 = some 2 ∧ sliceSizes 5 4 = some [2, 2, 1, 0] ∧
      ¬ (∀ t, t < 4 - 1 → sliceSize 5 2 t = 2) := by
  refine ⟨by decide, by decide, ?_⟩
  intro h
  exact absurd (h 2 (by decide)) (by decide)

/-- Claim C8, amended: for `n` targets and `c >= 1` threads such that `n + c - 1` fits
`size_t`, with `k = ceil(n/c)`, slice `t` has `min(k, n - t*k)` targets (none when
`t*k >= n`: no worker is started); no slice has more than `k` targets, and every slice that
is followed by a non-empty slice has exactly `k`. So the only shorter non-empty slice is the
last non-empty one, and any number of empty slices may follow it. -/
theorem sliceSizes_shape (n c : Nat) (hc : 1 ≤ c) (hw : n + c ≤ SZ) :
    ∃ k, ips_per_thread n c = some k ∧ n ≤ c * k ∧ k * c < n + c ∧
      sliceSizes n c = some ((List.range c).map (fun t => min k (n - t * k))) ∧
      (∀ t, t < c → sliceSize n k t ≤ k) ∧
      (∀ t u, t < u → u < c → 0 < sliceSize n k u → sliceSize n k t = k) := by
  obtain ⟨b1, b2⟩ := ceil_bounds n c hc
  have hk := ips_per_thread_eq n c hc hw
  have hsz : ∀ t, t < c → sliceSize n ((n + c - 1) / c) t
      = min ((n + c - 1) / c) (n - t * ((n + c - 1) / c)) :=
    fun t ht => sliceSize_eq n _ t (slice_mul_lt n c t hc hw ht)
  refine ⟨(n + c - 1) / c, hk, b2, by omega, ?_, ?_, ?_⟩
  · unfold sliceSizes
    rw [hk]
    simp only [Option.map_some', Option.some.injEq]
    apply List.map_congr_left
    intro t ht
    exact hsz t (List.mem_range.mp ht)
  · intro t ht
    rw [hsz t ht]
    omega
  · intro t u htu hu hpos
    rw [hsz u hu] at hpos
    rw [hsz t (by omega)]
    have h : (t + 1) * ((n + c - 1) / c) ≤ u * ((n + c - 1) / c) :=
      Nat.mul_le_mul_right _ (by omega)
    have e : (t + 1) * ((n + c - 1) / c) = t * ((n + c - 1) / c) + (n + c - 1) / c := by ring
    omega

/-- Claim C8, amended, on an instance: 5 targets on 4 threads. -/
theorem sliceSizes_shape_witness :
    ∃ k, ips_per_thread 5 4 = some k ∧ 5 ≤ 4 * k ∧ k * 4 < 5 + 4 ∧
      sliceSizes 5 4 = some ((List.range 4).map (fun t => min k (5 - t * k))) ∧
      (∀ t, t < 4 → sliceSize 5 k t ≤ k) ∧
      (∀ t u, t < u → u < 4 → 0 < sliceSize 5 k u → sliceSize 5 k t = k) :=
  sliceSizes_shape 5 4 (by decide) (by decide)

end CDNTracker

/-! ## Classification and counts: results -/

namespace HTTPClient

theorem parseCacheStatus_hit (response : HTTPResponse) (hd : List Char)
    (h : response.is_cache_hit = true ↔ response.cf_cache_status = "HIT".toList) :
    (parseCacheStatus response hd).is_cache_hit = true ↔
      (parseCacheStatus response hd).cf_cache_status = "HIT".toList := by
  unfold parseCacheStatus
  cases headerValue hd "CF-Cache-Status:".toList with
  | none => exact h
  | some v => simp

theorem parseRay_cache (response : HTTPResponse) (hd : List Char) :
    (parseRay response hd).is_cache_hit = response.is_cache_hit ∧
      (parseRay response hd).cf_cache_status = response.cf_cache_status ∧
      (parseRay response hd).success = response.success ∧
      (parseRay response hd).error_message = response.error_message := by
  unfold parseRay
  cases headerValue hd "CF-Ray:".toList <;> simp

theorem parseCountry_cache (response : HTTPResponse) (hd : List Char) :
    (parseCountry response hd).is_cache_hit = response.is_cache_hit ∧
      (parseCountry response hd).cf_cache_status = response.cf_cache_status ∧
      (parseCountry response hd).success = response.success ∧
      (parseCountry response hd).error_message = response.error_message := by
  unfold parseCountry
  cases headerValue hd "CF-IPCountry:".toList <;> simp

/-- In every response `head` returns, the hit flag is set exactly when the cache-status text
is `HIT`. -/
theorem head_is_cache_hit (tr : Transfer) :
    (head tr).is_cache_hit = true ↔ (head tr).cf_cache_status = "HIT".toList := by
  cases tr with
  | init_failed => simp [head]
  | failed e => simp [head]
  | ok code hd =>
    unfold head
    simp only []
    rw [(parseCountry_cache _ hd).1, (parseCountry_cache _ hd).2.1, (parseRay_cache _ hd).1,
      (parseRay_cache _ hd).2.1]
    apply parseCacheStatus_hit
    simp

end HTTPClient

namespace CDNTracker

theorem toInt32_incr (a : Int) : incr32 (toInt32 a) = toInt32 (a + 1) := by
  unfold incr32 toInt32
  omega

theorem toInt32_small (k : Nat) (h : k ≤ 2147483647) : toInt32 (k : Int) = (k : Int) := by
  unfold toInt32
  omega

theorem classCount_total (results : List CDNCheckResult) :
    classCount Status.HIT results + classCount Status.MISS results
      + classCount Status.ERROR results = results.length := by
  unfold classCount
  induction results with
  | nil => rfl
  | cons r rest ih =>
    simp only [List.countP_cons, List.length_cons]
    cases h : displayResult r <;> simp <;> omega

/-- The counting loop from any start: each counter advances, in `int` arithmetic, by the number
of outcomes of its class. -/
theorem displaySummary_foldl (results : List CDNCheckResult) : ∀ a b c : Int,
    results.foldl displaySummaryStep { hits := toInt32 a, misses := toInt32 b, errors := toInt32 c }
      = { hits := toInt32 (a + classCount Status.HIT results),
          misses := toInt32 (b + classCount Status.MISS results),
          errors := toInt32 (c + classCount Status.ERROR results) } := by
  induction results with
  | nil => intro a b c; simp [classCount]
  | cons r rest ih =>
    intro a b c
    rw [List.foldl_cons]
    by_cases he : r.error_message ≠ []
    · have hd : displayResult r = Status.ERROR := by simp [displayResult, he]
      have hstep : displaySummaryStep
          { hits := toInt32 a, misses := toInt32 b, errors := toInt32 c } r
          = { hits := toInt32 a, misses := toInt32 b, errors := toInt32 (c + 1) } := by
        simp [displaySummaryStep, he, toInt32_incr]
      have c1 : classCount Status.ERROR (r :: rest) = classCount Status.ERROR rest + 1 := by
        simp [classCount, hd]
      have c2 : classCount Status.HIT (r :: rest) = classCount Status.HIT rest := by
        simp [classCount, hd]
      have c3 : classCount Status.MISS (r :: rest) = classCount Status.MISS rest := by
        simp [classCount, hd]
      have e : c + 1 + (classCount Status.ERROR rest : Int)
          = c + ((classCount Status.ERROR rest + 1 : Nat) : Int) := by push_cast; ring
      rw [hstep, ih, c1, c2, c3, e]
    · have he2 : r.error_message = [] := by simpa using he
      by_cases hh : r.is_hit = true
      · have hd : displayResult r = Status.HIT := by simp [displayResult, he2, hh]
        have hstep : displaySummaryStep
            { hits := toInt32 a, misses := toInt32 b, errors := toInt32 c } r
            = { hits := toInt32 (a + 1), misses := toInt32 b, errors := toInt32 c } := by
          simp [displaySummaryStep, he2, hh, toInt32_incr]
        have c1 : classCount Status.ERROR (r :: rest) = classCount Status.ERROR rest := by
          simp [classCount, hd]
        have c2 : classCount Status.HIT (r :: rest) = classCount Status.HIT rest + 1 := by
          simp [classCount, hd]
        have c3 : classCount Status.MISS (r :: rest) = classCount Status.MISS rest := by
          simp [classCount, hd]
        have e : a + 1 + (classCount Status.HIT rest : Int)
            = a + ((classCount Status.HIT rest + 1 : Nat) : Int) := by push_cast; ring
        rw [hstep, ih, c1, c2, c3, e]
      · have hd : displayResult r = Status.MISS := by simp [displayResult, he2, hh]
        have hstep : displaySummaryStep
            { hits := toInt32 a, misses := toInt32 b, errors := toInt32 c } r
            = { hits := toInt32 a, misses := toInt32 (b + 1), errors := toInt32 c } := by
          simp [displaySummaryStep, he2, hh, toInt32_incr]
        have c1 : classCount Status.ERROR (r :: rest) = classCount Status.ERROR rest := by
          simp [classCount, hd]
        have c2 : classCount Status.HIT (r :: rest) = classCount Status.HIT rest := by
          simp [classCount, hd]
        have c3 : classCount Status.MISS (r :: rest) = classCount Status.MISS rest + 1 := by
          simp [classCount, hd]
        have e : b + 1 + (classCount Status.MISS rest : Int)
            = b + ((classCount Status.MISS rest + 1 : Nat) : Int) := by push_cast; ring
        rw [hstep, ih, c1, c2, c3, e]

theorem displaySummary_counts (results : List CDNCheckResult) :
    displaySummary results
      = { hits := toInt32 (classCount Status.HIT results),
          misses := toInt32 (classCount Status.MISS results),
          errors := toInt32 (classCount Status.ERROR results) } := by
  have h := displaySummary_foldl results 0 0 0
  have e : toInt32 0 = 0 := by decide
  simpa [displaySummary, e] using h

theorem displayResultsTableStep_eq : displayResultsTableStep = displaySummaryStep := rfl

theorem displayResultsTableCounts_eq (results : List CDNCheckResult) :
    displayResultsTableCounts results = displaySummary results := rfl

/-- Claim C9: the outcome `track` builds from any response of `head` is classified ERROR
exactly when its error text is non-empty, HIT exactly when the error text is empty and the
cache-status text is `HIT` (so `hit`, `Hit`, `MISS`, `EXPIRED`, `DYNAMIC` and the empty text
are not hits), and MISS otherwise; a non-empty error text gives ERROR on every outcome,
whatever its cache-status; and `displayResult`, the loop of `displaySummary` and the two
places of `displayResultsTable` apply one and the same rule. -/
theorem classification_rule (ip_address : List Char) (tr : Transfer) (other : CDNCheckResult)
    (cnt : Counts) :
    (displayResult (trackResult ip_address (HTTPClient.head tr)) = Status.ERROR ↔
      (trackResult ip_address (HTTPClient.head tr)).error_message ≠ []) ∧
    (displayResult (trackResult ip_address (HTTPClient.head tr)) = Status.HIT ↔
      (trackResult ip_address (HTTPClient.head tr)).error_message = [] ∧
      (trackResult ip_address (HTTPClient.head tr)).cache_status = "HIT".toList) ∧
    (displayResult (trackResult ip_address (HTTPClient.head tr)) = Status.MISS ↔
      (trackResult ip_address (HTTPClient.head tr)).error_message = [] ∧
      (trackResult ip_address (HTTPClient.head tr)).cache_status ≠ "HIT".toList) ∧
    (other.error_message ≠ [] → displayResult other = Status.ERROR) ∧
    displayResultsTableStatus other = displayResult other ∧
    displaySummaryStep cnt other =
      (match displayResult other with
        | Status.ERROR => { cnt with errors := incr32 cnt.errors }
        | Status.HIT => { cnt with hits := incr32 cnt.hits }
        | Status.MISS => { cnt with misses := incr32 cnt.misses }) ∧
    displayResultsTableStep cnt other = displaySummaryStep cnt other ∧
    displayResult (answered "HIT") = Status.HIT ∧
    displayResult (answered "hit") = Status.MISS ∧
    displayResult (answered "Hit") = Status.MISS ∧
    displayResult (answered "MISS") = Status.MISS ∧
    displayResult (answered "EXPIRED") = Status.MISS ∧
    displayResult (answered "DYNAMIC") = Status.MISS ∧
    displayResult (answered "") = Status.MISS ∧
    displayResult { answered "HIT" with error_message := "Timeout was reached".toList }
      = Status.ERROR := by
  have hh := HTTPClient.head_is_cache_hit tr
  have e1 : (trackResult ip_address (HTTPClient.head tr)).is_hit
      = (HTTPClient.head tr).is_cache_hit := rfl
  have e2 : (trackResult ip_address (HTTPClient.head tr)).cache_status
      = (HTTPClient.head tr).cf_cache_status := rfl
  rw [← e1, ← e2] at hh
  generalize trackResult ip_address (HTTPClient.head tr) = r at hh
  refine ⟨?_, ?_, ?_, ?_, rfl, ?_, rfl, by decide, by decide, by decide, by decide, by decide,
    by decide, by decide, by decide⟩
  · unfold displayResult
    split_ifs <;> simp_all
  · unfold displayResult
    split_ifs <;> simp_all
  · unfold displayResult
    split_ifs <;> simp_all
  · intro h; simp [displayResult, h]
  · unfold displayResult displaySummaryStep
    split_ifs <;> rfl

/-- Claim C10, refuted as stated: on a list of `2^31` timed-out outcomes the `int` counter of
errors cannot hold the number of outcomes classified ERROR (the wrapping increment of the
model leaves it at `-2^31`). -/
theorem displaySummary_overflow :
    classCount Status.ERROR (List.replicate 2147483648 timedOut) = 2147483648 ∧
      (displaySummary (List.replicate 2147483648 timedOut)).errors = -2147483648 ∧
      (displaySummary (List.replicate 2147483648 timedOut)).errors
        ≠ ((classCount Status.ERROR (List.replicate 2147483648 timedOut) : Nat) : Int) := by
  have hc : classCount Status.ERROR (List.replicate 2147483648 timedOut) = 2147483648 := by
    unfold classCount
    rw [List.countP_replicate]
    have : decide (displayResult timedOut = Status.ERROR) = true := by decide
    rw [this]
    rfl
  have he : (displaySummary (List.replicate 2147483648 timedOut)).errors = -2147483648 := by
    rw [displaySummary_counts, hc]
    decide
  refine ⟨hc, he, ?_⟩
  rw [he, hc]
  decide

/-- Claim C10, amended: for every list of outcomes in which no class has more than
`2^31 - 1` members (in particular every list of at most `2^31 - 1` outcomes), the counters
of `displaySummary` and of `displayResultsTable` are the numbers of outcomes classified HIT,
MISS and ERROR, the three classes split the list, and the counters add up to its length. -/
theorem displaySummary_exact (results : List CDNCheckResult)
    (hH : classCount Status.HIT results ≤ 2147483647)
    (hM : classCount Status.MISS results ≤ 2147483647)
    (hE : classCount Status.ERROR results ≤ 2147483647) :
    (displaySummary results).hits = (classCount Status.HIT results : Int) ∧
      (displaySummary results).misses = (classCount Status.MISS results : Int) ∧
      (displaySummary results).errors = (classCount Status.ERROR results : Int) ∧
      displayResultsTableCounts results = displaySummary results ∧
      classCount Status.HIT results + classCount Status.MISS results
        + classCount Status.ERROR results = results.length ∧
      (displaySummary results).hits + (displaySummary results).misses
        + (displaySummary results).errors = (results.length : Int) := by
  have h := displaySummary_counts results
  have t := classCount_total results
  refine ⟨?_, ?_, ?_, displayResultsTableCounts_eq results, t, ?_⟩
  · rw [h]; exact toInt32_small _ hH
  · rw [h]; exact toInt32_small _ hM
  · rw [h]; exact toInt32_small _ hE
  · rw [h]
    show toInt32 _ + toInt32 _ + toInt32 _ = _
    rw [toInt32_small _ hH, toInt32_small _ hM, toInt32_small _ hE, ← t]
    push_cast
    ring

/-- Claim C10, amended, on an instance: two hits, a miss and a timed-out probe. -/
theorem displaySummary_exact_witness :
    displaySummary [answered "HIT", timedOut, answered "MISS", answered "HIT"]
      = { hits := 2, misses := 1, errors := 1 } ∧
    ((displaySummary [answered "HIT", timedOut, answered "MISS", answered "HIT"]).hits =
        (classCount Status.HIT [answered "HIT", timedOut, answered "MISS", answered "HIT"]
          : Int) ∧
      (displaySummary [answered "HIT", timedOut, answered "MISS", answered "HIT"]).misses =
        (classCount Status.MISS [answered "HIT", timedOut, answered "MISS", answered "HIT"]
          : Int) ∧
      (displaySummary [answered "HIT", timedOut, answered "MISS", answered "HIT"]).errors =
        (classCount Status.ERROR [answered "HIT", timedOut, answered "MISS", answered "HIT"]
          : Int) ∧
      displayResultsTableCounts [answered "HIT", timedOut, answered "MISS", answered "HIT"]
        = displaySummary [answered "HIT", timedOut, answered "MISS", answered "HIT"] ∧
      classCount Status.HIT [answered "HIT", timedOut, answered "MISS", answered "HIT"]
        + classCount Status.MISS [answered "HIT", timedOut, answered "MISS", answered "HIT"]
        + classCount Status.ERROR [answered "HIT", timedOut, answered "MISS", answered "HIT"]
        = [answered "HIT", timedOut, answered "MISS", answered "HIT"].length ∧
      (displaySummary [answered "HIT", timedOut, answered "MISS", answered "HIT"]).hits
        + (displaySummary [answered "HIT", timedOut, answered "MISS", answered "HIT"]).misses
        + (displaySummary [answered "HIT", timedOut, answered "MISS", answered "HIT"]).errors
        = ([answered "HIT", timedOut, answered "MISS", answered "HIT"].length : Int)) :=
  ⟨by decide,
    displaySummary_exact [answered "HIT", timedOut, answered "MISS", answered "HIT"]
      (by decide) (by decide) (by decide)⟩

end CDNTracker

/-! ## The point-of-presence code and transport failures: results -/

theorem find_last_of_none (ch : Char) (s : List Char) (h : ch ∉ s) :
    find_last_of ch s = none := by
  induction s with
  | nil => rfl
  | cons c cs ih =>
    have h1 : ¬ c = ch := fun e => h (by simp [e])
    have h2 : ch ∉ cs := fun e => h (by simp [e])
    simp [find_last_of, ih h2, h1]

theorem find_last_of_append (ch : Char) (pre post : List Char) (h : ch ∉ post) :
    find_last_of ch (pre ++ ch :: post) = some pre.length := by
  induction pre with
  | nil => simp [find_last_of, find_last_of_none ch post h]
  | cons c cs ih => simp [find_last_of, ih]

namespace HTTPClient

theorem iataOf_append (pre post : List Char) (h : '-' ∉ post) :
    iataOf (pre ++ '-' :: post) = if 3 ≤ post.length then post.take 3 else [] := by
  unfold iataOf
  rw [find_last_of_append '-' pre post h]
  simp only [List.length_append, List.length_cons]
  by_cases h3 : 3 ≤ post.length
  · rw [if_pos (by omega), if_pos h3]
    unfold substr
    have e : pre ++ '-' :: post = (pre ++ ['-']) ++ post := by simp
    have e2 : pre.length + 1 = (pre ++ ['-']).length := by simp
    rw [e, e2, List.drop_left]
  · rw [if_neg (by omega), if_neg h3]

theorem parseCacheStatus_ray (response : HTTPResponse) (hd : List Char) :
    (parseCacheStatus response hd).cf_ray = response.cf_ray ∧
      (parseCacheStatus response hd).cf_iata_code = response.cf_iata_code := by
  unfold parseCacheStatus
  cases headerValue hd "CF-Cache-Status:".toList <;> simp

theorem parseCountry_ray (response : HTTPResponse) (hd : List Char) :
    (parseCountry response hd).cf_ray = response.cf_ray ∧
      (parseCountry response hd).cf_iata_code = response.cf_iata_code := by
  unfold parseCountry
  cases headerValue hd "CF-IPCountry:".toList <;> simp

theorem parseRay_iata (response : HTTPResponse) (hd : List Char)
    (h : response.cf_iata_code = iataOf response.cf_ray) :
    (parseRay response hd).cf_iata_code = iataOf (parseRay response hd).cf_ray := by
  unfold parseRay
  cases headerValue hd "CF-Ray:".toList with
  | none => exact h
  | some v => rfl

/-- Claim C12: in every response of `head` the point-of-presence code is computed from the
trimmed ray identifier `r` by `iataOf`; when `r` has no `'-'` the code is empty; when `r`
is `pre ++ "-" ++ post` with no `'-'` in `post` (so this is the last `'-'`), the code is the
first 3 characters of `post` if `post` has at least 3 characters and the empty text
otherwise; `iataOf` is a total function, so no case raises an error. The ray
`8428f15b8a9c1234-SJC` yields `SJC`. -/
theorem iataOf_rule (r : List Char) (tr : Transfer) :
    (head tr).cf_iata_code = iataOf (head tr).cf_ray ∧
    ('-' ∉ r → iataOf r = []) ∧
    (∀ pre post, r = pre ++ '-' :: post → '-' ∉ post →
      (3 ≤ post.length → iataOf r = post.take 3 ∧ (iataOf r).length = 3) ∧
      (post.length < 3 → iataOf r = [])) ∧
    iataOf "8428f15b8a9c1234-SJC".toList = "SJC".toList ∧
    iataOf "8428f15b8a9c1234-SJCX".toList = "SJC".toList ∧
    iataOf "8428f15b8a9c1234-SJ".toList = [] ∧
    iataOf "8428f15b8a9c1234".toList = [] ∧
    (head (Transfer.ok 200
      "HTTP/1.1 200 OK\r\nCF-Ray: 8428f15b8a9c1234-SJC\r\n\r\n".toList)).cf_iata_code
        = "SJC".toList ∧
    (head (Transfer.ok 200
      "HTTP/1.1 200 OK\r\nCF-Ray: 8428f15b8a9c1234-SJ\r\n\r\n".toList)).cf_iata_code
        = [] := by
  refine ⟨?_, ?_, ?_, by decide, by decide, by decide, by decide, by decide, by decide⟩
  · cases tr with
    | init_failed => rfl
    | failed e => rfl
    | ok code hd =>
      unfold head
      simp only []
      rw [(parseCountry_ray _ hd).1, (parseCountry_ray _ hd).2]
      apply parseRay_iata
      rw [(parseCacheStatus_ray _ hd).1, (parseCacheStatus_ray _ hd).2]
      rfl
  · intro h
    unfold iataOf
    rw [find_last_of_none '-' r h]
  · intro pre post hr hpost
    subst hr
    rw [iataOf_append pre post hpost]
    constructor
    · intro h3
      rw [if_pos h3]
      exact ⟨rfl, by simp; omega⟩
    · intro h3
      rw [if_neg (by omega)]

end HTTPClient

namespace CDNTracker

/-- Claim C18: when the transport fails (the handle cannot be created, or the transfer
result is not OK) `head` returns `success = false`, status code 0, the transport error as
error text, the hit flag off and every header field empty; `head` and the worker of `track`
are total, so the failure is a value and nothing is raised; and, the text of a failed
transfer being non-empty, the outcome `track` builds has a non-empty error text exactly when
the transport failed. -/
theorem head_transport_failure (ip_address : List Char) (tr : Transfer)
    (hne : ∀ e, tr = Transfer.failed e → e ≠ []) :
    (∀ e, transportError tr = some e →
      HTTPClient.head tr =
        { status_code := 0, body := [], success := false, error_message := e,
          is_cache_hit := false, cf_cache_status := [], cf_ray := [], cf_iata_code := [],
          cf_ip_country := [] } ∧
      (trackResult ip_address (HTTPClient.head tr)).error_message = e ∧
      displayResult (trackResult ip_address (HTTPClient.head tr)) = Status.ERROR) ∧
    (transportError tr = none →
      (HTTPClient.head tr).success = true ∧
      (trackResult ip_address (HTTPClient.head tr)).error_message = []) ∧
    ((trackResult ip_address (HTTPClient.head tr)).error_message ≠ [] ↔
      transportError tr ≠ none) := by
  cases tr with
  | init_failed =>
    refine ⟨?_, ?_, ?_⟩
    · intro e he
      simp only [transportError, Option.some.injEq] at he
      subst he
      exact ⟨rfl, rfl, by simp [displayResult, trackResult, HTTPClient.head]⟩
    · intro h; simp [transportError] at h
    · simp [transportError, trackResult, HTTPClient.head]
  | failed msg =>
    have hm : msg ≠ [] := hne msg rfl
    refine ⟨?_, ?_, ?_⟩
    · intro e he
      simp only [transportError, Option.some.injEq] at he
      subst he
      refine ⟨rfl, rfl, ?_⟩
      simp [displayResult, trackResult, HTTPClient.head, hm]
    · intro h; simp [transportError] at h
    · simp [transportError, trackResult, HTTPClient.head, hm]
  | ok code hd =>
    have hs : (HTTPClient.head (Transfer.ok code hd)).success = true := by
      unfold HTTPClient.head
      simp only []
      rw [(HTTPClient.parseCountry_cache _ hd).2.2.1, (HTTPClient.parseRay_cache _ hd).2.2.1]
      unfold HTTPClient.parseCacheStatus
      cases HTTPClient.headerValue hd "CF-Cache-Status:".toList <;> rfl
    refine ⟨?_, ?_, ?_⟩
    · intro e he; simp [transportError] at he
    · intro _
      exact ⟨hs, by simp [trackResult, hs]⟩
    · simp [transportError, trackResult, hs]

/-- Claim C18, on a probe that times out. -/
theorem head_transport_failure_witness :
    (∀ e, transportError (Transfer.failed "Timeout was reached".toList) = some e →
      HTTPClient.head (Transfer.failed "Timeout was reached".toList) =
        { status_code := 0, body := [], success := false, error_message := e,
          is_cache_hit := false, cf_cache_status := [], cf_ray := [], cf_iata_code := [],
          cf_ip_country := [] } ∧
      (trackResult "192.0.2.1".toList
        (HTTPClient.head (Transfer.failed "Timeout was reached".toList))).error_message = e ∧
      displayResult (trackResult "192.0.2.1".toList
        (HTTPClient.head (Transfer.failed "Timeout was reached".toList))) = Status.ERROR) ∧
    (transportError (Transfer.failed "Timeout was reached".toList) = none →
      (HTTPClient.head (Transfer.failed "Timeout was reached".toList)).success = true ∧
      (trackResult "192.0.2.1".toList
        (HTTPClient.head (Transfer.failed "Timeout was reached".toList))).error_message = []) ∧
    ((trackResult "192.0.2.1".toList
        (HTTPClient.head (Transfer.failed "Timeout was reached".toList))).error_message ≠ [] ↔
      transportError (Transfer.failed "Timeout was reached".toList) ≠ none) :=
  head_transport_failure "192.0.2.1".toList (Transfer.failed "Timeout was reached".toList)
    (by intro e he; cases he; decide)

end CDNTracker

/-! ## Range expansion and target selection: results -/

theorem findChar_isSome (c : Char) (s : List Char) : (findChar c s).isSome = true ↔ c ∈ s := by
  induction s with
  | nil => simp [findChar]
  | cons x xs ih =>
    unfold findChar
    by_cases h : x = c
    · simp [h]
    · have h2 : ¬ c = x := fun e => h e.symm
      simp [h, h2, ih]

namespace CIDRUtils

theorem parseCIDR_fst_indep (cidr : List Char) (b0 b1 : Nat) (p0 p1 : Int) :
    (parseCIDR cidr b0 p0).1 = (parseCIDR cidr b1 p1).1 := by
  unfold parseCIDR
  cases hf : findChar '/' cidr with
  | none => rfl
  | some slash_pos =>
    simp only []
    split_ifs with hz
    · rfl
    · cases hs : stoi (cidr.drop (slash_pos + 1)) with
      | none => rfl
      | some q =>
        by_cases hr : q < 0 ∨ q > 32 <;> simp [hr]

/-- A declaration that fails to parse expands to the empty sequence under every cap. -/
theorem expandCIDR_of_parse_failure (cidr : List Char) (b0 : Nat) (p0 : Int) (cap : Nat)
    (h : (parseCIDR cidr b0 p0).1 = false) :
    expandCIDRNums cidr cap = some [] ∧ expandCIDR cidr cap = some [] := by
  have h0 : (parseCIDR cidr 0 0).1 = false := by
    rw [parseCIDR_fst_indep cidr 0 b0 0 p0]; exact h
  have e : expandCIDRNums cidr cap = some [] := by
    unfold expandCIDRNums
    rcases hp : parseCIDR cidr 0 0 with ⟨ok, base, q⟩
    rw [hp] at h0
    simp only at h0
    subst h0
    rfl
  exact ⟨e, by unfold expandCIDR; rw [e]; rfl⟩

/-- Under a cap of at least 1 (or in force-all mode) `expandCIDR` returns. -/
theorem expandCIDR_returns (cidr : List Char) (cap : Nat) (hcap : 1 ≤ cap) :
    ∃ ips, expandCIDR cidr cap = some ips := by
  have hp : ∀ base p, ∃ l, expandParsed base p cap = some l := by
    intro base p
    unfold expandParsed
    simp only []
    split_ifs with h1 h2
    · omega
    · exact ⟨_, rfl⟩
    · exact ⟨_, rfl⟩
  unfold expandCIDR expandCIDRNums
  rcases parseCIDR cidr 0 0 with ⟨ok, base, q⟩
  cases ok with
  | false => exact ⟨_, rfl⟩
  | true =>
    obtain ⟨l, hl⟩ := hp base q
    simp only [hl]
    exact ⟨_, rfl⟩

end CIDRUtils

theorem concatExpansions_append (limit : Nat) (xs ys : List (List Char)) :
    concatExpansions limit (xs ++ ys) =
      match concatExpansions limit xs, concatExpansions limit ys with
      | some a, some b => some (a ++ b)
      | _, _ => none := by
  induction xs with
  | nil => cases h : concatExpansions limit ys <;> simp [concatExpansions, h]
  | cons d ds ih =>
    simp only [List.cons_append, concatExpansions]
    by_cases hc : ':' ∈ d
    · simp only [hc, if_true]; exact ih
    · simp only [hc, if_false]
      rw [List.append_eq, ih]
      cases CIDRUtils.expandCIDR d limit <;> cases concatExpansions limit ds <;>
        cases concatExpansions limit ys <;> simp

theorem concatExpansions_returns (limit : Nat) (hl : 1 ≤ limit) (ds : List (List Char)) :
    ∃ l, concatExpansions limit ds = some l := by
  induction ds with
  | nil => exact ⟨[], rfl⟩
  | cons d ds ih =>
    obtain ⟨b, hb⟩ := ih
    unfold concatExpansions
    by_cases hc : ':' ∈ d
    · simp only [hc, if_true]; exact ⟨b, hb⟩
    · obtain ⟨a, ha⟩ := CIDRUtils.expandCIDR_returns d limit hl
      simp only [hc, if_false, ha, hb]
      exact ⟨_, rfl⟩

namespace CDNTracker

theorem expandAllRanges_loop (limit : Nat) (ds : List (List Char)) :
    ∀ acc : Option (List (List Char)),
      ds.foldl
        (fun acc ip_range =>
          match acc with
          | none => none
          | some all_ips =>
            if (findChar ':' ip_range).isSome then some all_ips
            else
              match CIDRUtils.expandCIDR ip_range limit with
              | none => none
              | some ips => some (all_ips ++ ips))
        acc
      = match acc, concatExpansions limit ds with
        | some a, some b => some (a ++ b)
        | _, _ => none := by
  induction ds with
  | nil => intro acc; cases acc <;> simp [concatExpansions]
  | cons d ds ih =>
    intro acc
    rw [List.foldl_cons, ih]
    cases acc with
    | none => simp
    | some a =>
      simp only [concatExpansions]
      by_cases hc : ':' ∈ d
      · have hs : (findChar ':' d).isSome = true := (findChar_isSome ':' d).mpr hc
        simp [hc, hs]
      · have hs : ¬ (findChar ':' d).isSome = true := fun e => hc ((findChar_isSome ':' d).mp e)
        simp only [hc, hs, if_false]
        cases CIDRUtils.expandCIDR d limit <;> cases concatExpansions limit ds <;> simp

/-- Claim C17: `expandAllRanges` is the concatenation, in declaration order, of
`expandCIDR d limit` over the declarations `d` without `':'`, with `limit = SIZE_MAX` in
force-all mode and the configured cap otherwise; it returns whenever the limit is at least 1;
a declaration with `':'` and a declaration that fails to parse contribute the empty sequence
under every limit, and taking such a declaration out of the list changes nothing. -/
theorem expandAllRanges_concat (t : CDNTracker) (limit : Nat) :
    t.expandAllRanges =
      concatExpansions (if t.force_all_ = true then SIZE_MAX else t.max_ips_per_range_)
        t.ip_ranges_ ∧
    (1 ≤ (if t.force_all_ = true then SIZE_MAX else t.max_ips_per_range_) →
      ∃ all_ips, t.expandAllRanges = some all_ips) ∧
    (∀ d b0 p0, (CIDRUtils.parseCIDR d b0 p0).1 = false →
      CIDRUtils.expandCIDR d limit = some []) ∧
    (∀ pre d post, (':' ∈ d ∨ (CIDRUtils.parseCIDR d 0 0).1 = false) →
      concatExpansions limit (pre ++ d :: post) = concatExpansions limit (pre ++ post)) ∧
    (∀ xs ys, concatExpansions limit (xs ++ ys) =
      match concatExpansions limit xs, concatExpansions limit ys with
      | some a, some b => some (a ++ b)
      | _, _ => none) := by
  have h1 : t.expandAllRanges =
      concatExpansions (if t.force_all_ = true then SIZE_MAX else t.max_ips_per_range_)
        t.ip_ranges_ := by
    unfold expandAllRanges
    simp only []
    rw [expandAllRanges_loop]
    cases concatExpansions (if t.force_all_ = true then SIZE_MAX else t.max_ips_per_range_)
      t.ip_ranges_ <;> simp
  refine ⟨h1, ?_, ?_, ?_, concatExpansions_append limit⟩
  · intro hl
    rw [h1]
    exact concatExpansions_returns _ hl _
  · intro d b0 p0 h
    exact (CIDRUtils.expandCIDR_of_parse_failure d b0 p0 limit h).2
  · intro pre d post h
    have hd : concatExpansions limit (d :: post) = concatExpansions limit post := by
      simp only [concatExpansions]
      by_cases hc : ':' ∈ d
      · simp [hc]
      · have hf : (CIDRUtils.parseCIDR d 0 0).1 = false := by
          rcases h with h | h
          · exact absurd h hc
          · exact h
        simp only [hc, if_false, (CIDRUtils.expandCIDR_of_parse_failure d 0 0 limit hf).2]
        cases concatExpansions limit post <;> simp
    rw [concatExpansions_append, concatExpansions_append limit pre post, hd]

/-- Claim C20: after `setSpecificIPs(L)` with a non-empty `L` the target list of `track` is
`L`, whatever blocks, cap and force-all flag the tracker holds; with an empty `L`, or with no
call of `setSpecificIPs` on a tracker that has none, the target list is `expandAllRanges()`
when blocks are loaded, and when none is loaded `track` stops with "No IP ranges loaded"
(`expandAllRanges()` is empty then); the alive list and the expansion are never combined,
and `setSpecificIPs` does not change what `expandAllRanges` returns. -/
theorem trackTargets_sources (t t2 : CDNTracker) (L : List (List Char)) :
    (L ≠ [] → trackTargets (setSpecificIPs t L) = TargetChoice.chosen L ∧
      trackTargets (setSpecificIPs t L) = trackTargets (setSpecificIPs t2 L)) ∧
    (trackTargets (setSpecificIPs t []) =
      if t.ip_ranges_ = [] then TargetChoice.no_ranges
      else match t.expandAllRanges with
        | none => TargetChoice.crashed
        | some all_ips => TargetChoice.chosen all_ips) ∧
    (t.use_specific_ips_ = false → trackTargets t =
      if t.ip_ranges_ = [] then TargetChoice.no_ranges
      else match t.expandAllRanges with
        | none => TargetChoice.crashed
        | some all_ips => TargetChoice.chosen all_ips) ∧
    CDNTracker.new.use_specific_ips_ = false ∧
    (setSpecificIPs t L).expandAllRanges = t.expandAllRanges ∧
    (t.ip_ranges_ = [] → t.expandAllRanges = some []) := by
  have hsel : ∀ u : CDNTracker, L ≠ [] →
      trackTargets (setSpecificIPs u L) = TargetChoice.chosen L := by
    intro u hL
    cases L with
    | nil => exact absurd rfl hL
    | cons x xs => simp [trackTargets, setSpecificIPs]
  refine ⟨?_, ?_, ?_, rfl, rfl, ?_⟩
  · intro hL
    exact ⟨hsel t hL, by rw [hsel t hL, hsel t2 hL]⟩
  · by_cases hr : t.ip_ranges_ = []
    · simp [trackTargets, setSpecificIPs, hr]
    · simp only [trackTargets, setSpecificIPs, hr, if_false]
      simp
      rfl
  · intro hu
    by_cases hr : t.ip_ranges_ = []
    · simp [trackTargets, hu, hr]
    · simp [trackTargets, hu, hr]
  · intro hr
    simp [expandAllRanges, hr]

end CDNTracker

/-! ## The texts `inet_pton` accepts -/

theorem octetText_snoc (cur k : Nat) (hc : cur ≠ 0) (hk : k ≤ 9) (hn : cur * 10 + k ≤ 255) :
    octetText (cur * 10 + k) = octetText cur ++ [Char.ofNat (48 + k)] := by
  unfold octetText
  simp only []
  by_cases h10 : cur < 10
  · have e1 : (cur * 10 + k) / 10 = cur := by omega
    have e2 : (cur * 10 + k) % 10 = k := by omega
    rw [if_neg (by omega), if_pos (by omega), if_pos h10, e1, e2]
    rfl
  · have e1 : (cur * 10 + k) / 100 = cur / 10 := by omega
    have e2 : (cur * 10 + k) / 10 % 10 = cur % 10 := by omega
    have e3 : (cur * 10 + k) % 10 = k := by omega
    rw [if_neg (by omega), if_neg (by omega), if_neg h10, if_pos (by omega), e1, e2, e3]
    rfl

theorem ptonStep_text (st st2 : PtonState) (ch : Char) (hi : PtonInv st)
    (hz : st.saw_digit = false → st.cur = 0) (h : ptonStep st ch = some st2) :
    scannedText st2 = scannedText st ++ [ch] ∧ (st2.saw_digit = false → st2.cur = 0) := by
  obtain ⟨_, _, _, h4, _⟩ := hi
  simp only [ptonStep] at h
  by_cases hd : 48 ≤ ch.toNat ∧ ch.toNat ≤ 57
  · rw [if_pos hd] at h
    by_cases hlead : st.saw_digit = true ∧ st.cur = 0
    · rw [if_pos hlead] at h; cases h
    · rw [if_neg hlead] at h
      by_cases hbig : st.cur * 10 + (ch.toNat - 48) > 255
      · rw [if_pos hbig] at h; cases h
      · rw [if_neg hbig] at h
        have hch : Char.ofNat (48 + (ch.toNat - 48)) = ch := by
          have e : 48 + (ch.toNat - 48) = ch.toNat := by omega
          rw [e, Char.ofNat_toNat]
        by_cases hs : st.saw_digit = false
        · rw [if_pos hs] at h
          by_cases ho : st.octets + 1 > 4
          · rw [if_pos ho] at h; cases h
          · rw [if_neg ho] at h
            simp only [Option.some.injEq] at h
            subst h
            have hc0 := hz hs
            refine ⟨?_, by simp⟩
            simp only [scannedText, hs, hc0]
            have e : octetText (ch.toNat - 48) = [ch] := by
              have hlt : ch.toNat - 48 < 10 := by omega
              unfold octetText
              simp only []
              rw [if_pos hlt, hch]
            simp [e]
        · rw [if_neg hs] at h
          simp only [Option.some.injEq] at h
          subst h
          have hs2 : st.saw_digit = true := by simpa using hs
          have hc : st.cur ≠ 0 := fun e => hlead ⟨hs2, e⟩
          refine ⟨?_, by simp [hs2]⟩
          simp only [scannedText, hs2, if_true]
          rw [octetText_snoc st.cur (ch.toNat - 48) hc (by omega) (by omega), hch]
          simp
  · rw [if_neg hd] at h
    by_cases hdot : ch = '.' ∧ st.saw_digit = true
    · rw [if_pos hdot] at h
      by_cases h4o : st.octets = 4
      · rw [if_pos h4o] at h; cases h
      · rw [if_neg h4o] at h
        simp only [Option.some.injEq] at h
        subst h
        refine ⟨?_, by simp⟩
        simp [scannedText, doneText, hdot.1, hdot.2]
    · rw [if_neg hdot] at h; cases h

theorem ptonLoop_text (src : List Char) : ∀ (st st2 : PtonState), PtonInv st →
    (st.saw_digit = false → st.cur = 0) → ptonLoop st src = some st2 →
    scannedText st2 = scannedText st ++ src := by
  induction src with
  | nil =>
    intro st st2 _ _ h
    simp [ptonLoop] at h
    subst h
    simp
  | cons ch rest ih =>
    intro st st2 hi hz h
    unfold ptonLoop at h
    cases hs : ptonStep st ch with
    | none => simp [hs] at h
    | some st3 =>
      simp only [hs] at h
      obtain ⟨e, hz3⟩ := ptonStep_text st st3 ch hi hz hs
      rw [ih st3 st2 (ptonStep_inv st st3 ch hi hs) hz3 h, e]
      simp

/-- The texts `inet_pton` accepts are exactly the texts of dotted-quad addresses: four
decimal octets of at most 255, without leading zeros, separated by dots. -/
theorem inet_pton_complete (src : List Char) (v : Nat) (h : inet_pton src = some v) :
    ∃ a b c d, a ≤ 255 ∧ b ≤ 255 ∧ c ≤ 255 ∧ d ≤ 255 ∧ src = dottedQuad a b c d ∧
      v = quadValue a b c d := by
  unfold inet_pton at h
  cases hl : ptonLoop { done := [], cur := 0, saw_digit := false, octets := 0 } src with
  | none => simp [hl] at h
  | some st =>
    simp only [hl] at h
    have hinit : PtonInv { done := [], cur := 0, saw_digit := false, octets := 0 } := by
      simp [PtonInv]
    have hi : PtonInv st := ptonLoop_inv src _ st hinit hl
    have ht := ptonLoop_text src _ st hinit (by simp) hl
    obtain ⟨h1, h2, h3, h4, h5⟩ := hi
    split_ifs at h with ho
    simp only [Option.some.injEq] at h
    have hs : st.saw_digit = true := by
      by_contra hc
      have := h3 (by simpa using hc)
      omega
    have hlen : st.done.length = 3 := by
      simp [hs] at h1; omega
    obtain ⟨a, b, c, hdone⟩ : ∃ a b c, st.done = [a, b, c] := by
      match hd : st.done, hlen with
      | [a, b, c], _ => exact ⟨a, b, c, rfl⟩
    refine ⟨a, b, c, st.cur, h5 a (by simp [hdone]), h5 b (by simp [hdone]),
      h5 c (by simp [hdone]), h4, ?_, ?_⟩
    · have : src = scannedText st := by
        rw [ht]; simp [scannedText, doneText]
      rw [this]
      simp [scannedText, doneText, hs, hdone, dottedQuad]
    · rw [← h, hdone]
      simp [quadValue]
      ring

theorem octetText_chars (a : Nat) (ha : a ≤ 255) :
    ∀ ch ∈ octetText a, 48 ≤ ch.toNat ∧ ch.toNat ≤ 57 := by
  interval_cases a <;> decide

theorem digit_toNat (k : Nat) (hk : k ≤ 9) : (Char.ofNat (48 + k)).toNat = 48 + k := by
  interval_cases k <;> rfl

theorem digit_step_first (ch : Char) (k : Nat) (hk : k ≤ 9) (hch : ch.toNat = 48 + k)
    (done : List Nat) (octs : Nat) (ho : octs ≤ 3) :
    ptonStep { done := done, cur := 0, saw_digit := false, octets := octs } ch
      = some { done := done, cur := k, saw_digit := true, octets := octs + 1 } := by
  have h1 : 48 ≤ ch.toNat ∧ ch.toNat ≤ 57 := by omega
  have h2 : ¬ (0 * 10 + (ch.toNat - 48) > 255) := by omega
  have h3 : ¬ (octs + 1 > 4) := by omega
  have h4 : 0 * 10 + (ch.toNat - 48) = k := by omega
  simp only [ptonStep, if_pos h1, h4]
  simp [h3]
  omega

theorem digit_step_next (ch : Char) (k : Nat) (hk : k ≤ 9) (hch : ch.toNat = 48 + k)
    (done : List Nat) (cur octs : Nat) (hc : cur ≠ 0) (hn : cur * 10 + k ≤ 255) :
    ptonStep { done := done, cur := cur, saw_digit := true, octets := octs } ch
      = some { done := done, cur := cur * 10 + k, saw_digit := true, octets := octs } := by
  have h1 : 48 ≤ ch.toNat ∧ ch.toNat ≤ 57 := by omega
  have h4 : cur * 10 + (ch.toNat - 48) = cur * 10 + k := by omega
  have h2 : ¬ (cur * 10 + k > 255) := by omega
  simp only [ptonStep, if_pos h1, h4]
  simp [hc, h2]

theorem octet_scan (a : Nat) (ha : a ≤ 255) (done : List Nat) (octs : Nat) (ho : octs ≤ 3)
    (rest : List Char) :
    ptonLoop { done := done, cur := 0, saw_digit := false, octets := octs } (octetText a ++ rest)
      = ptonLoop { done := done, cur := a, saw_digit := true, octets := octs + 1 } rest := by
  unfold octetText
  simp only []
  split_ifs with h10 h100
  · rw [List.singleton_append, ptonLoop,
      digit_step_first _ a (by omega) (digit_toNat a (by omega)) done octs ho]
  · have e : a / 10 * 10 + a % 10 = a := by omega
    rw [List.cons_append, List.singleton_append, ptonLoop,
      digit_step_first _ (a / 10) (by omega) (digit_toNat _ (by omega)) done octs ho]
    simp only []
    rw [ptonLoop, digit_step_next _ (a % 10) (by omega) (digit_toNat _ (by omega)) done
      (a / 10) (octs + 1) (by omega) (by omega)]
    simp only [e]
  · have e1 : a / 100 * 10 + a / 10 % 10 = a / 10 := by omega
    have e2 : a / 10 * 10 + a % 10 = a := by omega
    rw [List.cons_append, List.cons_append, List.singleton_append, ptonLoop,
      digit_step_first _ (a / 100) (by omega) (digit_toNat _ (by omega)) done octs ho]
    simp only []
    rw [ptonLoop, digit_step_next _ (a / 10 % 10) (by omega) (digit_toNat _ (by omega)) done
      (a / 100) (octs + 1) (by omega) (by omega)]
    simp only [e1]
    rw [ptonLoop, digit_step_next _ (a % 10) (by omega) (digit_toNat _ (by omega)) done
      (a / 10) (octs + 1) (by omega) (by omega)]
    simp only [e2]

theorem dot_scan (a : Nat) (done : List Nat) (octs : Nat) (ho : octs ≠ 4) (rest : List Char) :
    ptonLoop { done := done, cur := a, saw_digit := true, octets := octs } ('.' :: rest)
      = ptonLoop { done := done ++ [a], cur := 0, saw_digit := false, octets := octs } rest := by
  have h1 : ¬ (48 ≤ '.'.toNat ∧ '.'.toNat ≤ 57) := by decide
  simp [ptonLoop, ptonStep, h1, ho]

/-- The scanner accepts the text of `a.b.c.d` and delivers its numeric value. -/
theorem inet_pton_dottedQuad (a b c d : Nat) (ha : a ≤ 255) (hb : b ≤ 255) (hc : c ≤ 255)
    (hd : d ≤ 255) : inet_pton (dottedQuad a b c d) = some (quadValue a b c d) := by
  unfold inet_pton dottedQuad
  have e : octetText a ++ '.' :: octetText b ++ '.' :: octetText c ++ '.' :: octetText d
      = octetText a ++ ('.' :: (octetText b ++ ('.' :: (octetText c ++ ('.' :: (octetText d ++ [])))))) := by
    simp
  rw [e, octet_scan a ha [] 0 (by decide), dot_scan a [] 1 (by decide),
    octet_scan b hb _ 1 (by decide), dot_scan b _ 2 (by decide),
    octet_scan c hc _ 2 (by decide), dot_scan c _ 3 (by decide),
    octet_scan d hd _ 3 (by decide)]
  simp [ptonLoop, quadValue]
  ring

/-! ## Parsing a declaration: results -/

theorem land_high_mask (addr k : Nat) (hk : k ≤ 32) (ha : addr < 2 ^ 32) :
    addr &&& ((2 ^ (32 - k) - 1) <<< k) = (addr >>> k) <<< k := by
  apply Nat.eq_of_testBit_eq
  intro i
  simp only [Nat.testBit_and, Nat.testBit_shiftLeft, Nat.testBit_shiftRight,
    Nat.testBit_two_pow_sub_one]
  by_cases hik : k ≤ i
  · have e : k + (i - k) = i := by omega
    rw [e]
    by_cases hi : i < 32
    · have h2 : i - k < 32 - k := by omega
      simp [hik, h2]
    · have hf : addr.testBit i = false :=
        Nat.testBit_lt_two_pow (Nat.lt_of_lt_of_le ha (Nat.pow_le_pow_right (by decide) (by omega)))
      simp [hf]
  · simp [hik]

theorem readDigits_digits (ds : List Char) (hd : ∀ c ∈ ds, 48 ≤ c.toNat ∧ c.toNat ≤ 57) :
    ∀ (acc : Nat) (seen : Bool), readDigits ds acc seen =
      (ds.foldl (fun a c => a * 10 + (c.toNat - 48)) acc, seen || !ds.isEmpty) := by
  induction ds with
  | nil => intro acc seen; simp [readDigits]
  | cons c cs ih =>
    intro acc seen
    have hc := hd c (by simp)
    have hcs : ∀ x ∈ cs, 48 ≤ x.toNat ∧ x.toNat ≤ 57 := fun x hx => hd x (by simp [hx])
    unfold readDigits
    rw [if_pos hc, ih hcs]
    simp

theorem stoi_digits (ds : List Char) (h : IsDigits ds) :
    stoi ds = if digitsValue ds ≤ 2147483647 then some (digitsValue ds : Int) else none := by
  obtain ⟨hne, hd⟩ := h
  cases ds with
  | nil => exact absurd rfl hne
  | cons c cs =>
    have hc := hd c (by simp)
    have hsp : isspace c = false := by
      unfold isspace
      have h1 : ¬ c = ' ' := by intro e; rw [e] at hc; revert hc; decide
      have h2 : ¬ c = '\t' := by intro e; rw [e] at hc; revert hc; decide
      have h3 : ¬ c = '\n' := by intro e; rw [e] at hc; revert hc; decide
      have h4 : ¬ c = '\r' := by intro e; rw [e] at hc; revert hc; decide
      have h5 : ¬ c.toNat = 11 := by omega
      have h6 : ¬ c.toNat = 12 := by omega
      simp [h1, h2, h3, h4, h5, h6]
    have hm : ¬ c = '-' := by intro e; rw [e] at hc; revert hc; decide
    have hp : ¬ c = '+' := by intro e; rw [e] at hc; revert hc; decide
    unfold stoi
    simp only [List.dropWhile, hsp]
    have hmatch : (match c :: cs with
        | '-' :: r => (true, r)
        | '+' :: r => (false, r)
        | _ => (false, c :: cs)) = (false, c :: cs) := by
      split
      · rename_i h; simp at h; exact absurd h.1 hm
      · rename_i h; simp at h; exact absurd h.1 hp
      · rfl
    rw [hmatch]
    simp only [readDigits_digits (c :: cs) hd 0 false]
    simp only [digitsValue]
    generalize (c :: cs).foldl (fun a c => a * 10 + (c.toNat - 48)) 0 = v
    by_cases hv : v ≤ 2147483647
    · have h1 : ¬ ((v : Int) < -2147483648 ∨ (v : Int) > 2147483647) := by omega
      simp [hv, h1]
      omega
    · have h1 : ((v : Int) < -2147483648 ∨ (v : Int) > 2147483647) := by omega
      simp [hv, h1]

theorem stoi_neg_digits (ds : List Char) (h : IsDigits ds) :
    stoi ('-' :: ds) =
      if digitsValue ds ≤ 2147483648 then some (-(digitsValue ds : Int)) else none := by
  obtain ⟨hne, hd⟩ := h
  unfold stoi
  have hsp : isspace '-' = false := by decide
  simp only [List.dropWhile, hsp]
  simp only [readDigits_digits ds hd 0 false]
  simp only [digitsValue]
  have hse : (false || !ds.isEmpty) = true := by
    cases ds with
    | nil => exact absurd rfl hne
    | cons c cs => rfl
  rw [hse]
  generalize ds.foldl (fun a c => a * 10 + (c.toNat - 48)) 0 = v
  by_cases hv : v ≤ 2147483648
  · have h1 : ¬ (-(v : Int) < -2147483648 ∨ -(v : Int) > 2147483647) := by omega
    simp [hv, h1]
    omega
  · have h1 : (-(v : Int) < -2147483648 ∨ -(v : Int) > 2147483647) := by omega
    simp [hv, h1]

namespace CIDRUtils

/-- `parseCIDR` in terms of the two parts of the declaration. -/
theorem parseCIDR_parts (cidr : List Char) (b0 : Nat) (p0 : Int) :
    parseCIDR cidr b0 p0 =
      match prefixPart cidr with
      | none => (ipToUint32 (addressPart cidr) != 0, ipToUint32 (addressPart cidr), 32)
      | some ps =>
        if ipToUint32 (addressPart cidr) = 0 then (false, ipToUint32 (addressPart cidr), p0)
        else
          match stoi ps with
          | none => (false, ipToUint32 (addressPart cidr), p0)
          | some q =>
            if q < 0 ∨ q > 32 then (false, ipToUint32 (addressPart cidr), q)
            else
              (true, Nat.land (ipToUint32 (addressPart cidr))
                (if q = 0 then 0 else shl32 (not32 0) (32 - q).toNat), q) := by
  unfold parseCIDR prefixPart addressPart
  cases findChar '/' cidr <;> rfl

/-- Every address `expandCIDR` derives from an accepted block lies in the block
`[base, base + 2^(32-p))`. -/
theorem expandCIDRNums_in_block (cidr : List Char) (b0 : Nat) (p0 : Int) (base : Nat)
    (p : Int) (cap : Nat) (ips : List Nat) (h : parseCIDR cidr b0 p0 = (true, base, p))
    (he : expandCIDRNums cidr cap = some ips) :
    ∀ a ∈ ips, base ≤ a ∧ a < base + 2 ^ (32 - p).toNat := by
  obtain ⟨h0, h32, hb, hz⟩ := parseCIDR_success cidr b0 p0 base p h
  by_cases hp : 1 ≤ p
  · obtain ⟨hT1, hT⟩ := pow_le_of_pos p hp h32
    by_cases hfull : 2 ^ (32 - p).toNat ≤ cap ∨ cap = SIZE_MAX
    · rw [expandCIDRNums_full cidr b0 p0 base p cap h hp hfull] at he
      simp only [Option.some.injEq] at he
      subst he
      intro a ha
      split_ifs at ha
      · have := List.mem_range'_1.mp ha
        omega
      · have := List.mem_range'_1.mp ha
        omega
    · have hlt : cap < 2 ^ (32 - p).toNat := by omega
      by_cases hc0 : cap = 0
      · exfalso
        rw [expandCIDRNums_of_parse cidr b0 p0 base p cap h] at he
        unfold expandParsed at he
        simp only [getHostCount_of_pos p hp h32] at he
        have hcond : 2 ^ (32 - p).toNat > cap ∧ decide (cap = SIZE_MAX) = false :=
          ⟨hlt, by simp; intro e; exact hfull (Or.inr e)⟩
        rw [if_pos hcond, if_pos hc0] at he
        cases he
      · rw [expandCIDRNums_of_parse cidr b0 p0 base p cap h,
          expandParsed_sample base p cap hp h32 (by omega) hlt (hb hp)] at he
        simp only [Option.some.injEq] at he
        subst he
        intro a ha
        obtain ⟨i, hi, rfl⟩ := List.mem_map.mp ha
        have hi2 : i < cap := List.mem_range.mp hi
        generalize 2 ^ (32 - p).toNat = T at hlt hT1 hT ⊢
        obtain ⟨hs, hs1⟩ := stride_lt T cap i (by omega) hi2 hlt
        have ho : offsetSpec T cap i < T := by
          unfold offsetSpec; split_ifs <;> omega
        obtain ⟨hc1, _⟩ := clampSpec_bounds T _ ho
        omega
  · have hp0 : p = 0 := by omega
    subst hp0
    rw [expandCIDRNums_of_parse cidr b0 p0 base 0 cap h] at he
    by_cases hc : 1 ≤ cap
    · rw [expandParsed_prefix_zero base cap hc] at he
      simp only [Option.some.injEq] at he
      subst he
      intro a ha
      simp at ha
    · have hc0 : cap = 0 := by omega
      subst hc0
      rw [expandParsed_prefix_zero_cap_zero] at he
      cases he

/-- Claim C14, amended: when the address part of a declaration, read as `inet_pton` reads it
(up to a NUL character, if there is one), is not the text `a.b.c.d` of four decimal octets of
at most 255 without leading zeros, or the prefix part is a decimal numeral of a number above
32, or a `-` followed by a decimal numeral of a positive number, `parseCIDR` returns false and
`expandCIDR` returns the empty sequence under every cap. -/
theorem parseCIDR_malformed (cidr : List Char) (b0 : Nat) (p0 : Int) (cap : Nat)
    (h : (¬ ∃ a b c d, a ≤ 255 ∧ b ≤ 255 ∧ c ≤ 255 ∧ d ≤ 255 ∧
        c_str (addressPart cidr) = dottedQuad a b c d) ∨
      (∃ ds, prefixPart cidr = some ds ∧ IsDigits ds ∧ 32 < digitsValue ds) ∨
      (∃ ds, prefixPart cidr = some ('-' :: ds) ∧ IsDigits ds ∧ 0 < digitsValue ds)) :
    (parseCIDR cidr b0 p0).1 = false ∧ expandCIDR cidr cap = some [] := by
  have hf : (parseCIDR cidr b0 p0).1 = false := by
    rw [parseCIDR_parts]
    rcases h with h | ⟨ds, hps, hd, hv⟩ | ⟨ds, hps, hd, hv⟩
    · have hrej : inet_pton (c_str (addressPart cidr)) = none := by
        cases hp : inet_pton (c_str (addressPart cidr)) with
        | none => rfl
        | some v =>
          obtain ⟨a, b, c, d, ha, hb, hc, hd, he, _⟩ := inet_pton_complete _ v hp
          exact absurd ⟨a, b, c, d, ha, hb, hc, hd, he⟩ h
      have ha : ipToUint32 (addressPart cidr) = 0 := by
        unfold ipToUint32; rw [hrej]
      cases prefixPart cidr with
      | none => simp [ha]
      | some ps => simp [ha]
    · rw [hps]
      simp only []
      split_ifs with hz
      · rfl
      · rw [stoi_digits ds hd]
        by_cases hi : digitsValue ds ≤ 2147483647
        · have hr : ((digitsValue ds : Nat) : Int) < 0 ∨ ((digitsValue ds : Nat) : Int) > 32 := by
            omega
          rw [if_pos hi]
          simp only []
          rw [if_pos hr]
        · rw [if_neg hi]
    · rw [hps]
      simp only []
      split_ifs with hz
      · rfl
      · rw [stoi_neg_digits ds hd]
        by_cases hi : digitsValue ds ≤ 2147483648
        · have hr : -((digitsValue ds : Nat) : Int) < 0 ∨ -((digitsValue ds : Nat) : Int) > 32 := by
            omega
          rw [if_pos hi]
          simp only []
          rw [if_pos hr]
        · rw [if_neg hi]
  exact ⟨hf, (expandCIDR_of_parse_failure cidr b0 p0 cap hf).2⟩

/-- Claim C14, amended, on three malformed declarations: a bad octet, a prefix above 32 and a
negative prefix. -/
theorem parseCIDR_malformed_witness :
    ((parseCIDR "300.1.1.1/24".toList 0 0).1 = false ∧
      expandCIDR "300.1.1.1/24".toList 10 = some []) ∧
    ((parseCIDR "10.0.0.0/33".toList 0 0).1 = false ∧
      expandCIDR "10.0.0.0/33".toList 10 = some []) ∧
    ((parseCIDR "10.0.0.0/-1".toList 0 0).1 = false ∧
      expandCIDR "10.0.0.0/-1".toList 10 = some []) :=
  ⟨parseCIDR_malformed "300.1.1.1/24".toList 0 0 10 (Or.inl (by
      rintro ⟨a, b, c, d, ha, hb, hc, hd, he⟩
      have h1 := inet_pton_dottedQuad a b c d ha hb hc hd
      rw [← he] at h1
      have h2 : inet_pton (c_str (addressPart "300.1.1.1/24".toList)) = none := by decide
      rw [h2] at h1
      cases h1)),
    parseCIDR_malformed "10.0.0.0/33".toList 0 0 10
      (Or.inr (Or.inl ⟨"33".toList, by decide, ⟨by decide, by decide⟩, by decide⟩)),
    parseCIDR_malformed "10.0.0.0/-1".toList 0 0 10
      (Or.inr (Or.inr ⟨"1".toList, by decide, ⟨by decide, by decide⟩, by decide⟩))⟩

/-- Claim C15, refuted as stated: with prior values 7 and 24 in the caller's `base_ip` and
`prefix_len`, a failed parse of `300.1.1.1` leaves 0 and 32 there, and a failed parse of
`10.0.0.0/33`, or of `10.0.0.0` with the prefix `-1`, leaves the parsed address and the
rejected prefix. -/
theorem parseCIDR_failure_overwrites :
    parseCIDR "300.1.1.1".toList 7 24 = (false, 0, 32) ∧
      parseCIDR "10.0.0.0/33".toList 7 24 = (false, 167772160, 33) ∧
      parseCIDR "10.0.0.0/-1".toList 7 24 = (false, 167772160, -1) ∧
      parseCIDR "300.1.1.1/24".toList 7 24 = (false, 0, 24) := by
  decide

/-- Claim C15, amended: `parseCIDR` writes nothing but its two reference parameters, and on a
failed parse it leaves in `base_ip` the value `ipToUint32` gives for the address part (0 when
that part is rejected) and in `prefix_len` the value 32 when the declaration has no `'/'`,
the number read when the prefix is out of range, and the prior value only when there is a
`'/'` and either the address part is rejected or the prefix part is not a number; `expandCIDR`
returns the empty sequence and reads neither. -/
theorem parseCIDR_failure_state (cidr : List Char) (b0 : Nat) (p0 : Int) (cap : Nat)
    (h : (parseCIDR cidr b0 p0).1 = false) :
    (parseCIDR cidr b0 p0).2.1 = ipToUint32 (addressPart cidr) ∧
    (parseCIDR cidr b0 p0).2.2 =
      (match prefixPart cidr with
        | none => 32
        | some ps =>
          if ipToUint32 (addressPart cidr) = 0 then p0
          else match stoi ps with
            | none => p0
            | some q => q) ∧
    expandCIDR cidr cap = some [] := by
  refine ⟨?_, ?_, (expandCIDR_of_parse_failure cidr b0 p0 cap h).2⟩
  · rw [parseCIDR_parts] at h ⊢
    cases hps : prefixPart cidr with
    | none => rfl
    | some ps =>
      simp only [hps] at h ⊢
      split_ifs with hz
      · rfl
      · rw [if_neg hz] at h
        cases hs : stoi ps with
        | none => rfl
        | some q =>
          simp only [hs] at h ⊢
          by_cases hr : q < 0 ∨ q > 32
          · rw [if_pos hr]
          · rw [if_neg hr] at h; simp at h
  · rw [parseCIDR_parts] at h ⊢
    cases hps : prefixPart cidr with
    | none => rfl
    | some ps =>
      simp only [hps] at h ⊢
      split_ifs with hz
      · rfl
      · rw [if_neg hz] at h
        cases hs : stoi ps with
        | none => rfl
        | some q =>
          simp only [hs] at h ⊢
          by_cases hr : q < 0 ∨ q > 32
          · rw [if_pos hr]
          · rw [if_neg hr] at h; simp at h

/-- Claim C15, amended, on the declaration `10.0.0.0/33` with prior values 7 and 24. -/
theorem parseCIDR_failure_state_witness :
    (parseCIDR "10.0.0.0/33".toList 7 24).2.1 = ipToUint32 (addressPart "10.0.0.0/33".toList) ∧
    (parseCIDR "10.0.0.0/33".toList 7 24).2.2 =
      (match prefixPart "10.0.0.0/33".toList with
        | none => 32
        | some ps =>
          if ipToUint32 (addressPart "10.0.0.0/33".toList) = 0 then 24
          else match stoi ps with
            | none => 24
            | some q => q) ∧
    expandCIDR "10.0.0.0/33".toList 10 = some [] :=
  parseCIDR_failure_state "10.0.0.0/33".toList 7 24 10 (by decide)

end CIDRUtils

/-! ## Bare addresses and the network address: results -/

theorem dottedQuad_chars (a b c d : Nat) (ha : a ≤ 255) (hb : b ≤ 255) (hc : c ≤ 255)
    (hd : d ≤ 255) :
    ∀ ch ∈ dottedQuad a b c d, (48 ≤ ch.toNat ∧ ch.toNat ≤ 57) ∨ ch = '.' := by
  intro ch hch
  unfold dottedQuad at hch
  simp only [List.mem_append, List.mem_cons] at hch
  rcases hch with ((h | h | h) | h | h) | h | h
  · exact Or.inl (octetText_chars a ha ch h)
  · exact Or.inr h
  · exact Or.inl (octetText_chars b hb ch h)
  · exact Or.inr h
  · exact Or.inl (octetText_chars c hc ch h)
  · exact Or.inr h
  · exact Or.inl (octetText_chars d hd ch h)

theorem c_str_dottedQuad (a b c d : Nat) (ha : a ≤ 255) (hb : b ≤ 255) (hc : c ≤ 255)
    (hd : d ≤ 255) : c_str (dottedQuad a b c d) = dottedQuad a b c d := by
  unfold c_str
  apply List.takeWhile_eq_self_iff.mpr
  intro ch hch
  rcases dottedQuad_chars a b c d ha hb hc hd ch hch with h | h
  · have : ¬ ch.toNat = 0 := by omega
    simp [this]
  · subst h; decide

theorem no_slash_dottedQuad (a b c d : Nat) (ha : a ≤ 255) (hb : b ≤ 255) (hc : c ≤ 255)
    (hd : d ≤ 255) : '/' ∉ dottedQuad a b c d := by
  intro hm
  rcases dottedQuad_chars a b c d ha hb hc hd '/' hm with h | h
  · revert h; decide
  · revert h; decide

theorem uint32ToIp_quadValue (a b c d : Nat) (ha : a ≤ 255) (hb : b ≤ 255) (hc : c ≤ 255)
    (hd : d ≤ 255) : CIDRUtils.uint32ToIp (quadValue a b c d) = dottedQuad a b c d := by
  unfold CIDRUtils.uint32ToIp dottedQuad quadValue
  have e1 : (a * 16777216 + b * 65536 + c * 256 + d) / 16777216 % 256 = a := by omega
  have e2 : (a * 16777216 + b * 65536 + c * 256 + d) / 65536 % 256 = b := by omega
  have e3 : (a * 16777216 + b * 65536 + c * 256 + d) / 256 % 256 = c := by omega
  have e4 : (a * 16777216 + b * 65536 + c * 256 + d) % 256 = d := by omega
  rw [e1, e2, e3, e4]

namespace CIDRUtils

theorem land_mask_eq (addr : Nat) (p : Int) (h1 : 1 ≤ p) (h2 : p ≤ 32) (ha : addr < U32) :
    Nat.land addr (shl32 (not32 0) (32 - p).toNat) = addr - addr % 2 ^ (32 - p).toNat := by
  have hm := mask_add_pow p h1 h2
  have hk : (32 - p).toNat ≤ 32 := by omega
  generalize (32 - p).toNat = k at hm hk ⊢
  have hpow : 2 ^ (32 - k) * 2 ^ k = 2 ^ 32 := by
    rw [← pow_add]; congr 1; omega
  have hpos : 1 ≤ 2 ^ (32 - k) := Nat.one_le_two_pow
  have e1 : (2 ^ (32 - k) - 1) * 2 ^ k = 2 ^ (32 - k) * 2 ^ k - 2 ^ k := by
    rw [Nat.sub_mul, Nat.one_mul]
  have hmask : shl32 (not32 0) k = (2 ^ (32 - k) - 1) <<< k := by
    rw [Nat.shiftLeft_eq, e1, hpow]
    unfold U32 at hm
    omega
  rw [hmask]
  show addr &&& ((2 ^ (32 - k) - 1) <<< k) = _
  rw [land_high_mask addr k hk (by simpa [U32] using ha), Nat.shiftLeft_eq,
    Nat.shiftRight_eq_div_pow]
  have hd := Nat.div_add_mod addr (2 ^ k)
  have hc : addr / 2 ^ k * 2 ^ k = 2 ^ k * (addr / 2 ^ k) := Nat.mul_comm _ _
  omega

/-- Claim C16: when `parseCIDR` succeeds, the prefix length `p` is in `[0,32]`, the base is
the numeric value of the address part with its low `32-p` bits cleared (it is a multiple of
`2^(32-p)` and has the quotient by `2^(32-p)`, the top `p` bits, of the address), and
`expandCIDR` computes its addresses from this base: they are those of `expandParsed base p`
and all lie in `[base, base + 2^(32-p))`. -/
theorem parseCIDR_normalized (cidr : List Char) (b0 : Nat) (p0 : Int) (base : Nat) (p : Int)
    (h : parseCIDR cidr b0 p0 = (true, base, p)) :
    0 ≤ p ∧ p ≤ 32 ∧
    base = ipToUint32 (addressPart cidr) - ipToUint32 (addressPart cidr) % 2 ^ (32 - p).toNat ∧
    base % 2 ^ (32 - p).toNat = 0 ∧
    base / 2 ^ (32 - p).toNat = ipToUint32 (addressPart cidr) / 2 ^ (32 - p).toNat ∧
    (∀ cap, expandCIDRNums cidr cap = expandParsed base p cap) ∧
    (∀ cap ips, expandCIDRNums cidr cap = some ips →
      ∀ a ∈ ips, base ≤ a ∧ a < base + 2 ^ (32 - p).toNat) := by
  obtain ⟨h0, h32, _, _⟩ := parseCIDR_success cidr b0 p0 base p h
  have haddr := ipToUint32_lt (addressPart cidr)
  have hbase : base = ipToUint32 (addressPart cidr)
      - ipToUint32 (addressPart cidr) % 2 ^ (32 - p).toNat := by
    have hp := parseCIDR_parts cidr b0 p0
    rw [h] at hp
    cases hps : prefixPart cidr with
    | none =>
      simp only [hps, Prod.mk.injEq] at hp
      obtain ⟨_, hb, hq⟩ := hp
      subst hq
      have e : (32 - (32 : Int)).toNat = 0 := by decide
      rw [hb, e, Nat.pow_zero, Nat.mod_one, Nat.sub_zero]
    | some ps =>
      simp only [hps] at hp
      by_cases hz : ipToUint32 (addressPart cidr) = 0
      · rw [if_pos hz] at hp; simp at hp
      · rw [if_neg hz] at hp
        cases hs : stoi ps with
        | none => simp [hs] at hp
        | some q =>
          simp only [hs] at hp
          by_cases hr : q < 0 ∨ q > 32
          · rw [if_pos hr] at hp; simp at hp
          · rw [if_neg hr] at hp
            simp only [Prod.mk.injEq, true_and] at hp
            obtain ⟨hb, hq⟩ := hp
            subst hq
            by_cases hq0 : p = 0
            · subst hq0
              rw [if_pos rfl] at hb
              have e : (32 - (0 : Int)).toNat = 32 := by decide
              have hm : ipToUint32 (addressPart cidr) % 2 ^ 32 = ipToUint32 (addressPart cidr) :=
                Nat.mod_eq_of_lt (by simpa [U32] using haddr)
              rw [hb, e, hm]
              have : Nat.land (ipToUint32 (addressPart cidr)) 0 = 0 := Nat.and_zero _
              omega
            · rw [if_neg hq0] at hb
              rw [hb]
              exact land_mask_eq _ p (by omega) h32 haddr
  have hd := Nat.div_add_mod (ipToUint32 (addressPart cidr)) (2 ^ (32 - p).toNat)
  have hpos : 0 < 2 ^ (32 - p).toNat := Nat.two_pow_pos _
  have hmul : base = 2 ^ (32 - p).toNat * (ipToUint32 (addressPart cidr) / 2 ^ (32 - p).toNat) := by
    omega
  refine ⟨h0, h32, hbase, ?_, ?_, ?_, ?_⟩
  · rw [hmul]; exact Nat.mul_mod_right _ _
  · rw [hmul]; exact Nat.mul_div_cancel_left _ hpos
  · intro cap
    exact expandCIDRNums_of_parse cidr b0 p0 base p cap h
  · intro cap ips he
    exact expandCIDRNums_in_block cidr b0 p0 base p cap ips h he

/-- Claim C16, on the declaration `198.51.100.7/24`: the base is `198.51.100.0`. -/
theorem parseCIDR_normalized_witness :
    ipToUint32 (addressPart "198.51.100.7/24".toList) = 3325256711 ∧
    (0 ≤ (24 : Int) ∧ (24 : Int) ≤ 32 ∧
    3325256704 = ipToUint32 (addressPart "198.51.100.7/24".toList)
      - ipToUint32 (addressPart "198.51.100.7/24".toList) % 2 ^ (32 - (24 : Int)).toNat ∧
    3325256704 % 2 ^ (32 - (24 : Int)).toNat = 0 ∧
    3325256704 / 2 ^ (32 - (24 : Int)).toNat
      = ipToUint32 (addressPart "198.51.100.7/24".toList) / 2 ^ (32 - (24 : Int)).toNat ∧
    (∀ cap, expandCIDRNums "198.51.100.7/24".toList cap = expandParsed 3325256704 24 cap) ∧
    (∀ cap ips, expandCIDRNums "198.51.100.7/24".toList cap = some ips →
      ∀ a ∈ ips, 3325256704 ≤ a ∧ a < 3325256704 + 2 ^ (32 - (24 : Int)).toNat)) :=
  ⟨by decide, parseCIDR_normalized "198.51.100.7/24".toList 0 0 3325256704 24 (by decide)⟩

/-- Claim C14, refuted as stated: the address part of the declaration that reads `10.0.0.1`,
a NUL character, `junk`, `/24` is not a dotted-quad address, yet `inet_pton` reads only the
text before the NUL character, `parseCIDR` accepts the declaration with base `10.0.0.0` and
prefix length 24, and `expandCIDR` returns addresses. -/
theorem parseCIDR_accepts_nul_junk :
    addressPart "10.0.0.1\x00junk/24".toList = "10.0.0.1\x00junk".toList ∧
    (¬ ∃ a b c d, a ≤ 255 ∧ b ≤ 255 ∧ c ≤ 255 ∧ d ≤ 255 ∧
      addressPart "10.0.0.1\x00junk/24".toList = dottedQuad a b c d) ∧
    c_str (addressPart "10.0.0.1\x00junk/24".toList) = "10.0.0.1".toList ∧
    parseCIDR "10.0.0.1\x00junk/24".toList 0 0 = (true, 167772160, 24) ∧
    expandCIDR "10.0.0.1\x00junk/24".toList 2
      = some ["10.0.0.1".toList, "10.0.0.129".toList] := by
  refine ⟨by decide, ?_, by decide, by decide, by decide⟩
  rintro ⟨a, b, c, d, ha, hb, hc, hd, he⟩
  have hm : Char.ofNat 0 ∈ addressPart "10.0.0.1\x00junk/24".toList := by decide
  rw [he] at hm
  rcases dottedQuad_chars a b c d ha hb hc hd _ hm with h | h
  · revert h; decide
  · revert h; decide

/-- Claim C13, refuted as stated: `0.0.0.0` is a well-formed dotted-quad address without
`'/'`, `inet_pton` accepts it with the value 0, and `parseCIDR` returns false, because it
reads the value 0 of `ipToUint32` as a failure; `expandCIDR` returns no address. -/
theorem parseCIDR_zero_address :
    dottedQuad 0 0 0 0 = "0.0.0.0".toList ∧ '/' ∉ "0.0.0.0".toList ∧
      inet_pton (c_str "0.0.0.0".toList) = some 0 ∧
      parseCIDR "0.0.0.0".toList 0 0 = (false, 0, 32) ∧
      expandCIDR "0.0.0.0".toList 1 = some [] := by
  decide

/-- A text without `'/'` is accepted by `parseCIDR` exactly when the text `inet_pton` reads,
up to a NUL character, is a dotted-quad address other than `0.0.0.0`. -/
theorem parseCIDR_no_slash (s : List Char) (b0 : Nat) (p0 : Int) (hs : '/' ∉ s) :
    (parseCIDR s b0 p0).1 = true ↔
      ∃ a b c d, a ≤ 255 ∧ b ≤ 255 ∧ c ≤ 255 ∧ d ≤ 255 ∧
        c_str s = dottedQuad a b c d ∧ quadValue a b c d ≠ 0 := by
  have hfc : findChar '/' s = none := by
    cases hf : findChar '/' s with
    | none => rfl
    | some k => exact absurd ((findChar_isSome '/' _).mp (by rw [hf]; rfl)) hs
  unfold parseCIDR
  rw [hfc]
  simp only []
  unfold ipToUint32
  cases hp : inet_pton (c_str s) with
  | none =>
    simp only [bne_self_eq_false, Bool.false_eq_true, false_iff]
    rintro ⟨a, b, c, d, ha, hb, hc, hd, he, _⟩
    rw [he, inet_pton_dottedQuad a b c d ha hb hc hd] at hp
    cases hp
  | some v =>
    obtain ⟨a, b, c, d, ha, hb, hc, hd, he, hv⟩ := inet_pton_complete _ v hp
    simp only [bne_iff_ne, ne_eq]
    constructor
    · intro hne
      exact ⟨a, b, c, d, ha, hb, hc, hd, he, by rw [← hv]; exact hne⟩
    · rintro ⟨a', b', c', d', ha', hb', hc', hd', he', hnz⟩
      rw [he', inet_pton_dottedQuad a' b' c' d' ha' hb' hc' hd'] at hp
      cases hp
      exact hnz

/-- Claim C13, amended: for every dotted-quad address `a.b.c.d` in the form `inet_pton`
accepts (four octets of at most 255, each written in decimal without a leading zero) other
than `0.0.0.0`, the text has no `'/'`, `parseCIDR` succeeds with prefix length 32 and the
numeric value of the address as base, `getHostCount(32)` is 1, and `expandCIDR` returns
exactly that one address under every cap of at least 1. No other text without `'/'` is
accepted: `parseCIDR` succeeds on such a text exactly when the text `inet_pton` reads (up to
a NUL character) is an address of that form other than `0.0.0.0`; `1.2.3.04`, with a leading
zero in its last octet, is rejected. -/
theorem parseCIDR_bare_address (a b c d : Nat) (b0 : Nat) (p0 : Int) (cap : Nat)
    (ha : a ≤ 255) (hb : b ≤ 255) (hc : c ≤ 255) (hd : d ≤ 255)
    (hnz : quadValue a b c d ≠ 0) (hcap : 1 ≤ cap) :
    '/' ∉ dottedQuad a b c d ∧
    parseCIDR (dottedQuad a b c d) b0 p0 = (true, quadValue a b c d, 32) ∧
    getHostCount 32 = 1 ∧
    expandCIDRNums (dottedQuad a b c d) cap = some [quadValue a b c d] ∧
    expandCIDR (dottedQuad a b c d) cap = some [dottedQuad a b c d] ∧
    (∀ s : List Char, '/' ∉ s →
      ((parseCIDR s b0 p0).1 = true ↔
        ∃ a1 b1 c1 d1, a1 ≤ 255 ∧ b1 ≤ 255 ∧ c1 ≤ 255 ∧ d1 ≤ 255 ∧
          c_str s = dottedQuad a1 b1 c1 d1 ∧ quadValue a1 b1 c1 d1 ≠ 0)) ∧
    (parseCIDR "1.2.3.04".toList b0 p0).1 = false := by
  have hns := no_slash_dottedQuad a b c d ha hb hc hd
  have hfc : findChar '/' (dottedQuad a b c d) = none := by
    cases hf : findChar '/' (dottedQuad a b c d) with
    | none => rfl
    | some k =>
      exact absurd ((findChar_isSome '/' _).mp (by rw [hf]; rfl)) hns
  have hip : ipToUint32 (dottedQuad a b c d) = quadValue a b c d := by
    unfold ipToUint32
    rw [c_str_dottedQuad a b c d ha hb hc hd, inet_pton_dottedQuad a b c d ha hb hc hd]
  have hparse : parseCIDR (dottedQuad a b c d) b0 p0 = (true, quadValue a b c d, 32) := by
    unfold parseCIDR
    rw [hfc]
    simp only [hip]
    simp [hnz]
  have hnums : expandCIDRNums (dottedQuad a b c d) cap = some [quadValue a b c d] := by
    rw [expandCIDRNums_full _ b0 p0 _ 32 cap hparse (by decide) (Or.inl (by simpa using hcap))]
    rfl
  have hlead : (parseCIDR "1.2.3.04".toList b0 p0).1 = false := by
    rw [parseCIDR_fst_indep _ b0 0 p0 0]
    decide
  refine ⟨hns, hparse, by decide, hnums, ?_, fun s hs => parseCIDR_no_slash s b0 p0 hs, hlead⟩
  unfold expandCIDR
  rw [hnums]
  simp [uint32ToIp_quadValue a b c d ha hb hc hd]

/-- Claim C13, amended, on the address `198.51.100.7`. -/
theorem parseCIDR_bare_address_witness :
    dottedQuad 198 51 100 7 = "198.51.100.7".toList ∧ quadValue 198 51 100 7 = 3325256711 ∧
    ('/' ∉ dottedQuad 198 51 100 7 ∧
    parseCIDR (dottedQuad 198 51 100 7) 0 0 = (true, quadValue 198 51 100 7, 32) ∧
    getHostCount 32 = 1 ∧
    expandCIDRNums (dottedQuad 198 51 100 7) 10 = some [quadValue 198 51 100 7] ∧
    expandCIDR (dottedQuad 198 51 100 7) 10 = some [dottedQuad 198 51 100 7] ∧
    (∀ s : List Char, '/' ∉ s →
      ((parseCIDR s 0 0).1 = true ↔
        ∃ a1 b1 c1 d1, a1 ≤ 255 ∧ b1 ≤ 255 ∧ c1 ≤ 255 ∧ d1 ≤ 255 ∧
          c_str s = dottedQuad a1 b1 c1 d1 ∧ quadValue a1 b1 c1 d1 ≠ 0)) ∧
    (parseCIDR "1.2.3.04".toList 0 0).1 = false) :=
  ⟨by decide, by decide,
    parseCIDR_bare_address 198 51 100 7 0 0 10 (by decide) (by decide) (by decide) (by decide)
      (by decide) (by decide)⟩

end CIDRUtils

/-! ## The alive scan: results -/

theorem Interleave.perm {α : Type} {ls : List (List α)} {r : List α} (h : Interleave ls r) :
    r.Perm ls.flatten := by
  induction h with
  | done ls hnil =>
    have : ls.flatten = [] := by
      induction ls with
      | nil => rfl
      | cons l ls ih =>
        have hl : l = [] := hnil l (by simp)
        have := ih (fun x hx => hnil x (by simp [hx]))
        simp [hl, this]
    rw [this]
  | push pre post x xs r _ ih =>
    have e1 : (pre ++ (x :: xs) :: post).flatten = pre.flatten ++ x :: (xs ++ post.flatten) := by
      simp
    have e2 : (pre ++ xs :: post).flatten = pre.flatten ++ (xs ++ post.flatten) := by simp
    rw [e1]
    rw [e2] at ih
    exact (List.Perm.cons x ih).trans List.perm_middle.symm

theorem Interleave.nil_cons {α : Type} {ls : List (List α)} {r : List α}
    (h : Interleave ls r) : Interleave ([] :: ls) r := by
  induction h with
  | done ls hnil =>
    apply Interleave.done
    intro l hl
    rcases List.mem_cons.mp hl with e | e
    · exact e
    · exact hnil l e
  | push pre post x xs r _ ih =>
    exact Interleave.push ([] :: pre) post x xs r ih

/-- The workers running one after the other is one of the interleavings. -/
theorem Interleave.sequential {α : Type} (ls : List (List α)) : Interleave ls ls.flatten := by
  induction ls with
  | nil => exact Interleave.done [] (by simp)
  | cons l ls ih =>
    induction l with
    | nil => simpa using Interleave.nil_cons ih
    | cons x xs ihx =>
      have := Interleave.push [] ls x xs (xs ++ ls.flatten) (by simpa using ihx)
      simpa using this

namespace HTTPClient

theorem parseCacheStatus_status (response : HTTPResponse) (hd : List Char) :
    (parseCacheStatus response hd).success = response.success ∧
      (parseCacheStatus response hd).status_code = response.status_code ∧
      (parseCacheStatus response hd).cf_ip_country = response.cf_ip_country := by
  unfold parseCacheStatus
  cases headerValue hd "CF-Cache-Status:".toList <;> simp

theorem parseRay_status (response : HTTPResponse) (hd : List Char) :
    (parseRay response hd).success = response.success ∧
      (parseRay response hd).status_code = response.status_code ∧
      (parseRay response hd).cf_ip_country = response.cf_ip_country := by
  unfold parseRay
  cases headerValue hd "CF-Ray:".toList <;> simp

theorem parseCountry_status (response : HTTPResponse) (hd : List Char) :
    (parseCountry response hd).success = response.success ∧
      (parseCountry response hd).status_code = response.status_code := by
  unfold parseCountry
  cases headerValue hd "CF-IPCountry:".toList <;> simp

theorem head_ok_status (code : Int) (hd : List Char) :
    (head (Transfer.ok code hd)).success = true ∧
      (head (Transfer.ok code hd)).status_code = toInt32 code := by
  unfold head
  simp only []
  rw [(parseCountry_status _ hd).1, (parseCountry_status _ hd).2, (parseRay_status _ hd).1,
    (parseRay_status _ hd).2.1, (parseCacheStatus_status _ hd).1,
    (parseCacheStatus_status _ hd).2.1]
  exact ⟨rfl, rfl⟩

end HTTPClient

namespace CDNTracker

theorem is_alive_head (tr : Transfer) : is_alive (HTTPClient.head tr) = aliveProbe tr := by
  cases tr with
  | init_failed => rfl
  | failed e => rfl
  | ok code hd =>
    obtain ⟨h1, h2⟩ := HTTPClient.head_ok_status code hd
    simp [is_alive, aliveProbe, h1, h2]

theorem workerAlive_flatten (all_ips : List (List Char)) (probe : Nat → Transfer)
    (slices : List (List Nat)) :
    (slices.map (workerAlive all_ips probe)).flatten = workerAlive all_ips probe slices.flatten := by
  induction slices with
  | nil => rfl
  | cons s ss ih =>
    simp only [List.map_cons, List.flatten_cons, ih]
    unfold workerAlive
    rw [List.filterMap_append]

theorem workerAlive_range (all_ips : List (List Char)) (probe : Nat → Transfer) :
    workerAlive all_ips probe (List.range all_ips.length) = aliveSpec all_ips probe := by
  unfold workerAlive aliveSpec
  apply List.filterMap_congr
  intro i _
  rw [is_alive_head]
  cases all_ips[i]? <;> cases aliveProbe (probe i) <;> rfl

/-- Without wrap-around the thread pool hands out every index once, in order. -/
theorem dispatch_flatten (n c : Nat) (hc : 1 ≤ c) (hw : n + c ≤ SZ) :
    ∃ slices, dispatch n c = some slices ∧ slices.flatten = List.range n := by
  obtain ⟨_, b2⟩ := ceil_bounds n c hc
  have hk := ips_per_thread_eq n c hc hw
  have hfl := slices_flatten n ((n + c - 1) / c) c (by
    have := slice_mul_lt n c (c - 1) hc hw (by omega)
    have e : c - 1 + 1 = c := by omega
    rwa [e] at this)
  have hmin : min (c * ((n + c - 1) / c)) n = n := by omega
  rw [hmin] at hfl
  refine ⟨_, ?_, hfl⟩
  unfold dispatch
  rw [hk]
  rfl

/-- Claim C19, refuted as stated: with `num_threads = 0` the slice size divides by zero and
`scanAliveNodes` returns nothing, and with `num_threads = SIZE_MAX` on two candidates the
slice size wraps to 0 and the returned list is empty, although every probe in both runs has
transport success and status 200. -/
theorem scanWorkers_bad_thread_count :
    aliveSpec ["192.0.2.1".toList, "192.0.2.2".toList] (fun _ => Transfer.ok 200 [])
      = ["192.0.2.1".toList, "192.0.2.2".toList] ∧
    (∀ ret, scanWorkers ["192.0.2.1".toList, "192.0.2.2".toList]
      (fun _ => Transfer.ok 200 []) 0 ret → ret = none) ∧
    (∀ ret, scanWorkers ["192.0.2.1".toList, "192.0.2.2".toList]
      (fun _ => Transfer.ok 200 []) SIZE_MAX ret → ret = some []) := by
  refine ⟨by decide, ?_, ?_⟩
  · intro ret h
    unfold scanWorkers at h
    have hd : dispatch ["192.0.2.1".toList, "192.0.2.2".toList].length 0 = none := by decide
    rw [hd] at h
    exact h
  · intro ret h
    unfold scanWorkers at h
    have h0 : ips_per_thread 2 SIZE_MAX = some 0 := by decide
    have hd : dispatch ["192.0.2.1".toList, "192.0.2.2".toList].length SIZE_MAX
        = some ((threadSlices 2 0 SIZE_MAX).map (workerIndices 2)) := by
      show dispatch 2 SIZE_MAX = _
      unfold dispatch
      rw [h0]
      rfl
    rw [hd] at h
    obtain ⟨alive_ips, hr, hi⟩ := h
    have hp := hi.perm
    rw [workerAlive_flatten, slices_flatten 2 0 SIZE_MAX (by decide)] at hp
    have he : alive_ips = [] := by
      apply List.Perm.eq_nil
      simpa [workerAlive] using hp
    rw [hr, he]

/-- Claim C19, amended: for every candidate list of `n` entries, every assignment of
transfers to the probes and every `num_threads >= 1` with `n + num_threads - 1` within
`size_t`, `scanAliveNodes` returns a list, and every list it can return (the workers append
under a lock, in any interleaving) is a permutation of the candidates whose probe had
transport success and a status code above 0; whether a probe counts depends on the transfer
result and the response code only, not on the header block. -/
theorem scanWorkers_alive (all_ips : List (List Char)) (probe : Nat → Transfer) (c : Nat)
    (hc : 1 ≤ c) (hw : all_ips.length + c ≤ SZ) :
    (∃ alive_ips, scanWorkers all_ips probe c (some alive_ips)) ∧
    (∀ ret, scanWorkers all_ips probe c ret →
      ∃ alive_ips, ret = some alive_ips ∧ alive_ips.Perm (aliveSpec all_ips probe)) ∧
    (∀ tr, is_alive (HTTPClient.head tr) = aliveProbe tr) ∧
    (∀ code hd hd2, is_alive (HTTPClient.head (Transfer.ok code hd))
      = is_alive (HTTPClient.head (Transfer.ok code hd2))) ∧
    (∀ (t : CDNTracker) ret, t.ip_ranges_ ≠ [] →
      (if t.force_all_ = false then { t with max_ips_per_range_ := 100 } else t).expandAllRanges
        = some all_ips →
      (scanAliveNodes t probe c ret ↔ scanWorkers all_ips probe c ret)) := by
  obtain ⟨slices, hd, hfl⟩ := dispatch_flatten all_ips.length c hc hw
  have hflat : (slices.map (workerAlive all_ips probe)).flatten = aliveSpec all_ips probe := by
    rw [workerAlive_flatten, hfl, workerAlive_range]
  refine ⟨?_, ?_, is_alive_head, ?_, ?_⟩
  · refine ⟨(slices.map (workerAlive all_ips probe)).flatten, ?_⟩
    unfold scanWorkers
    rw [hd]
    exact ⟨_, rfl, Interleave.sequential _⟩
  · intro ret h
    unfold scanWorkers at h
    rw [hd] at h
    obtain ⟨alive_ips, hr, hi⟩ := h
    refine ⟨alive_ips, hr, ?_⟩
    have := hi.perm
    rwa [hflat] at this
  · intro code hd1 hd2
    rw [is_alive_head, is_alive_head]
    rfl
  · intro t ret hne hex
    unfold scanAliveNodes
    rw [if_neg hne, hex]

/-- Claim C19, amended, on three candidates and two threads, the second probe timing out. -/
theorem scanWorkers_alive_witness :
    aliveSpec ["192.0.2.1".toList, "192.0.2.2".toList, "192.0.2.3".toList]
        (fun i => if i = 1 then Transfer.failed "Timeout was reached".toList
          else Transfer.ok 200 [])
      = ["192.0.2.1".toList, "192.0.2.3".toList] ∧
    ((∃ alive_ips, scanWorkers ["192.0.2.1".toList, "192.0.2.2".toList, "192.0.2.3".toList]
        (fun i => if i = 1 then Transfer.failed "Timeout was reached".toList
          else Transfer.ok 200 []) 2 (some alive_ips)) ∧
    (∀ ret, scanWorkers ["192.0.2.1".toList, "192.0.2.2".toList, "192.0.2.3".toList]
        (fun i => if i = 1 then Transfer.failed "Timeout was reached".toList
          else Transfer.ok 200 []) 2 ret →
      ∃ alive_ips, ret = some alive_ips ∧
        alive_ips.Perm (aliveSpec ["192.0.2.1".toList, "192.0.2.2".toList, "192.0.2.3".toList]
          (fun i => if i = 1 then Transfer.failed "Timeout was reached".toList
            else Transfer.ok 200 []))) ∧
    (∀ tr, is_alive (HTTPClient.head tr) = aliveProbe tr) ∧
    (∀ code hd hd2, is_alive (HTTPClient.head (Transfer.ok code hd))
      = is_alive (HTTPClient.head (Transfer.ok code hd2))) ∧
    (∀ (t : CDNTracker) ret, t.ip_ranges_ ≠ [] →
      (if t.force_all_ = false then { t with max_ips_per_range_ := 100 } else t).expandAllRanges
        = some ["192.0.2.1".toList, "192.0.2.2".toList, "192.0.2.3".toList] →
      (scanAliveNodes t (fun i => if i = 1 then Transfer.failed "Timeout was reached".toList
          else Transfer.ok 200 []) 2 ret ↔
        scanWorkers ["192.0.2.1".toList, "192.0.2.2".toList, "192.0.2.3".toList]
          (fun i => if i = 1 then Transfer.failed "Timeout was reached".toList
            else Transfer.ok 200 []) 2 ret))) :=
  ⟨by decide,
    scanWorkers_alive ["192.0.2.1".toList, "192.0.2.2".toList, "192.0.2.3".toList]
      (fun i => if i = 1 then Transfer.failed "Timeout was reached".toList
        else Transfer.ok 200 []) 2 (by decide) (by decide)⟩

end CDNTracker

/-! ## Reading the response headers: results -/

theorem findFrom_first (pat : List Char) (rest : List Char)
    (hrest : pat.isPrefixOf rest = true) :
    ∀ (pre : List Char) (i : Nat),
      (∀ j, j < pre.length → pat.isPrefixOf ((pre ++ rest).drop j) = false) →
      findFrom pat (pre ++ rest) i = some (i + pre.length) := by
  intro pre
  induction pre with
  | nil =>
    intro i _
    cases rest with
    | nil =>
      have hp : pat = [] := by
        cases pat with
        | nil => rfl
        | cons a as => simp [List.isPrefixOf] at hrest
      simp [findFrom, hp]
    | cons c cs => simp [findFrom, hrest]
  | cons x xs ih =>
    intro i hno
    have h0 : pat.isPrefixOf (x :: (xs ++ rest)) = false := by
      have := hno 0 (by simp)
      simpa using this
    have hshift : ∀ j, j < xs.length → pat.isPrefixOf ((xs ++ rest).drop j) = false := by
      intro j hj
      have := hno (j + 1) (by simp; omega)
      simpa using this
    rw [List.cons_append, findFrom, h0]
    simp only [Bool.false_eq_true, if_false]
    rw [ih (i + 1) hshift]
    have e : i + 1 + xs.length = i + (xs.length + 1) := by omega
    rw [List.length_cons, e]

theorem findFrom_crlf (value post : List Char) (hcr : '\r' ∉ value) :
    ∀ i, findFrom ['\r', '\n'] (value ++ '\r' :: '\n' :: post) i = some (i + value.length) := by
  induction value with
  | nil => intro i; simp [findFrom, List.isPrefixOf]
  | cons c cs ih =>
    intro i
    have hc : ¬ c = '\r' := fun e => hcr (by simp [e])
    have hc2 : ¬ '\r' = c := fun e => hc e.symm
    have hcs : '\r' ∉ cs := fun e => hcr (by simp [e])
    have hp : List.isPrefixOf ['\r', '\n'] (c :: (cs ++ '\r' :: '\n' :: post)) = false := by
      simp [List.isPrefixOf, hc2]
    rw [List.cons_append, findFrom, hp]
    simp only [Bool.false_eq_true, if_false]
    rw [ih hcs (i + 1)]
    have e : i + 1 + cs.length = i + (cs.length + 1) := by omega
    rw [List.length_cons, e]

namespace HTTPClient

/-- The value `head` reads for a header name: when the block is
`pre ++ name ++ value ++ "\r\n" ++ post`, the name does not occur at an earlier position and
`value` holds no carriage return, it is `value` trimmed. -/
theorem headerValue_of_line (name pre value post : List Char)
    (hfirst : ∀ j, j < pre.length →
      name.isPrefixOf ((pre ++ (name ++ (value ++ '\r' :: '\n' :: post))).drop j) = false)
    (hcr : '\r' ∉ value) :
    headerValue (pre ++ (name ++ (value ++ '\r' :: '\n' :: post))) name = some (trim value) := by
  have hpre : name.isPrefixOf (name ++ (value ++ '\r' :: '\n' :: post)) = true := by
    simp
  have h1 : find (pre ++ (name ++ (value ++ '\r' :: '\n' :: post))) name 0
      = some pre.length := by
    unfold find
    simp only [List.drop_zero]
    rw [if_neg (by omega), findFrom_first name _ hpre pre 0 hfirst]
    simp
  have h2 : find (pre ++ (name ++ (value ++ '\r' :: '\n' :: post))) ['\r', '\n']
      (pre.length + name.length) = some (pre.length + name.length + value.length) := by
    unfold find
    have hlen : ¬ pre.length + name.length
        > (pre ++ (name ++ (value ++ '\r' :: '\n' :: post))).length := by
      simp only [List.length_append]; omega
    rw [if_neg hlen]
    have hdrop : (pre ++ (name ++ (value ++ '\r' :: '\n' :: post))).drop
        (pre.length + name.length) = value ++ '\r' :: '\n' :: post := by
      rw [← List.append_assoc, ← List.length_append, List.drop_left]
    rw [hdrop, findFrom_crlf value post hcr]
  unfold headerValue
  rw [h1]
  simp only []
  rw [h2]
  simp only []
  have hsub : substr (pre ++ (name ++ (value ++ '\r' :: '\n' :: post)))
      (pre.length + name.length) (pre.length + name.length + value.length
        - (pre.length + name.length)) = value := by
    unfold substr
    rw [← List.append_assoc, ← List.length_append, List.drop_left]
    have e : (pre ++ name).length + value.length - (pre ++ name).length = value.length := by
      omega
    rw [e, List.take_left]
  rw [hsub]

end HTTPClient

theorem trim_leading (s : List Char) :
    ∃ l, s = l ++ (match find_first_not_of s with
        | none => []
        | some k => s.drop k) ∧
      (∀ c ∈ l, isBlank c) ∧
      ∀ c, (match find_first_not_of s with
        | none => []
        | some k => s.drop k).head? = some c → ¬ isBlank c := by
  induction s with
  | nil => exact ⟨[], rfl, by simp, by simp [find_first_not_of]⟩
  | cons x xs ih =>
    obtain ⟨l, h1, h2, h3⟩ := ih
    by_cases hx : x = ' ' ∨ x = '\t'
    · cases hf : find_first_not_of xs with
      | none =>
        rw [hf] at h1 h3
        refine ⟨x :: l, ?_, ?_, ?_⟩
        · simp [find_first_not_of, hx, hf]
          simpa using h1
        · intro c hc
          rcases List.mem_cons.mp hc with e | e
          · rw [e]; exact hx
          · exact h2 c e
        · simp [find_first_not_of, hx, hf]
      | some k =>
        rw [hf] at h1 h3
        refine ⟨x :: l, ?_, ?_, ?_⟩
        · simp [find_first_not_of, hx, hf]
          simpa using h1
        · intro c hc
          rcases List.mem_cons.mp hc with e | e
          · rw [e]; exact hx
          · exact h2 c e
        · simpa [find_first_not_of, hx, hf] using h3
    · refine ⟨[], ?_, by simp, ?_⟩
      · simp [find_first_not_of, hx]
      · intro c hc
        simp [find_first_not_of, hx] at hc
        rw [← hc]
        exact hx

theorem trim_trailing (s : List Char) :
    ∃ r, s = (match find_last_not_of s with
        | none => s.take 0
        | some k => s.take (k + 1)) ++ r ∧
      (∀ c ∈ r, isBlank c) ∧
      (∀ c, (match find_last_not_of s with
        | none => s.take 0
        | some k => s.take (k + 1)).getLast? = some c → ¬ isBlank c) ∧
      (find_last_not_of s = none → ∀ c ∈ s, isBlank c) := by
  induction s with
  | nil => exact ⟨[], by simp [find_last_not_of], by simp, by simp [find_last_not_of], by simp⟩
  | cons x xs ih =>
    obtain ⟨r, h1, h2, h3, h4⟩ := ih
    cases hf : find_last_not_of xs with
    | some k =>
      rw [hf] at h1 h3
      simp only at h1 h3
      have hne : xs.take (k + 1) ≠ [] := by
        cases xs with
        | nil => simp [find_last_not_of] at hf
        | cons y ys => simp
      refine ⟨r, ?_, h2, ?_, ?_⟩
      · simp only [find_last_not_of, hf, List.take_succ_cons, List.cons_append]
        rw [← h1]
      · intro c hc
        simp only [find_last_not_of, hf, List.take_succ_cons] at hc
        obtain ⟨y, ys, hy⟩ := List.exists_cons_of_ne_nil hne
        rw [hy] at h3
        rw [hy, List.getLast?_cons_cons] at hc
        exact h3 c hc
      · intro hn
        simp [find_last_not_of, hf] at hn
    | none =>
      have hall := h4 hf
      by_cases hx : x = ' ' ∨ x = '\t'
      · refine ⟨x :: xs, ?_, ?_, ?_, ?_⟩
        · simp [find_last_not_of, hf, hx]
        · intro c hc
          rcases List.mem_cons.mp hc with e | e
          · rw [e]; exact hx
          · exact hall c e
        · simp [find_last_not_of, hf, hx]
        · intro _ c hc
          rcases List.mem_cons.mp hc with e | e
          · rw [e]; exact hx
          · exact hall c e
      · refine ⟨xs, ?_, hall, ?_, ?_⟩
        · simp [find_last_not_of, hf, hx]
        · intro c hc
          simp [find_last_not_of, hf, hx] at hc
          rw [← hc]
          exact hx
        · intro hn
          simp [find_last_not_of, hf, hx] at hn

/-- What the two `erase` calls leave: the text without its leading and trailing spaces and
tabs. -/
theorem trim_spec (s : List Char) :
    ∃ l r, s = l ++ trim s ++ r ∧ (∀ c ∈ l, isBlank c) ∧ (∀ c ∈ r, isBlank c) ∧
      (∀ c, (trim s).head? = some c → ¬ isBlank c) ∧
      (∀ c, (trim s).getLast? = some c → ¬ isBlank c) := by
  obtain ⟨l, h1, h2, h3⟩ := trim_leading s
  generalize hs1 : (match find_first_not_of s with
    | none => []
    | some k => s.drop k) = s1 at h1 h3
  obtain ⟨r, g1, g2, g3, _⟩ := trim_trailing s1
  have ht : trim s = (match find_last_not_of s1 with
      | none => s1.take 0
      | some k => s1.take (k + 1)) := by
    unfold trim
    simp only [hs1]
  rw [← ht] at g1 g3
  refine ⟨l, r, ?_, h2, g2, ?_, g3⟩
  · rw [List.append_assoc, ← g1]; exact h1
  · intro c hc
    apply h3 c
    rw [g1]
    cases htr : trim s with
    | nil => rw [htr] at hc; simp at hc
    | cons y ys => rw [htr] at hc; simpa using hc

namespace HTTPClient

theorem parseRay_set (response : HTTPResponse) (hd : List Char) :
    (parseRay response hd).cf_ray = (headerValue hd "CF-Ray:".toList).getD response.cf_ray := by
  unfold parseRay
  cases headerValue hd "CF-Ray:".toList <;> rfl

theorem parseCacheStatus_set (response : HTTPResponse) (hd : List Char) :
    (parseCacheStatus response hd).cf_cache_status
      = (headerValue hd "CF-Cache-Status:".toList).getD response.cf_cache_status := by
  unfold parseCacheStatus
  cases headerValue hd "CF-Cache-Status:".toList <;> rfl

theorem parseCountry_set (response : HTTPResponse) (hd : List Char) :
    (parseCountry response hd).cf_ip_country
      = (headerValue hd "CF-IPCountry:".toList).getD response.cf_ip_country := by
  unfold parseCountry
  cases headerValue hd "CF-IPCountry:".toList <;> rfl

/-- The three header fields of a successful response are the values `headerValue` reads for
the three names, empty when it reads none. -/
theorem head_fields (code : Int) (hd : List Char) :
    (head (Transfer.ok code hd)).cf_cache_status
        = (headerValue hd "CF-Cache-Status:".toList).getD [] ∧
      (head (Transfer.ok code hd)).cf_ray = (headerValue hd "CF-Ray:".toList).getD [] ∧
      (head (Transfer.ok code hd)).cf_ip_country
        = (headerValue hd "CF-IPCountry:".toList).getD [] := by
  unfold head
  simp only []
  refine ⟨?_, ?_, ?_⟩
  · rw [(parseCountry_cache _ hd).2.1, (parseRay_cache _ hd).2.1, parseCacheStatus_set]
  · rw [(parseCountry_ray _ hd).1, parseRay_set, (parseCacheStatus_ray _ hd).1]
  · rw [parseCountry_set, (parseRay_status _ hd).2.2, (parseCacheStatus_status _ hd).2.2]

/-- Claim C11, refuted as stated: on a successful response whose header names are in lower
case (`cf-cache-status: HIT`, `cf-ray: ...`, `cf-ipcountry: DK`) `head` leaves the
cache-status, the ray, the point-of-presence and the country empty and the hit flag off. -/
theorem head_lower_case_headers :
    (head (Transfer.ok 200 lowerCaseHeaders)).success = true ∧
      (head (Transfer.ok 200 lowerCaseHeaders)).cf_cache_status = [] ∧
      (head (Transfer.ok 200 lowerCaseHeaders)).is_cache_hit = false ∧
      (head (Transfer.ok 200 lowerCaseHeaders)).cf_ray = [] ∧
      (head (Transfer.ok 200 lowerCaseHeaders)).cf_iata_code = [] ∧
      (head (Transfer.ok 200 lowerCaseHeaders)).cf_ip_country = [] ∧
      headerValue lowerCaseHeaders "CF-Cache-Status:".toList = none ∧
      headerValue lowerCaseHeaders "cf-cache-status:".toList = some "HIT".toList := by
  decide

theorem head_iata (tr : Transfer) : (head tr).cf_iata_code = iataOf (head tr).cf_ray := by
  cases tr with
  | init_failed => rfl
  | failed e => rfl
  | ok code hd =>
    unfold head
    simp only []
    rw [(parseCountry_ray _ hd).1, (parseCountry_ray _ hd).2]
    apply parseRay_iata
    rw [(parseCacheStatus_ray _ hd).1, (parseCacheStatus_ray _ hd).2]
    rfl

theorem head_hit_flag (tr : Transfer) :
    (head tr).is_cache_hit = decide ((head tr).cf_cache_status = "HIT".toList) := by
  have h := head_is_cache_hit tr
  cases hb : (head tr).is_cache_hit
  · rw [hb] at h
    have : ¬ (head tr).cf_cache_status = "HIT".toList := fun e => by simpa using h.mpr e
    rw [decide_eq_false this]
  · rw [hb] at h
    rw [decide_eq_true (h.mp rfl)]

/-- Claim C11, amended: on transport success `head` searches the header block for the exact
texts `CF-Cache-Status:`, `CF-Ray:` and `CF-IPCountry:`, letter case included. When the block
is `pre ++ name ++ value ++ "\r\n" ++ post`, `name` does not occur at an earlier position
and `value` holds no carriage return, the value read for `name` is `value` without its
leading and trailing spaces and tabs, and for each of the three names the field of the
response is that trimmed value (with the hit flag and the point-of-presence code computed
from it); in general the three fields are the values read for the three names, empty when
the name does not occur in that letter case. -/
theorem headerValue_exact_case (code : Int) (name pre value post : List Char)
    (hfirst : ∀ j, j < pre.length →
      name.isPrefixOf ((pre ++ (name ++ (value ++ '\r' :: '\n' :: post))).drop j) = false)
    (hcr : '\r' ∉ value) :
    headerValue (pre ++ (name ++ (value ++ '\r' :: '\n' :: post))) name = some (trim value) ∧
    (∃ l r, value = l ++ trim value ++ r ∧ (∀ c ∈ l, isBlank c) ∧ (∀ c ∈ r, isBlank c) ∧
      (∀ c, (trim value).head? = some c → ¬ isBlank c) ∧
      (∀ c, (trim value).getLast? = some c → ¬ isBlank c)) ∧
    (name = "CF-Cache-Status:".toList →
      (head (Transfer.ok code (pre ++ (name ++ (value ++ '\r' :: '\n' :: post))))).cf_cache_status
        = trim value ∧
      (head (Transfer.ok code (pre ++ (name ++ (value ++ '\r' :: '\n' :: post))))).is_cache_hit
        = decide (trim value = "HIT".toList)) ∧
    (name = "CF-Ray:".toList →
      (head (Transfer.ok code (pre ++ (name ++ (value ++ '\r' :: '\n' :: post))))).cf_ray
        = trim value ∧
      (head (Transfer.ok code (pre ++ (name ++ (value ++ '\r' :: '\n' :: post))))).cf_iata_code
        = iataOf (trim value)) ∧
    (name = "CF-IPCountry:".toList →
      (head (Transfer.ok code (pre ++ (name ++ (value ++ '\r' :: '\n' :: post))))).cf_ip_country
        = trim value) ∧
    (∀ hd, (head (Transfer.ok code hd)).cf_cache_status
        = (headerValue hd "CF-Cache-Status:".toList).getD [] ∧
      (head (Transfer.ok code hd)).cf_ray = (headerValue hd "CF-Ray:".toList).getD [] ∧
      (head (Transfer.ok code hd)).cf_ip_country
        = (headerValue hd "CF-IPCountry:".toList).getD []) := by
  have hv := headerValue_of_line name pre value post hfirst hcr
  have hf := head_fields code (pre ++ (name ++ (value ++ '\r' :: '\n' :: post)))
  refine ⟨hv, trim_spec value, ?_, ?_, ?_, fun hd => head_fields code hd⟩
  · intro hn
    subst hn
    have e := hf.1
    rw [hv] at e
    have e2 : (head (Transfer.ok code
        (pre ++ ("CF-Cache-Status:".toList ++ (value ++ '\r' :: '\n' :: post))))).cf_cache_status
        = trim value := e
    exact ⟨e2, by rw [head_hit_flag, e2]⟩
  · intro hn
    subst hn
    have e := hf.2.1
    rw [hv] at e
    have e2 : (head (Transfer.ok code
        (pre ++ ("CF-Ray:".toList ++ (value ++ '\r' :: '\n' :: post))))).cf_ray
        = trim value := e
    exact ⟨e2, by rw [head_iata, e2]⟩
  · intro hn
    subst hn
    have e := hf.2.2
    rw [hv] at e
    exact e

/-- Claim C11, amended, on the line `CF-Cache-Status:  HIT ` of a response. -/
theorem headerValue_exact_case_witness :
    trim "  HIT ".toList = "HIT".toList ∧
    (head (Transfer.ok 200 ("HTTP/1.1 200 OK\r\n".toList ++ ("CF-Cache-Status:".toList ++
      ("  HIT ".toList ++ '\r' :: '\n' :: "CF-Ray: 8428f15b8a9c1234-SJC\r\n\r\n".toList))))
      ).is_cache_hit = true ∧
    (∀ j, j < "HTTP/1.1 200 OK\r\n".toList.length →
      "CF-Cache-Status:".toList.isPrefixOf (("HTTP/1.1 200 OK\r\n".toList ++
        ("CF-Cache-Status:".toList ++ ("  HIT ".toList ++
          '\r' :: '\n' :: "CF-Ray: 8428f15b8a9c1234-SJC\r\n\r\n".toList))).drop j) = false) ∧
    '\r' ∉ "  HIT ".toList ∧
    headerValue ("HTTP/1.1 200 OK\r\n".toList ++ ("CF-Cache-Status:".toList ++
      ("  HIT ".toList ++ '\r' :: '\n' :: "CF-Ray: 8428f15b8a9c1234-SJC\r\n\r\n".toList)))
      "CF-Cache-Status:".toList = some (trim "  HIT ".toList) :=
  ⟨by decide, by decide, by decide, by decide,
    (headerValue_exact_case 200 "CF-Cache-Status:".toList "HTTP/1.1 200 OK\r\n".toList
      "  HIT ".toList "CF-Ray: 8428f15b8a9c1234-SJC\r\n\r\n".toList (by decide) (by decide)).1⟩

end HTTPClient

/-! ## Determinism, order and size of an expansion: results -/

theorem ipToUint32_uint32ToIp (n : Nat) (h : n < U32) :
    CIDRUtils.ipToUint32 (CIDRUtils.uint32ToIp n) = n := by
  have hq : quadValue (n / 16777216 % 256) (n / 65536 % 256) (n / 256 % 256) (n % 256) = n := by
    unfold quadValue; unfold U32 at h; omega
  have h1 := uint32ToIp_quadValue (n / 16777216 % 256) (n / 65536 % 256) (n / 256 % 256)
    (n % 256) (by omega) (by omega) (by omega) (by omega)
  rw [hq] at h1
  rw [h1]
  unfold CIDRUtils.ipToUint32
  rw [c_str_dottedQuad _ _ _ _ (by omega) (by omega) (by omega) (by omega),
    inet_pton_dottedQuad _ _ _ _ (by omega) (by omega) (by omega) (by omega)]
  exact hq

namespace CIDRUtils

theorem expandCIDRFrom_eq (cidr : List Char) (max_ips : Nat) (b0 : Nat) (p0 : Int) :
    expandCIDRFrom b0 p0 cidr max_ips = expandCIDR cidr max_ips := by
  unfold expandCIDRFrom expandCIDR expandCIDRNums
  rcases h : parseCIDR cidr b0 p0 with ⟨ok, base, p⟩
  cases ok with
  | false =>
    have h0 : (parseCIDR cidr 0 0).1 = false := by
      rw [parseCIDR_fst_indep cidr 0 b0 0 p0, h]
    rcases h' : parseCIDR cidr 0 0 with ⟨ok', base', p'⟩
    rw [h'] at h0
    simp only at h0
    subst h0
    rfl
  | true =>
    rw [parseCIDR_success_indep cidr b0 0 p0 0 base p h]

/-- C25: `expandCIDR` is deterministic. The result is a function of the block text and the
cap alone: whatever values the two uninitialised locals hold before `parseCIDR` is called,
the expansion is the one `expandCIDR cidr max_ips` denotes, so two calls agree, element for
element and in the same order. -/
theorem expandCIDR_deterministic (cidr : List Char) (max_ips : Nat) (b0 b1 : Nat)
    (p0 p1 : Int) :
    expandCIDRFrom b0 p0 cidr max_ips = expandCIDR cidr max_ips ∧
    expandCIDRFrom b0 p0 cidr max_ips = expandCIDRFrom b1 p1 cidr max_ips ∧
    (∀ ips ips', expandCIDRFrom b0 p0 cidr max_ips = some ips →
      expandCIDRFrom b1 p1 cidr max_ips = some ips' →
      ips.length = ips'.length ∧ ∀ i : Nat, ips[i]? = ips'[i]?) := by
  refine ⟨expandCIDRFrom_eq cidr max_ips b0 p0, ?_, ?_⟩
  · rw [expandCIDRFrom_eq, expandCIDRFrom_eq]
  · intro ips ips' h h'
    rw [expandCIDRFrom_eq] at h h'
    rw [h] at h'
    cases h'
    exact ⟨rfl, fun _ => rfl⟩

/-- The numeric addresses of an expansion, whatever the block text: the result is defined for
a cap of at least 1. -/
theorem expandCIDRNums_returns (cidr : List Char) (cap : Nat) (hcap : 1 ≤ cap) :
    ∃ nums, expandCIDRNums cidr cap = some nums ∧
      expandCIDR cidr cap = some (nums.map uint32ToIp) := by
  obtain ⟨ips, hips⟩ := expandCIDR_returns cidr cap hcap
  unfold expandCIDR at hips ⊢
  cases hn : expandCIDRNums cidr cap with
  | none => rw [hn] at hips; cases hips
  | some nums => exact ⟨nums, rfl, rfl⟩

/-- The three shapes of an expansion under a cap of at least 1: nothing (rejected text, or a
prefix length of 0), the `cap` samples, or the whole block. -/
theorem expandCIDRNums_shape (cidr : List Char) (cap : Nat) (hcap : 1 ≤ cap) :
    expandCIDRNums cidr cap = some [] ∨
    (∃ base p, parseCIDR cidr 0 0 = (true, base, p) ∧ 1 ≤ p ∧ p ≤ 32 ∧
      base + 2 ^ (32 - p).toNat ≤ U32 ∧ cap < 2 ^ (32 - p).toNat ∧
      expandCIDRNums cidr cap = some ((List.range cap).map (fun i =>
        base + clampSpec (2 ^ (32 - p).toNat) (offsetSpec (2 ^ (32 - p).toNat) cap i)))) ∨
    (∃ base p, parseCIDR cidr 0 0 = (true, base, p) ∧ 1 ≤ p ∧ p ≤ 32 ∧
      base + 2 ^ (32 - p).toNat ≤ U32 ∧ (2 ^ (32 - p).toNat ≤ cap) ∧
      expandCIDRNums cidr cap =
        some (if p < 31 then List.range' (base + 1) (2 ^ (32 - p).toNat - 2)
          else List.range' base (2 ^ (32 - p).toNat))) := by
  rcases h : parseCIDR cidr 0 0 with ⟨ok, base, p⟩
  cases ok with
  | false =>
    left
    exact (expandCIDR_of_parse_failure cidr 0 0 cap (by rw [h])).1
  | true =>
    obtain ⟨hp0, hp32, hb, hz⟩ := parseCIDR_success cidr 0 0 base p h
    by_cases hp : p = 0
    · left
      rw [expandCIDRNums_of_parse cidr 0 0 base p cap h, hp]
      exact expandParsed_prefix_zero base cap hcap
    · have hp1 : 1 ≤ p := by omega
      by_cases hlt : cap < 2 ^ (32 - p).toNat
      · right; left
        refine ⟨base, p, rfl, hp1, hp32, hb hp1, hlt, ?_⟩
        rw [expandCIDRNums_of_parse cidr 0 0 base p cap h]
        exact expandParsed_sample base p cap hp1 hp32 hcap hlt (hb hp1)
      · right; right
        refine ⟨base, p, rfl, hp1, hp32, hb hp1, by omega, ?_⟩
        exact expandCIDRNums_full cidr 0 0 base p cap h hp1 (Or.inl (by omega))

theorem expandCIDR_length_le (cidr : List Char) (cap : Nat) (hcap : 1 ≤ cap) :
    ∃ ips, expandCIDR cidr cap = some ips ∧ ips.length ≤ cap := by
  have hpow : ∀ p : Int, 1 ≤ p → 1 ≤ 2 ^ (32 - p).toNat := fun p _ => Nat.one_le_two_pow
  unfold expandCIDR
  rcases expandCIDRNums_shape cidr cap hcap with h | ⟨base, p, _, hp1, _, _, _, h⟩ |
    ⟨base, p, _, hp1, _, _, hle, h⟩
  · rw [h]; exact ⟨_, rfl, by simp⟩
  · rw [h]; exact ⟨_, rfl, by simp⟩
  · rw [h]
    refine ⟨_, rfl, ?_⟩
    have := hpow p hp1
    split_ifs <;> simp only [Option.map, List.length_map, List.length_range'] <;> omega

end CIDRUtils

namespace CDNTracker

theorem concatExpansions_length_le (cap : Nat) (hcap : 1 ≤ cap) (ds : List (List Char)) :
    ∃ l, concatExpansions cap ds = some l ∧
      l.length ≤ cap * ds.countP (fun d => decide (':' ∉ d)) := by
  induction ds with
  | nil => exact ⟨[], rfl, by simp⟩
  | cons d ds ih =>
    obtain ⟨l, hl, hlen⟩ := ih
    by_cases hc : ':' ∈ d
    · refine ⟨l, ?_, ?_⟩
      · simp only [concatExpansions, hc, if_true]; exact hl
      · rw [List.countP_cons_of_neg]
        · exact hlen
        · simp [hc]
    · obtain ⟨ips, hips, hn⟩ := CIDRUtils.expandCIDR_length_le d cap hcap
      refine ⟨ips ++ l, ?_, ?_⟩
      · simp only [concatExpansions, hc, if_false, hips, hl]
      · rw [List.countP_cons_of_pos]
        · rw [List.length_append, Nat.mul_add, Nat.mul_one]; omega
        · simp [hc]

theorem expandAllRanges_eq_concat (t : CDNTracker) :
    t.expandAllRanges =
      concatExpansions (if t.force_all_ = true then SIZE_MAX else t.max_ips_per_range_)
        t.ip_ranges_ := by
  unfold expandAllRanges
  simp only []
  rw [expandAllRanges_loop]
  cases concatExpansions (if t.force_all_ = true then SIZE_MAX else t.max_ips_per_range_)
    t.ip_ranges_ <;> simp

/-- C28: the sample is bounded. For every cap of at least 1 (the bound needs no more, so it
holds in particular for every finite cap) and every block text, `expandCIDR` returns, and
returns at most `cap` addresses; hence a tracker with force-all off and that cap returns from
`expandAllRanges` at most `cap` times the number of its declarations without a `':'` (the
IPv4 declarations), whatever the sizes of the blocks. -/
theorem expandCIDR_at_most_cap (cap : Nat) (hcap : 1 ≤ cap) :
    (∀ cidr, ∃ ips, CIDRUtils.expandCIDR cidr cap = some ips ∧ ips.length ≤ cap) ∧
    (∀ t : CDNTracker, t.force_all_ = false → t.max_ips_per_range_ = cap →
      ∃ all_ips, t.expandAllRanges = some all_ips ∧
        all_ips.length ≤ cap * t.ip_ranges_.countP (fun d => decide (':' ∉ d))) := by
  refine ⟨fun cidr => CIDRUtils.expandCIDR_length_le cidr cap hcap, ?_⟩
  intro t hf hm
  rw [expandAllRanges_eq_concat, hf, hm]
  exact concatExpansions_length_le cap hcap t.ip_ranges_

/-- C28, at the cap 10 of a fresh tracker: `198.51.100.0/24` gives at most 10 addresses, and
a tracker holding that block and an IPv6 declaration returns at most 10 addresses. -/
theorem expandCIDR_at_most_cap_witness :
    1 ≤ 10 ∧
    (∃ ips, CIDRUtils.expandCIDR "198.51.100.0/24".toList 10 = some ips ∧ ips.length ≤ 10) ∧
    (∃ all_ips,
      ({ new with ip_ranges_ := ["198.51.100.0/24".toList, "2400:cb00::/32".toList] } :
        CDNTracker).expandAllRanges = some all_ips ∧ all_ips.length ≤ 10 * 1) :=
  ⟨by decide, (expandCIDR_at_most_cap 10 (by decide)).1 _,
    (expandCIDR_at_most_cap 10 (by decide)).2 _ rfl rfl⟩

end CDNTracker

/-! ## Order and repetitions in a sample: results -/

/-- The unclamped offsets of a sample increase strictly with the sample number. -/
theorem offsetSpec_strict (T cap i j : Nat) (hcap : 1 ≤ cap) (hlt : cap < T) (hij : i < j) :
    offsetSpec T cap i < offsetSpec T cap j := by
  have hs : 1 ≤ T / cap := (Nat.one_le_div_iff (by omega)).2 (by omega)
  have hm : (i + 1) * (T / cap) ≤ j * (T / cap) := Nat.mul_le_mul_right _ (by omega)
  rw [Nat.add_mul, Nat.one_mul] at hm
  unfold offsetSpec
  generalize i * (T / cap) = a at hm ⊢
  generalize j * (T / cap) = b at hm ⊢
  have h4 : i % 4 < 4 := Nat.mod_lt _ (by omega)
  split_ifs <;> omega

/-- No unclamped offset of a sample reaches the last two offsets of the block. -/
theorem offsetSpec_le (T cap i : Nat) (hcap : 1 ≤ cap) (hlt : cap < T) (hi : i < cap) :
    offsetSpec T cap i + 2 ≤ T := by
  obtain ⟨h1, hs⟩ := CIDRUtils.stride_lt T cap i hcap hi hlt
  have hstep : T < 2 * cap → T / cap = 1 := by
    intro h
    have : T / cap < 2 := (Nat.div_lt_iff_lt_mul (by omega)).2 (by omega)
    omega
  have hone : T / cap = 1 → i * (T / cap) = i := by intro h; rw [h, Nat.mul_one]
  have h2 : 2 * cap ≤ T → 2 ≤ T / cap := fun h => (Nat.le_div_iff_mul_le (by omega)).2 (by omega)
  unfold offsetSpec
  have h4 : i % 4 < 4 := Nat.mod_lt _ (by omega)
  by_cases hc : T < 2 * cap
  · have e := hstep hc
    have e2 := hone e
    rw [e] at h1 ⊢
    rw [Nat.mul_one]
    split_ifs <;> omega
  · have := h2 (by omega)
    generalize i * (T / cap) = a at h1 ⊢
    split_ifs <;> omega

/-- The first offset is `0`, and the second is `1` exactly when the stride is `1`. -/
theorem offsetSpec_small (T cap : Nat) (hcap : 1 ≤ cap) (hlt : cap < T) :
    offsetSpec T cap 0 = 0 ∧ (∀ j, 0 < j → (offsetSpec T cap j = 1 ↔ j = 1 ∧ T / cap = 1)) := by
  have hs : 1 ≤ T / cap := (Nat.one_le_div_iff (by omega)).2 (by omega)
  refine ⟨by simp [offsetSpec], ?_⟩
  intro j hj
  have hm : 1 * (T / cap) ≤ j * (T / cap) := Nat.mul_le_mul_right _ (by omega)
  rw [Nat.one_mul] at hm
  have hm2 : 2 ≤ j → 2 * (T / cap) ≤ j * (T / cap) := fun h => Nat.mul_le_mul_right _ h
  unfold offsetSpec
  constructor
  · intro h
    by_cases h1 : j = 1
    · subst h1
      rw [Nat.one_mul] at h
      split_ifs at h <;> omega
    · have := hm2 (by omega)
      generalize j * (T / cap) = b at *
      split_ifs at h <;> omega
  · rintro ⟨rfl, h1⟩
    rw [h1]
    simp

/-- The clamped offsets of a sample never decrease, and two of them are equal only for the
first two samples under a stride of `1`, where both are `1`. -/
theorem sample_offsets (T cap i j : Nat) (hcap : 1 ≤ cap) (hlt : cap < T) (hij : i < j)
    (hj : j < cap) :
    clampSpec T (offsetSpec T cap i) ≤ clampSpec T (offsetSpec T cap j) ∧
    (clampSpec T (offsetSpec T cap i) = clampSpec T (offsetSpec T cap j) ↔
      i = 0 ∧ j = 1 ∧ T / cap = 1) ∧
    (T / cap = 1 → clampSpec T (offsetSpec T cap 0) = 1 ∧ (1 < cap →
      clampSpec T (offsetSpec T cap 1) = 1)) := by
  have hlt' := offsetSpec_strict T cap i j hcap hlt hij
  have hi2 := offsetSpec_le T cap i hcap hlt (by omega)
  have hj2 := offsetSpec_le T cap j hcap hlt hj
  obtain ⟨h0, hone⟩ := offsetSpec_small T cap hcap hlt
  have hj1 := hone j (by omega)
  have hi1 : 0 < i → offsetSpec T cap i ≠ 0 := by
    intro hi
    have := offsetSpec_strict T cap 0 i hcap hlt hi
    omega
  have hstepT : T / cap = 1 → 2 < T := by
    intro h
    have : T < 2 * cap := by
      by_contra hc
      have : 2 ≤ T / cap := (Nat.le_div_iff_mul_le (by omega)).2 (by omega)
      omega
    omega
  refine ⟨?_, ?_, ?_⟩
  · unfold clampSpec
    split_ifs <;> omega
  · constructor
    · intro h
      unfold clampSpec at h
      by_cases hT : T > 2
      · rw [if_pos hT, if_pos hT] at h
        by_cases hi : i = 0
        · subst hi
          rw [h0] at h
          have : offsetSpec T cap j = 1 := by omega
          exact ⟨rfl, hj1.1 this⟩
        · have := hi1 (by omega)
          omega
      · rw [if_neg hT, if_neg hT] at h
        omega
    · rintro ⟨rfl, rfl, h1⟩
      have hT := hstepT h1
      have := (hone 1 (by omega)).2 ⟨rfl, h1⟩
      unfold clampSpec
      rw [if_pos hT, if_pos hT, h0, this]
      omega
  · intro h1
    have hT := hstepT h1
    unfold clampSpec
    rw [if_pos hT, if_pos hT, h0]
    refine ⟨by omega, fun _ => ?_⟩
    rw [(hone 1 (by omega)).2 ⟨rfl, h1⟩]
    omega

namespace CIDRUtils

theorem expandCIDRNums_lt (cidr : List Char) (cap : Nat) (nums : List Nat)
    (h : expandCIDRNums cidr cap = some nums) : ∀ a ∈ nums, a < U32 := by
  rcases hp : parseCIDR cidr 0 0 with ⟨ok, base, p⟩
  cases ok with
  | false =>
    have := (expandCIDR_of_parse_failure cidr 0 0 cap (by rw [hp])).1
    rw [this] at h
    cases h
    simp
  | true =>
    intro a ha
    obtain ⟨hp0, hp32, hb, hz⟩ := parseCIDR_success cidr 0 0 base p hp
    have hin := expandCIDRNums_in_block cidr 0 0 base p cap nums hp h a ha
    by_cases h0 : p = 0
    · have hb0 := hz h0
      subst h0
      have e : (2 : Nat) ^ ((32 : Int) - 0).toNat = U32 := by decide
      rw [e, hb0] at hin
      omega
    · have := hb (by omega)
      omega

/-- C27: for every block text and every cap of at least 1, `expandCIDR` returns, and the
sequence it returns is in non-decreasing numeric order, in the sampling branch as in the
enumeration branch: the printed addresses read back (`ipToUint32`) as the numbers `nums`, and
`nums` never decreases. -/
theorem expandCIDR_nondecreasing (cidr : List Char) (cap : Nat) (hcap : 1 ≤ cap) :
    ∃ nums, expandCIDRNums cidr cap = some nums ∧
      expandCIDR cidr cap = some (nums.map uint32ToIp) ∧
      (nums.map uint32ToIp).map ipToUint32 = nums ∧
      nums.Pairwise (· ≤ ·) := by
  obtain ⟨nums, hn, hs⟩ := expandCIDRNums_returns cidr cap hcap
  refine ⟨nums, hn, hs, ?_, ?_⟩
  · have hlt := expandCIDRNums_lt cidr cap nums hn
    rw [List.map_map]
    conv_rhs => rw [← List.map_id nums]
    apply List.map_congr_left
    intro a ha
    exact ipToUint32_uint32ToIp a (hlt a ha)
  · rcases expandCIDRNums_shape cidr cap hcap with h | ⟨base, p, _, hp1, _, _, hlt, h⟩ |
      ⟨base, p, _, hp1, _, _, hle, h⟩
    · rw [h] at hn; cases hn; exact List.Pairwise.nil
    · rw [h] at hn; cases hn
      rw [List.pairwise_map]
      refine (List.pairwise_lt_range cap).imp_of_mem ?_
      intro i j _ hj hij
      have := (sample_offsets _ cap i j hcap hlt hij (List.mem_range.1 hj)).1
      omega
    · rw [h] at hn; cases hn
      split_ifs
      · exact (List.pairwise_lt_range' _ _).imp (fun h => Nat.le_of_lt h)
      · exact (List.pairwise_lt_range' _ _).imp (fun h => Nat.le_of_lt h)

/-- C27 on `198.51.100.0/24` under the cap 4. -/
theorem expandCIDR_nondecreasing_witness :
    1 ≤ 4 ∧ ∃ nums, expandCIDRNums "198.51.100.0/24".toList 4 = some nums ∧
      expandCIDR "198.51.100.0/24".toList 4 = some (nums.map uint32ToIp) ∧
      (nums.map uint32ToIp).map ipToUint32 = nums ∧
      nums.Pairwise (· ≤ ·) :=
  ⟨by decide, expandCIDR_nondecreasing "198.51.100.0/24".toList 4 (by decide)⟩

/-- The repetitions of a sample, for the prefix lengths 1 to 32: the sample holds `cap`
addresses, two printed addresses are equal only when their numbers are, the stride is `1`
exactly when the block has fewer than `2 * cap` addresses, and two samples are equal exactly
when they are the first two under a stride of `1`, both `base + 1` then. -/
theorem expandCIDR_sample_repeats (cidr : List Char) (b0 : Nat) (p0 : Int) (base : Nat)
    (p : Int) (cap : Nat) (h : parseCIDR cidr b0 p0 = (true, base, p)) (hp : 1 ≤ p)
    (hcap : 1 ≤ cap) (hlt : cap < 2 ^ (32 - p).toNat) :
    ∃ nums, expandCIDRNums cidr cap = some nums ∧
      expandCIDR cidr cap = some (nums.map uint32ToIp) ∧
      nums.length = cap ∧
      (∀ a ∈ nums, ∀ b ∈ nums, uint32ToIp a = uint32ToIp b → a = b) ∧
      (2 ^ (32 - p).toNat / cap = 1 ↔ 2 ^ (32 - p).toNat < 2 * cap) ∧
      (∀ i j : Nat, i < j → j < cap →
        (nums[i]? = nums[j]? ↔ i = 0 ∧ j = 1 ∧ 2 ^ (32 - p).toNat / cap = 1)) ∧
      (2 ^ (32 - p).toNat / cap = 1 →
        nums[0]? = some (base + 1) ∧ nums[1]? = some (base + 1)) ∧
      (¬ nums.Nodup ↔ 2 ^ (32 - p).toNat / cap = 1) ∧
      (2 * cap ≤ 2 ^ (32 - p).toNat → nums.Nodup ∧ (nums.map uint32ToIp).Nodup) := by
  obtain ⟨_, hp32, hb, _⟩ := parseCIDR_success cidr b0 p0 base p h
  have hb := hb hp
  have hn : expandCIDRNums cidr cap = some ((List.range cap).map (fun i =>
      base + clampSpec (2 ^ (32 - p).toNat) (offsetSpec (2 ^ (32 - p).toNat) cap i))) := by
    rw [expandCIDRNums_of_parse cidr b0 p0 base p cap h]
    exact expandParsed_sample base p cap hp hp32 hcap hlt hb
  generalize 2 ^ (32 - p).toNat = T at *
  have hlt32 := expandCIDRNums_lt cidr cap _ hn
  generalize hnums : (List.range cap).map (fun i =>
      base + clampSpec T (offsetSpec T cap i)) = nums at *
  have hlen : nums.length = cap := by rw [← hnums]; simp
  have hget : ∀ i, i < cap → nums[i]? = some (base + clampSpec T (offsetSpec T cap i)) := by
    intro i hi
    rw [← hnums, List.getElem?_map, List.getElem?_range hi]
    rfl
  have hinj : ∀ a ∈ nums, ∀ b ∈ nums, uint32ToIp a = uint32ToIp b → a = b := by
    intro a ha b hb' hab
    rw [← ipToUint32_uint32ToIp a (hlt32 a ha), ← ipToUint32_uint32ToIp b (hlt32 b hb'), hab]
  have hstep : T / cap = 1 ↔ T < 2 * cap := by
    constructor
    · intro h1
      by_contra hc
      have : 2 ≤ T / cap := (Nat.le_div_iff_mul_le (by omega)).2 (by omega)
      omega
    · intro h2
      have : T / cap < 2 := (Nat.div_lt_iff_lt_mul (by omega)).2 (by omega)
      have : 1 ≤ T / cap := (Nat.one_le_div_iff (by omega)).2 (by omega)
      omega
  have heq : ∀ i j : Nat, i < j → j < cap →
      (nums[i]? = nums[j]? ↔ i = 0 ∧ j = 1 ∧ T / cap = 1) := by
    intro i j hij hj
    rw [hget i (by omega), hget j hj]
    have := (sample_offsets T cap i j hcap hlt hij hj).2.1
    constructor
    · intro e
      apply this.1
      have e' := Option.some.inj e
      omega
    · intro e
      rw [this.2 e]
  have hfirst : T / cap = 1 → nums[0]? = some (base + 1) ∧ nums[1]? = some (base + 1) := by
    intro h1
    have hc2 : 1 < cap := by
      have := hstep.1 h1
      omega
    have := (sample_offsets T cap 0 1 hcap hlt (by omega) hc2).2.2 h1
    rw [hget 0 (by omega), hget 1 hc2, this.1, this.2 hc2]
    exact ⟨rfl, rfl⟩
  have hnd : ¬ nums.Nodup ↔ T / cap = 1 := by
    rw [List.nodup_iff_getElem?_ne_getElem?]
    constructor
    · intro hne
      by_contra h1
      apply hne
      intro i j hij hj
      rw [hlen] at hj
      intro e
      exact h1 ((heq i j hij hj).1 e).2.2
    · intro h1 hall
      have hc2 : 1 < cap := by
        have := hstep.1 h1
        omega
      exact hall 0 1 (by omega) (by omega) ((heq 0 1 (by omega) hc2).2 ⟨rfl, rfl, h1⟩)
  refine ⟨nums, hn, ?_, hlen, hinj, hstep, heq, hfirst, hnd, ?_⟩
  · unfold expandCIDR; rw [hn]; rfl
  · intro h2
    have hN : nums.Nodup := by
      by_contra hc
      have := hstep.1 (hnd.1 hc)
      omega
    exact ⟨hN, hN.map_on hinj⟩

/-- C26 on an accepted block of prefix length 0 under the cap 3221225472: the block has
`2^32` addresses, more than the cap and fewer than twice the cap, so the stride
`floor(2^32 / cap)` is 1; the 32-bit host count the code computes is not above the cap, the
sampling branch is not taken and the sequence returned is empty, without the repeated
`base + 1`. -/
theorem expandCIDR_slash_zero_no_repeat :
    (parseCIDR "1.0.0.0/0".toList 0 0 = (true, 0, 0) ∧
      3221225472 < 2 ^ 32 ∧ 2 ^ 32 / 3221225472 = 1 ∧ 2 ^ 32 < 2 * 3221225472) ∧
    getHostCount 0 ≤ 3221225472 ∧
    expandCIDR "1.0.0.0/0".toList 3221225472 = some [] := by
  refine ⟨⟨by decide, by decide, by decide, by decide⟩, by decide, ?_⟩
  exact (show expandCIDRNums "1.0.0.0/0".toList 3221225472 = some [] → _ from
    fun h => by unfold expandCIDR; rw [h]; rfl)
    (by rw [expandCIDRNums_of_parse _ 0 0 0 0 _ (by decide)]
        exact expandParsed_prefix_zero _ _ (by decide))

end CIDRUtils

/-! ## Thread counts and empty target lists: results -/

namespace CDNTracker

theorem workerIndices_lt (n : Nat) (se : Nat × Nat) : ∀ i ∈ workerIndices n se, i < n := by
  intro i hi
  unfold workerIndices at hi
  rw [List.mem_range'_1] at hi
  omega

theorem dispatch_indices_lt (n num_threads : Nat) (slices : List (List Nat))
    (h : dispatch n num_threads = some slices) : ∀ s ∈ slices, ∀ i ∈ s, i < n := by
  unfold dispatch at h
  cases hk : ips_per_thread n num_threads with
  | none => rw [hk] at h; cases h
  | some k =>
    rw [hk] at h
    simp only [Option.map_some', Option.some.injEq] at h
    subst h
    intro s hs i hi
    rw [List.mem_map] at hs
    obtain ⟨se, _, rfl⟩ := hs
    exact workerIndices_lt n se i hi

theorem dispatch_returns (n num_threads : Nat) (hc : 1 ≤ num_threads) :
    ∃ k slices, ips_per_thread n num_threads = some k ∧ dispatch n num_threads = some slices := by
  have hk : ips_per_thread n num_threads
      = some ((((n + num_threads) % SZ + SZ - 1) % SZ) / num_threads) := by
    unfold ips_per_thread
    rw [if_neg (by omega)]
  refine ⟨_, (threadSlices n ((((n + num_threads) % SZ + SZ - 1) % SZ) / num_threads)
    num_threads).map (workerIndices n), hk, ?_⟩
  unfold dispatch
  rw [hk]
  rfl

theorem dispatch_no_targets (num_threads : Nat) (hc : 1 ≤ num_threads) :
    dispatch 0 num_threads = some [] := by
  have hts : ∀ k, threadSlices 0 k num_threads = [] := by
    intro k
    unfold threadSlices
    rw [List.filterMap_eq_nil_iff]
    intro t _
    unfold sliceOf
    simp
  unfold dispatch ips_per_thread
  rw [if_neg (by omega)]
  simp only [Option.map_some']
  rw [hts]
  rfl

/-- Claim C29, refuted as stated: `num_threads = 0` is a value the interface accepts, and
with it the slice-size computation divides by zero, for `track` as for the pool on its own;
here on a tracker that holds one cached alive address. -/
theorem dispatch_zero_threads :
    ips_per_thread 1 0 = none ∧ dispatch 1 0 = none ∧
    (∀ out, track (setSpecificIPs new ["192.0.2.1".toList]) "https://example.com/a.png".toList
      (fun _ _ _ => Transfer.ok 200 []) 0 out → out = TrackOutcome.crashed) := by
  refine ⟨by decide, by decide, ?_⟩
  intro out h
  unfold track at h
  have ht : trackTargets (setSpecificIPs new ["192.0.2.1".toList])
      = TargetChoice.chosen ["192.0.2.1".toList] := by decide
  rw [ht] at h
  have hd : dispatch ["192.0.2.1".toList].length 0 = none := by decide
  simp only [hd] at h
  exact h

/-- Claim C29, amended: for every target count `n` and every `num_threads` of at least 1, the
slice-size computation divides by a non-zero number and the pool is set up; every index a
worker reads from the target list is less than `n`, and wherever a worker reads an index the
progress percentage divides by the non-zero total `n`. -/
theorem dispatch_safe (n num_threads : Nat) (hc : 1 ≤ num_threads) :
    ∃ k slices, ips_per_thread n num_threads = some k ∧
      dispatch n num_threads = some slices ∧
      ∀ s ∈ slices, ∀ i ∈ s,
        i < n ∧ ∀ current, ∃ percent, displayProgress current n = some percent := by
  obtain ⟨k, slices, hk, hd⟩ := dispatch_returns n num_threads hc
  refine ⟨k, slices, hk, hd, ?_⟩
  intro s hs i hi
  have hlt := dispatch_indices_lt n num_threads slices hd s hs i hi
  refine ⟨hlt, fun current => ?_⟩
  unfold displayProgress
  rw [if_neg (by omega)]
  exact ⟨_, rfl⟩

/-- Claim C29, amended, on 23 targets and 5 threads. -/
theorem dispatch_safe_witness :
    1 ≤ 5 ∧ ∃ k slices, ips_per_thread 23 5 = some k ∧
      dispatch 23 5 = some slices ∧
      ∀ s ∈ slices, ∀ i ∈ s,
        i < 23 ∧ ∀ current, ∃ percent, displayProgress current 23 = some percent :=
  ⟨by decide, dispatch_safe 23 5 (by decide)⟩

theorem Interleave_nil {α : Type} (r : List α) : Interleave ([] : List (List α)) r ↔ r = [] := by
  constructor
  · intro h
    have := h.perm
    simpa using this
  · rintro rfl
    exact Interleave.done [] (by simp)

theorem track_no_ranges (t : CDNTracker) (target_url : List Char)
    (probe : Nat → List Char → List Char → Transfer) (num_threads : Nat) :
    track t target_url probe num_threads TrackOutcome.no_ranges ↔
      (t.use_specific_ips_ = false ∧ t.ip_ranges_ = []) := by
  unfold track trackTargets
  by_cases hg : t.use_specific_ips_ = false ∧ t.ip_ranges_ = []
  · rw [if_pos hg]
    simp [hg]
  · rw [if_neg hg]
    simp only [hg, iff_false]
    split_ifs
    · simp only
      cases dispatch t.specific_ips_.length num_threads <;> simp
    · cases t.expandAllRanges with
      | none => simp
      | some all_ips =>
        simp only
        cases dispatch all_ips.length num_threads <;> simp

theorem track_of_empty (t : CDNTracker) (target_url : List Char)
    (probe : Nat → List Char → List Char → Transfer) (num_threads : Nat)
    (hc : 1 ≤ num_threads) (h : trackTargets t = TargetChoice.chosen []) (out : TrackOutcome) :
    track t target_url probe num_threads out ↔ out = TrackOutcome.completed [] [] := by
  unfold track
  rw [h]
  simp only [List.length_nil, dispatch_no_targets num_threads hc, List.map_nil, Interleave_nil]
  constructor
  · rintro ⟨results, rfl, rfl⟩; rfl
  · rintro rfl; exact ⟨[], rfl, rfl⟩

/-- Claim C24, refuted as stated: a tracker whose only declarations are an IPv6 block and a
malformed one has an empty target list, yet `track` does not stop with the error: it goes on
to the pool, starts no worker and prints the report, over zero results. -/
theorem track_ipv6_only_reports :
    ({ new with ip_ranges_ := ["2400:cb00::/32".toList, "not a block".toList] } :
      CDNTracker).expandAllRanges = some [] ∧
    (∀ out, track { new with ip_ranges_ := ["2400:cb00::/32".toList, "not a block".toList] }
        "https://example.com/a.png".toList (fun _ _ _ => Transfer.init_failed) 10 out ↔
      out = TrackOutcome.completed [] []) ∧
    ¬ track { new with ip_ranges_ := ["2400:cb00::/32".toList, "not a block".toList] }
        "https://example.com/a.png".toList (fun _ _ _ => Transfer.init_failed) 10
        TrackOutcome.no_ranges := by
  have ht : trackTargets
      { new with ip_ranges_ := ["2400:cb00::/32".toList, "not a block".toList] }
      = TargetChoice.chosen [] := by decide
  refine ⟨by decide, fun out => track_of_empty _ _ _ 10 (by decide) ht out, ?_⟩
  rw [track_of_empty _ _ _ 10 (by decide) ht]
  intro h
  cases h

/-- Claim C24, amended: `track` prints the error and returns, without pool or report, exactly
when no alive list is in use and no declaration is loaded, and that is then its only outcome.
In every other state whose target list is empty, and for every `num_threads` of at least 1,
`track` does not stop: it starts no worker and prints the report over zero results.
`scanAliveNodes` returns the empty list at once when no declaration is loaded. -/
theorem track_empty_targets (t : CDNTracker) (target_url : List Char)
    (probe : Nat → List Char → List Char → Transfer) (scan_probe : Nat → Transfer)
    (num_threads : Nat) (hc : 1 ≤ num_threads) :
    (track t target_url probe num_threads TrackOutcome.no_ranges ↔
      (t.use_specific_ips_ = false ∧ t.ip_ranges_ = [])) ∧
    ((t.use_specific_ips_ = false ∧ t.ip_ranges_ = []) →
      ∀ out, track t target_url probe num_threads out ↔ out = TrackOutcome.no_ranges) ∧
    (trackTargets t = TargetChoice.chosen [] →
      ∀ out, track t target_url probe num_threads out ↔ out = TrackOutcome.completed [] []) ∧
    (t.ip_ranges_ = [] → ∀ ret, scanAliveNodes t scan_probe num_threads ret ↔ ret = some []) := by
  refine ⟨track_no_ranges t target_url probe num_threads, ?_,
    fun h out => track_of_empty t target_url probe num_threads hc h out, ?_⟩
  · intro hg out
    unfold track trackTargets
    rw [if_pos hg]
  · intro hr ret
    unfold scanAliveNodes
    rw [if_pos hr]

/-- Claim C24, amended, on a fresh tracker (nothing loaded) and on one that holds only an
IPv6 declaration, with 10 threads. -/
theorem track_empty_targets_witness :
    1 ≤ 10 ∧
    (track new "https://example.com/a.png".toList (fun _ _ _ => Transfer.init_failed) 10
      TrackOutcome.no_ranges) ∧
    (∀ out, track { new with ip_ranges_ := ["2400:cb00::/32".toList] }
        "https://example.com/a.png".toList (fun _ _ _ => Transfer.init_failed) 10 out ↔
      out = TrackOutcome.completed [] []) ∧
    (∀ ret, scanAliveNodes new (fun _ => Transfer.init_failed) 10 ret ↔ ret = some []) :=
  ⟨by decide,
    (track_empty_targets new _ (fun _ _ _ => Transfer.init_failed)
      (fun _ => Transfer.init_failed) 10 (by decide)).1.2 (by decide),
    (track_empty_targets { new with ip_ranges_ := ["2400:cb00::/32".toList] } _
      (fun _ _ _ => Transfer.init_failed) (fun _ => Transfer.init_failed) 10
      (by decide)).2.2.1 (by decide),
    (track_empty_targets new "https://example.com/a.png".toList
      (fun _ _ _ => Transfer.init_failed) (fun _ => Transfer.init_failed) 10
      (by decide)).2.2.2 (by decide)⟩

end CDNTracker

/-! ## The probe request of `track`: results -/

theorem findFrom_ge (pat : List Char) :
    ∀ (s : List Char) (i k : Nat), findFrom pat s i = some k → i ≤ k := by
  intro s
  induction s with
  | nil =>
    intro i k h
    unfold findFrom at h
    split_ifs at h
    cases h
    exact Nat.le_refl _
  | cons c cs ih =>
    intro i k h
    unfold findFrom at h
    split_ifs at h
    · cases h; exact Nat.le_refl _
    · have := ih (i + 1) k h
      omega

theorem find_zero_iff (s pat : List Char) :
    find s pat 0 = some 0 ↔ pat.isPrefixOf s = true := by
  unfold find
  rw [if_neg (by omega), List.drop_zero]
  cases s with
  | nil =>
    unfold findFrom
    cases pat <;> simp [List.isPrefixOf]
  | cons c cs =>
    unfold findFrom
    by_cases hp : pat.isPrefixOf (c :: cs) = true
    · simp [hp]
    · rw [if_neg hp]
      constructor
      · intro h
        have := findFrom_ge pat cs (0 + 1) 0 h
        omega
      · intro h
        exact absurd h hp

theorem findFrom_slash (rest : List Char) :
    ∀ (host : List Char) (i : Nat), '/' ∉ host →
      findFrom ['/'] (host ++ '/' :: rest) i = some (i + host.length) := by
  intro host
  induction host with
  | nil =>
    intro i _
    simp [findFrom, List.isPrefixOf]
  | cons c cs ih =>
    intro i hh
    have hc : c ≠ '/' := fun e => hh (by simp [e])
    have hcs : '/' ∉ cs := fun e => hh (by simp [e])
    show findFrom ['/'] (c :: (cs ++ '/' :: rest)) i = _
    unfold findFrom
    rw [if_neg (by simpa [List.isPrefixOf] using fun e => hc e.symm), ih (i + 1) hcs]
    simp only [List.length_cons]
    congr 1
    omega

theorem findFrom_slash_none :
    ∀ (host : List Char) (i : Nat), '/' ∉ host → findFrom ['/'] host i = none := by
  intro host
  induction host with
  | nil => intro i _; simp [findFrom]
  | cons c cs ih =>
    intro i hh
    have hc : c ≠ '/' := fun e => hh (by simp [e])
    have hcs : '/' ∉ cs := fun e => hh (by simp [e])
    unfold findFrom
    rw [if_neg (by simpa [List.isPrefixOf] using fun e => hc e.symm)]
    exact ih (i + 1) hcs

namespace CDNTracker

/-- The place of `://` in a URL that starts with `http://` or `https://`. -/
theorem find_scheme (scheme tail : List Char)
    (hs : scheme = "http".toList ∨ scheme = "https".toList) :
    find (scheme ++ "://".toList ++ tail) "://".toList 0 = some scheme.length ∧
    url_to_check (scheme ++ "://".toList ++ tail) = scheme ++ "://".toList ++ tail := by
  rcases hs with rfl | rfl
  · refine ⟨?_, ?_⟩
    · have := findFrom_first "://".toList ("://".toList ++ tail) (by simp [List.isPrefixOf])
        "http".toList 0 (by
          intro j hj
          have hj : j < 4 := hj
          interval_cases j <;> simp [List.isPrefixOf])
      unfold find
      rw [if_neg (by omega), List.drop_zero, List.append_assoc, this]
      rfl
    · unfold url_to_check
      have h1 : find ("http".toList ++ "://".toList ++ tail) "http://".toList 0 = some 0 :=
        (find_zero_iff _ _).2 (by simp [List.isPrefixOf])
      rw [if_neg (fun h => h.1 h1)]
  · refine ⟨?_, ?_⟩
    · have := findFrom_first "://".toList ("://".toList ++ tail) (by simp [List.isPrefixOf])
        "https".toList 0 (by
          intro j hj
          have hj : j < 5 := hj
          interval_cases j <;> simp [List.isPrefixOf])
      unfold find
      rw [if_neg (by omega), List.drop_zero, List.append_assoc, this]
      rfl
    · unfold url_to_check
      have h1 : find ("https".toList ++ "://".toList ++ tail) "https://".toList 0 = some 0 :=
        (find_zero_iff _ _).2 (by simp [List.isPrefixOf])
      rw [if_neg (fun h => h.2 h1)]

/-- The request built from a URL whose `://` is at index `k`, followed by a host without
`'/'` and a path. -/
theorem request_with_path (t : CDNTracker) (pre host rest a : List Char) (k : Nat)
    (hk : find (pre ++ host ++ '/' :: rest) "://".toList 0 = some k)
    (hpre : pre.length = k + 3) (hh : '/' ∉ host) (ht : t.target_domain_ = []) :
    test_url (pre ++ host ++ '/' :: rest) a = pre ++ a ++ '/' :: rest ∧
    domain t (pre ++ host ++ '/' :: rest) = host := by
  have hd : (pre ++ host ++ '/' :: rest).drop (k + 3) = host ++ '/' :: rest := by
    rw [List.append_assoc, ← hpre, List.drop_left]
  have hf : find (pre ++ host ++ '/' :: rest) ['/'] (k + 3) = some (k + 3 + host.length) := by
    unfold find
    rw [if_neg (by simp; omega), hd]
    exact findFrom_slash rest host (k + 3) hh
  have e1 : List.take pre.length (pre ++ host ++ '/' :: rest) = pre := by
    rw [List.append_assoc, List.take_left]
  have e2 : List.drop (pre.length + host.length) (pre ++ host ++ '/' :: rest) = '/' :: rest := by
    rw [← List.length_append, List.drop_left]
  constructor
  · unfold test_url
    simp only [hk, hf]
    unfold substr
    rw [← hpre, List.drop_zero, e1, e2]
  · unfold domain
    simp only [ht, List.isEmpty_nil, if_true, hk, hf]
    unfold substr
    rw [hd]
    have : k + 3 + host.length - (k + 3) = host.length := by omega
    rw [this, List.take_left]

/-- The request built from a URL whose `://` is at index `k`, followed by a host without
`'/'` and nothing else. -/
theorem request_without_path (t : CDNTracker) (pre host a : List Char) (k : Nat)
    (hk : find (pre ++ host) "://".toList 0 = some k)
    (hpre : pre.length = k + 3) (hh : '/' ∉ host) (ht : t.target_domain_ = []) :
    test_url (pre ++ host) a = pre ++ a ∧ domain t (pre ++ host) = host := by
  have hd : (pre ++ host).drop (k + 3) = host := by
    rw [← hpre, List.drop_left]
  have hf : find (pre ++ host) ['/'] (k + 3) = none := by
    unfold find
    rw [if_neg (by simp; omega), hd]
    exact findFrom_slash_none host (k + 3) hh
  constructor
  · unfold test_url
    simp only [hk, hf]
    unfold substr
    rw [List.drop_zero, ← hpre, List.take_left]
  · unfold domain
    simp only [ht, List.isEmpty_nil, if_true, hk, hf]
    exact hd

/-- C21: the probe request of `track`. For a base URL `scheme://host/rest` with scheme `http`
or `https` and a host without `'/'`, on a tracker without target domain, the URL built for
the target `a` is `scheme://a/rest` and the virtual host is `host`; without a path the URL is
`scheme://a`. A URL that starts with neither `http://` nor `https://` is replaced by
`https://` followed by it, and so gives the requests of that URL. The worker passes the URL
and the virtual host so built to the probe. -/
theorem track_probe_request (t : CDNTracker) (scheme host rest a : List Char)
    (hs : scheme = "http".toList ∨ scheme = "https".toList) (hh : '/' ∉ host)
    (ht : t.target_domain_ = []) :
    (test_url (url_to_check (scheme ++ "://".toList ++ host ++ '/' :: rest)) a
        = scheme ++ "://".toList ++ a ++ '/' :: rest ∧
      domain t (url_to_check (scheme ++ "://".toList ++ host ++ '/' :: rest)) = host) ∧
    (test_url (url_to_check (scheme ++ "://".toList ++ host)) a = scheme ++ "://".toList ++ a ∧
      domain t (url_to_check (scheme ++ "://".toList ++ host)) = host) ∧
    (∀ u : List Char, "http://".toList.isPrefixOf u = false →
      "https://".toList.isPrefixOf u = false →
      url_to_check u = "https://".toList ++ u ∧
      url_to_check u = url_to_check ("https://".toList ++ u)) ∧
    (∀ (all_ips : List (List Char)) (probe : Nat → List Char → List Char → Transfer) (i : Nat),
      all_ips[i]? = some a →
      workerTrack t (scheme ++ "://".toList ++ host ++ '/' :: rest) all_ips probe [i] =
        [trackResult a (HTTPClient.head
          (probe i (scheme ++ "://".toList ++ a ++ '/' :: rest) host))]) := by
  have hlen : (scheme ++ "://".toList).length = scheme.length + 3 := by
    rw [List.length_append]; rfl
  have h1 : test_url (url_to_check (scheme ++ "://".toList ++ host ++ '/' :: rest)) a
        = scheme ++ "://".toList ++ a ++ '/' :: rest ∧
      domain t (url_to_check (scheme ++ "://".toList ++ host ++ '/' :: rest)) = host := by
    have hf := find_scheme scheme (host ++ '/' :: rest) hs
    rw [← List.append_assoc] at hf
    rw [hf.2]
    exact request_with_path t (scheme ++ "://".toList) host rest a scheme.length hf.1 hlen hh ht
  refine ⟨h1, ?_, ?_, ?_⟩
  · have hf := find_scheme scheme host hs
    rw [hf.2]
    exact request_without_path t (scheme ++ "://".toList) host a scheme.length hf.1 hlen hh ht
  · intro u hu1 hu2
    have e1 : url_to_check u = "https://".toList ++ u := by
      unfold url_to_check
      have n1 : find u "http://".toList 0 ≠ some 0 := by
        rw [Ne, find_zero_iff, hu1]; simp
      have n2 : find u "https://".toList 0 ≠ some 0 := by
        rw [Ne, find_zero_iff, hu2]; simp
      rw [if_pos ⟨n1, n2⟩]
    refine ⟨e1, ?_⟩
    rw [e1]
    exact ((find_scheme "https".toList u (Or.inr rfl)).2).symm
  · intro all_ips probe i hi
    unfold workerTrack
    simp only [List.filterMap_cons, List.filterMap_nil, hi]
    rw [h1.1, h1.2]

/-- C21 on `https://example.com/image.png` and the target `104.16.0.1`, and on the same URL
without its path. -/
theorem track_probe_request_witness :
    ("https".toList = "http".toList ∨ "https".toList = "https".toList) ∧
    '/' ∉ "example.com".toList ∧ new.target_domain_ = [] ∧
    test_url (url_to_check "https://example.com/image.png".toList) "104.16.0.1".toList
      = "https://104.16.0.1/image.png".toList ∧
    domain new (url_to_check "https://example.com/image.png".toList) = "example.com".toList ∧
    test_url (url_to_check "https://example.com".toList) "104.16.0.1".toList
      = "https://104.16.0.1".toList ∧
    url_to_check "example.com/image.png".toList = "https://example.com/image.png".toList :=
  ⟨Or.inr rfl, by decide, rfl,
    (track_probe_request new "https".toList "example.com".toList "image.png".toList
      "104.16.0.1".toList (Or.inr rfl) (by decide) rfl).1.1,
    (track_probe_request new "https".toList "example.com".toList "image.png".toList
      "104.16.0.1".toList (Or.inr rfl) (by decide) rfl).1.2,
    (track_probe_request new "https".toList "example.com".toList "image.png".toList
      "104.16.0.1".toList (Or.inr rfl) (by decide) rfl).2.1.1,
    ((track_probe_request new "https".toList "example.com".toList "image.png".toList
      "104.16.0.1".toList (Or.inr rfl) (by decide) rfl).2.2.1
      "example.com/image.png".toList (by decide) (by decide)).1⟩

end CDNTracker

/-! ## The block file and the alive list: results -/

theorem getlineLoop_line (rest : List Char) :
    ∀ (l line : List Char), '\n' ∉ l →
      getlineLoop (l ++ '\n' :: rest) line = (line ++ l) :: getlineLoop rest [] := by
  intro l
  induction l with
  | nil => intro line _; simp [getlineLoop]
  | cons c cs ih =>
    intro line hl
    have hc : c ≠ '\n' := fun e => hl (by simp [e])
    have hcs : '\n' ∉ cs := fun e => hl (by simp [e])
    show getlineLoop (c :: (cs ++ '\n' :: rest)) line = _
    simp only [getlineLoop, hc, if_false]
    rw [ih (line ++ [c]) hcs]
    simp

theorem getlines_line (l rest : List Char) (hl : '\n' ∉ l) :
    getlines (l ++ '\n' :: rest) = l :: getlines rest := by
  unfold getlines
  rw [getlineLoop_line rest l [] hl]
  rfl

theorem getlines_entries :
    ∀ L : List (List Char), (∀ ip ∈ L, '\n' ∉ ip) →
      getlines (L.map (fun ip => ip ++ ['\n'])).flatten = L := by
  intro L
  induction L with
  | nil => intro _; rfl
  | cons ip L ih =>
    intro h
    simp only [List.map_cons, List.flatten_cons, List.append_assoc, List.singleton_append]
    rw [getlines_line ip _ (h ip (by simp)), ih (fun x hx => h x (by simp [hx]))]

theorem toDigitsCore_no_newline :
    ∀ (fuel n : Nat) (ds : List Char), '\n' ∉ ds → '\n' ∉ Nat.toDigitsCore 10 fuel n ds := by
  intro fuel
  induction fuel with
  | zero => intro n ds h; simpa [Nat.toDigitsCore] using h
  | succ fuel ih =>
    intro n ds h
    have hd : Nat.digitChar (n % 10) ≠ '\n' := by
      have : n % 10 < 10 := Nat.mod_lt _ (by omega)
      generalize n % 10 = d at this
      interval_cases d <;> decide
    have hds : '\n' ∉ Nat.digitChar (n % 10) :: ds := by
      intro hm
      rcases List.mem_cons.1 hm with e | e
      · exact hd e.symm
      · exact h e
    unfold Nat.toDigitsCore
    simp only []
    split_ifs
    · exact hds
    · exact ih _ _ hds

theorem decimal_no_newline (n : Nat) : '\n' ∉ decimal n := by
  unfold decimal Nat.toDigits
  exact toDigitsCore_no_newline _ _ _ (by simp)

theorem find_last_not_of_chars_last (chars : List Char) :
    ∀ (s : List Char) (c : Char), s.getLast? = some c → c ∉ chars →
      find_last_not_of_chars chars s = some (s.length - 1) := by
  intro s
  induction s with
  | nil => intro c h; simp at h
  | cons x xs ih =>
    intro c h hc
    cases xs with
    | nil =>
      simp only [List.getLast?_singleton, Option.some.injEq] at h
      subst h
      simp [find_last_not_of_chars, hc]
    | cons y ys =>
      rw [List.getLast?_cons_cons] at h
      have := ih c h hc
      unfold find_last_not_of_chars
      rw [this]
      simp

namespace CDNUpdater

theorem loadAliveIPsLine_clean (ip : List Char) (h : cleanEntry ip) :
    loadAliveIPsLine ip = some ip := by
  obtain ⟨hne, hnl, hhash, hends⟩ := h
  obtain ⟨c, cs, rfl⟩ := List.exists_cons_of_ne_nil hne
  have hc : c ∉ [' ', '\t', '\r', '\n'] := by
    intro hm
    simp only [List.mem_cons, List.mem_singleton, List.not_mem_nil, or_false] at hm
    rcases hm with e | e | e | e
    · exact (hends ' ' (by simp)).1 (by simp [e])
    · exact (hends '\t' (by simp)).1 (by simp [e])
    · exact (hends '\r' (by simp)).1 (by simp [e])
    · exact hnl (by simp [e])
  obtain ⟨l, hl⟩ : ∃ l, (c :: cs).getLast? = some l := by
    cases hg : (c :: cs).getLast? with
    | none => simp at hg
    | some l => exact ⟨l, rfl⟩
  have hlc : l ∉ [' ', '\t', '\r', '\n'] := by
    intro hm
    simp only [List.mem_cons, List.mem_singleton, List.not_mem_nil, or_false] at hm
    rcases hm with e | e | e | e
    · exact (hends ' ' (by simp)).2 (by rw [hl, e])
    · exact (hends '\t' (by simp)).2 (by rw [hl, e])
    · exact (hends '\r' (by simp)).2 (by rw [hl, e])
    · exact hnl (by rw [← e]; exact List.mem_of_getLast?_eq_some hl)
  have hfirst : find_first_not_of_chars [' ', '\t', '\r', '\n'] (c :: cs) = some 0 := by
    unfold find_first_not_of_chars
    rw [if_neg hc]
  have hlast := find_last_not_of_chars_last [' ', '\t', '\r', '\n'] (c :: cs) l hl hlc
  have hhd : ((c :: cs).isEmpty || (c :: cs).head? == some '#') = false := by
    have : c ≠ '#' := fun e => hhash (by simp [e])
    simp [this]
  unfold loadAliveIPsLine
  rw [hhd]
  simp only [hfirst, List.drop_zero, hlast]
  simp

theorem loadAliveIPsLine_header (count : Nat) (timestamp : List Char) :
    (aliveHeader count timestamp).filterMap loadAliveIPsLine = [] := by
  simp [aliveHeader, loadAliveIPsLine]

theorem getlines_saveAliveIPs (L : List (List Char)) (timestamp : List Char)
    (hts : '\n' ∉ timestamp) (hL : ∀ ip ∈ L, '\n' ∉ ip) :
    getlines (saveAliveIPs L timestamp) = aliveHeader L.length timestamp ++ L := by
  have e : saveAliveIPs L timestamp =
      "# Cloudflare CDN Alive IPs".toList ++ '\n' ::
      ("# IPs that responded with HIT or MISS status".toList ++ '\n' ::
      (("# Scanned: ".toList ++ timestamp) ++ '\n' ::
      (("# Total alive: ".toList ++ decimal L.length) ++ '\n' ::
      ([] ++ '\n' :: (L.map (fun ip => ip ++ ['\n'])).flatten)))) := by
    unfold saveAliveIPs
    simp only [List.append_assoc, List.cons_append, List.nil_append]
  rw [e, getlines_line _ _ (by decide), getlines_line _ _ (by decide),
    getlines_line _ _ (by
      intro h
      rcases List.mem_append.1 h with h | h
      · revert h; decide
      · exact hts h),
    getlines_line _ _ (by
      intro h
      rcases List.mem_append.1 h with h | h
      · revert h; decide
      · exact decimal_no_newline _ h),
    getlines_line _ _ (by simp), getlines_entries L hL]
  rfl

end CDNUpdater

theorem cleanEntry_of_chars (ip : List Char) (hne : ip ≠ [])
    (h : ∀ ch ∈ ip, (48 ≤ ch.toNat ∧ ch.toNat ≤ 57) ∨ ch = '.') : cleanEntry ip := by
  have hno : ∀ c : Char, c = '\n' ∨ c = '#' ∨ c = ' ' ∨ c = '\t' ∨ c = '\r' → c ∉ ip := by
    intro c hc hm
    rcases h c hm with hd | hd
    · rcases hc with e | e | e | e | e <;> subst e <;> revert hd <;> decide
    · rcases hc with e | e | e | e | e <;> subst e <;> revert hd <;> decide
  refine ⟨hne, hno _ (Or.inl rfl), ?_, ?_⟩
  · intro e
    exact hno '#' (by simp) (List.mem_of_mem_head? e)
  · intro c hc
    have hc' : c = ' ' ∨ c = '\t' ∨ c = '\r' := by simpa using hc
    have hn := hno c (by tauto)
    exact ⟨fun e => hn (List.mem_of_mem_head? e), fun e => hn (List.mem_of_getLast?_eq_some e)⟩

theorem cleanEntry_uint32ToIp (n : Nat) : cleanEntry (CIDRUtils.uint32ToIp n) := by
  have e : CIDRUtils.uint32ToIp n =
      dottedQuad (n / 16777216 % 256) (n / 65536 % 256) (n / 256 % 256) (n % 256) := rfl
  rw [e]
  apply cleanEntry_of_chars
  · unfold dottedQuad; simp
  · exact dottedQuad_chars _ _ _ _ (by omega) (by omega) (by omega) (by omega)

theorem concatExpansions_mem (limit : Nat) :
    ∀ (ds : List (List Char)) (l : List (List Char)), concatExpansions limit ds = some l →
      ∀ ip ∈ l, ∃ n, ip = CIDRUtils.uint32ToIp n := by
  intro ds
  induction ds with
  | nil =>
    intro l h ip hip
    simp only [concatExpansions, Option.some.injEq] at h
    subst h
    simp at hip
  | cons d ds ih =>
    intro l h ip hip
    by_cases hc : ':' ∈ d
    · simp only [concatExpansions, hc, if_true] at h
      exact ih l h ip hip
    · simp only [concatExpansions, hc, if_false] at h
      cases he : CIDRUtils.expandCIDR d limit with
      | none => rw [he] at h; simp at h
      | some a =>
        cases hr : concatExpansions limit ds with
        | none => rw [he, hr] at h; simp at h
        | some b =>
          rw [he, hr] at h
          simp only [Option.some.injEq] at h
          subst h
          rcases List.mem_append.1 hip with hm | hm
          · unfold CIDRUtils.expandCIDR at he
            cases hn : CIDRUtils.expandCIDRNums d limit with
            | none => rw [hn] at he; simp at he
            | some nums =>
              rw [hn] at he
              simp only [Option.map_some', Option.some.injEq] at he
              subst he
              obtain ⟨n, _, hn'⟩ := List.mem_map.1 hm
              exact ⟨n, hn'.symm⟩
          · exact ih b hr ip hm

namespace CDNTracker

theorem workerAlive_subset (all_ips : List (List Char)) (probe : Nat → Transfer)
    (indices : List Nat) : ∀ ip ∈ workerAlive all_ips probe indices, ip ∈ all_ips := by
  intro ip hip
  unfold workerAlive at hip
  rw [List.mem_filterMap] at hip
  obtain ⟨i, _, hi⟩ := hip
  cases hg : all_ips[i]? with
  | none => rw [hg] at hi; simp at hi
  | some a =>
    rw [hg] at hi
    simp only at hi
    split_ifs at hi
    cases hi
    exact List.getElem?_mem hg

theorem scanAliveNodes_entries (t : CDNTracker) (probe : Nat → Transfer) (num_threads : Nat)
    (alive : List (List Char)) (h : scanAliveNodes t probe num_threads (some alive)) :
    ∀ ip ∈ alive, ∃ n, ip = CIDRUtils.uint32ToIp n := by
  unfold scanAliveNodes at h
  by_cases hr : t.ip_ranges_ = []
  · rw [if_pos hr] at h
    cases h; intro ip hip; simp at hip
  · rw [if_neg hr] at h
    generalize (if t.force_all_ = false then { t with max_ips_per_range_ := 100 } else t)
      = t1 at h
    cases he : t1.expandAllRanges with
    | none => rw [he] at h; cases h
    | some all_ips =>
      rw [he] at h
      simp only at h
      rw [expandAllRanges_eq_concat] at he
      unfold scanWorkers at h
      cases hd : dispatch all_ips.length num_threads with
      | none => rw [hd] at h; cases h
      | some slices =>
        rw [hd] at h
        obtain ⟨alive_ips, ha, hint⟩ := h
        cases ha
        intro ip hip
        have hp := hint.perm
        have hm := hp.subset hip
        rw [List.mem_flatten] at hm
        obtain ⟨l, hl, hipl⟩ := hm
        obtain ⟨s, _, rfl⟩ := List.mem_map.1 hl
        exact concatExpansions_mem _ _ _ he ip (workerAlive_subset all_ips probe s ip hipl)

end CDNTracker

namespace CDNUpdater

/-- C30: saving then loading the alive list is a round trip. For a non-empty list `L` of
clean entries and a timestamp without newline (as `strftime` prints it), `loadAliveIPs` on
the text written by `saveAliveIPs` succeeds and yields `L`, in order, whatever the vector
held before; the file reads as the five header lines followed by `L`, and the header lines
give no entry. Every address `uint32ToIp` prints is a clean entry, and so is every entry of a
list `scanAliveNodes` returns. -/
theorem loadAliveIPs_saveAliveIPs (L old : List (List Char)) (timestamp : List Char)
    (hts : '\n' ∉ timestamp) (hne : L ≠ []) (hL : ∀ ip ∈ L, cleanEntry ip) :
    loadAliveIPs (some (saveAliveIPs L timestamp)) old = (true, L) ∧
    getlines (saveAliveIPs L timestamp) = aliveHeader L.length timestamp ++ L ∧
    (aliveHeader L.length timestamp).filterMap loadAliveIPsLine = [] ∧
    (∀ n, cleanEntry (CIDRUtils.uint32ToIp n)) ∧
    (∀ (t : CDNTracker) (probe : Nat → Transfer) (num_threads : Nat) (alive : List (List Char)),
      CDNTracker.scanAliveNodes t probe num_threads (some alive) → ∀ ip ∈ alive, cleanEntry ip) := by
  have hg := getlines_saveAliveIPs L timestamp hts (fun ip hip => (hL ip hip).2.1)
  have hh := loadAliveIPsLine_header L.length timestamp
  have hLL : L.filterMap loadAliveIPsLine = L := by
    have : ∀ M : List (List Char), (∀ ip ∈ M, cleanEntry ip) →
        M.filterMap loadAliveIPsLine = M := by
      intro M
      induction M with
      | nil => intro _; rfl
      | cons ip M ih =>
        intro hM
        rw [List.filterMap_cons, loadAliveIPsLine_clean ip (hM ip (by simp))]
        simp only
        rw [ih (fun x hx => hM x (by simp [hx]))]
    exact this L hL
  refine ⟨?_, hg, hh, cleanEntry_uint32ToIp, ?_⟩
  · unfold loadAliveIPs
    simp only [hg, List.filterMap_append, hh, List.nil_append, hLL]
    cases L with
    | nil => exact absurd rfl hne
    | cons ip M => rfl
  · intro t probe num_threads alive h ip hip
    obtain ⟨n, rfl⟩ := CDNTracker.scanAliveNodes_entries t probe num_threads alive h ip hip
    exact cleanEntry_uint32ToIp n

/-- C30 on the list of two addresses `104.16.0.1`, `104.16.0.2`, saved at the timestamp
`2024-05-01 12:00:00`. -/
theorem loadAliveIPs_saveAliveIPs_witness :
    '\n' ∉ "2024-05-01 12:00:00".toList ∧
    ["104.16.0.1".toList, "104.16.0.2".toList] ≠ [] ∧
    (∀ ip ∈ ["104.16.0.1".toList, "104.16.0.2".toList], cleanEntry ip) ∧
    loadAliveIPs (some (saveAliveIPs ["104.16.0.1".toList, "104.16.0.2".toList]
      "2024-05-01 12:00:00".toList)) [] = (true, ["104.16.0.1".toList, "104.16.0.2".toList]) :=
  ⟨by decide, by decide, by decide,
    (loadAliveIPs_saveAliveIPs ["104.16.0.1".toList, "104.16.0.2".toList] []
      "2024-05-01 12:00:00".toList (by decide) (by decide) (by decide)).1⟩

end CDNUpdater

/-! ## The two loaders compared: results -/

theorem find_first_not_of_chars_eq :
    ∀ line : List Char, '\r' ∉ line → '\n' ∉ line →
      find_first_not_of_chars [' ', '\t', '\r', '\n'] line = find_first_not_of line := by
  intro line
  induction line with
  | nil => intro _ _; rfl
  | cons c cs ih =>
    intro h1 h2
    have hc1 : c ≠ '\r' := fun e => h1 (by simp [e])
    have hc2 : c ≠ '\n' := fun e => h2 (by simp [e])
    have hm : c ∈ [' ', '\t', '\r', '\n'] ↔ (c = ' ' ∨ c = '\t') := by
      simp [hc1, hc2]
    unfold find_first_not_of_chars find_first_not_of
    rw [ih (fun e => h1 (by simp [e])) (fun e => h2 (by simp [e]))]
    by_cases hb : c = ' ' ∨ c = '\t'
    · rw [if_pos (hm.2 hb), if_pos hb]
    · rw [if_neg (fun e => hb (hm.1 e)), if_neg hb]

theorem find_last_not_of_chars_eq :
    ∀ line : List Char, '\r' ∉ line → '\n' ∉ line →
      find_last_not_of_chars [' ', '\t', '\r', '\n'] line = find_last_not_of line := by
  intro line
  induction line with
  | nil => intro _ _; rfl
  | cons c cs ih =>
    intro h1 h2
    have hc1 : c ≠ '\r' := fun e => h1 (by simp [e])
    have hc2 : c ≠ '\n' := fun e => h2 (by simp [e])
    have hm : c ∈ [' ', '\t', '\r', '\n'] ↔ (c = ' ' ∨ c = '\t') := by
      simp [hc1, hc2]
    unfold find_last_not_of_chars find_last_not_of
    rw [ih (fun e => h1 (by simp [e])) (fun e => h2 (by simp [e]))]
    cases find_last_not_of cs with
    | some k => rfl
    | none =>
      simp only
      by_cases hb : c = ' ' ∨ c = '\t'
      · rw [if_pos (hm.2 hb), if_pos hb]
      · rw [if_neg (fun e => hb (hm.1 e)), if_neg hb]

/-- Where the first character that is neither space nor tab is at index `start`, the last
such character is at or after it, and it is the last one of the text from `start` on. -/
theorem find_last_after_first :
    ∀ (line : List Char) (start : Nat), find_first_not_of line = some start →
      ∃ k, find_last_not_of (line.drop start) = some k ∧
        find_last_not_of line = some (start + k) ∧ start + k < line.length := by
  intro line
  induction line with
  | nil => intro start h; simp [find_first_not_of] at h
  | cons c cs ih =>
    intro start h
    unfold find_first_not_of at h
    by_cases hb : c = ' ' ∨ c = '\t'
    · rw [if_pos hb] at h
      cases hf : find_first_not_of cs with
      | none => rw [hf] at h; simp at h
      | some s =>
        rw [hf] at h
        simp only [Option.map_some', Option.some.injEq] at h
        subst h
        obtain ⟨k, hk1, hk2, hk3⟩ := ih s hf
        refine ⟨k, by simpa using hk1, ?_, by simp only [List.length_cons]; omega⟩
        unfold find_last_not_of
        rw [hk2]
        simp only [Option.some.injEq]
        omega
    · rw [if_neg hb] at h
      cases h
      have hex : ∃ k, find_last_not_of (c :: cs) = some k ∧ k < (c :: cs).length := by
        have hlt : ∀ (s : List Char) (k : Nat), find_last_not_of s = some k → k < s.length := by
          intro s
          induction s with
          | nil => intro k hk; simp [find_last_not_of] at hk
          | cons x xs ihx =>
            intro k hk
            unfold find_last_not_of at hk
            cases hx : find_last_not_of xs with
            | some j =>
              rw [hx] at hk
              simp only [Option.some.injEq] at hk
              have := ihx j hx
              simp only [List.length_cons]
              omega
            | none =>
              rw [hx] at hk
              simp only at hk
              split_ifs at hk
              cases hk
              simp
        cases hl : find_last_not_of (c :: cs) with
        | some k => exact ⟨k, rfl, hlt _ _ hl⟩
        | none =>
          unfold find_last_not_of at hl
          cases hx : find_last_not_of cs with
          | some j => rw [hx] at hl; simp at hl
          | none => rw [hx] at hl; simp only at hl; rw [if_neg hb] at hl; cases hl
      obtain ⟨k, hk, hklt⟩ := hex
      exact ⟨k, by simpa using hk, by simpa using hk, by simpa using hklt⟩

theorem find_first_not_of_none_last :
    ∀ line : List Char, find_first_not_of line = none → find_last_not_of line = none := by
  intro line
  induction line with
  | nil => intro _; rfl
  | cons c cs ih =>
    intro h
    unfold find_first_not_of at h
    by_cases hb : c = ' ' ∨ c = '\t'
    · rw [if_pos hb] at h
      cases hf : find_first_not_of cs with
      | some s => rw [hf] at h; simp at h
      | none =>
        unfold find_last_not_of
        rw [ih hf]
        simp only
        rw [if_pos hb]
    · rw [if_neg hb] at h; cases h

namespace CDNTracker

/-- The declaration `loadIPRanges` keeps from a line, in terms of `trim`: nothing for an
empty line, for a line that starts with `'#'` and for a line of spaces and tabs only, else
the line without the spaces and tabs at its two ends. -/
theorem loadIPRangesLine_trim (line : List Char) :
    loadIPRangesLine line =
      if line.isEmpty || line.head? == some '#' then none
      else if (trim line).isEmpty then none else some (trim line) := by
  unfold loadIPRangesLine
  by_cases hs : (line.isEmpty || line.head? == some '#') = true
  · rw [if_pos hs, if_pos hs]
  · rw [if_neg hs, if_neg hs]
    unfold trim
    cases hf : find_first_not_of line with
    | none =>
      rw [find_first_not_of_none_last line hf]
      simp [find_last_not_of]
    | some start =>
      obtain ⟨k, hk1, hk2, hk3⟩ := find_last_after_first line start hf
      simp only [hk1, hk2]
      have e : start + k - start + 1 = k + 1 := by omega
      unfold substr
      rw [e]
      have hne : (List.take (k + 1) (List.drop start line)).isEmpty = false := by
        cases hd : List.drop start line with
        | nil =>
          have := congrArg List.length hd
          simp only [List.length_drop, List.length_nil] at this
          omega
        | cons x xs => rfl
      rw [hne]
      rfl

end CDNTracker

namespace CDNUpdater

theorem loadAliveIPsLine_trim (line : List Char) (h1 : '\r' ∉ line) (h2 : '\n' ∉ line) :
    loadAliveIPsLine line =
      if line.isEmpty || line.head? == some '#' then none
      else if (trim line).isEmpty then none else some (trim line) := by
  unfold loadAliveIPsLine
  by_cases hs : (line.isEmpty || line.head? == some '#') = true
  · rw [if_pos hs, if_pos hs]
  · rw [if_neg hs, if_neg hs]
    unfold trim
    rw [find_first_not_of_chars_eq line h1 h2]
    have hflip : ∀ z : List Char,
        (if (!z.isEmpty) = true then some z else none) =
          if z.isEmpty = true then none else some z := by
      intro z; cases z <;> rfl
    cases hf : find_first_not_of line with
    | none => rfl
    | some k =>
      dsimp only
      have hsub : ∀ c, c ∈ List.drop k line → c ∈ line := fun c hc => List.mem_of_mem_drop hc
      rw [find_last_not_of_chars_eq _ (fun e => h1 (hsub _ e)) (fun e => h2 (hsub _ e))]
      cases find_last_not_of (List.drop k line) with
      | none => exact hflip _
      | some e => exact hflip _

/-- The two loaders keep the same thing from a line without carriage return. -/
theorem loadAliveIPsLine_eq (line : List Char) (h1 : '\r' ∉ line) (h2 : '\n' ∉ line) :
    loadAliveIPsLine line = CDNTracker.loadIPRangesLine line := by
  rw [loadAliveIPsLine_trim line h1 h2, CDNTracker.loadIPRangesLine_trim]

end CDNUpdater

theorem getlineLoop_chars :
    ∀ (content line : List Char), ∀ l ∈ getlineLoop content line,
      ∀ c ∈ l, (c ∈ line ∨ c ∈ content) ∧ (c = '\n' → c ∈ line) := by
  intro content
  induction content with
  | nil =>
    intro line l hl c hc
    unfold getlineLoop at hl
    split_ifs at hl
    · simp at hl
    · simp only [List.mem_singleton] at hl
      subst hl
      exact ⟨Or.inl hc, fun _ => hc⟩
  | cons x xs ih =>
    intro line l hl c hc
    unfold getlineLoop at hl
    split_ifs at hl with hx
    · rcases List.mem_cons.1 hl with e | e
      · subst e
        exact ⟨Or.inl hc, fun _ => hc⟩
      · have := ih [] l e c hc
        refine ⟨Or.inr ?_, fun hn => ?_⟩
        · rcases this.1 with h | h
          · simp at h
          · simp [h]
        · have := this.2 hn
          simp at this
    · have := ih (line ++ [x]) l hl c hc
      refine ⟨?_, fun hn => ?_⟩
      · rcases this.1 with h | h
        · rcases List.mem_append.1 h with h | h
          · exact Or.inl h
          · right; simp only [List.mem_singleton] at h; simp [h]
        · right; simp [h]
      · have h := this.2 hn
        rcases List.mem_append.1 h with h | h
        · exact h
        · simp only [List.mem_singleton] at h
          exact absurd (h ▸ hn) hx

/-- On a file without carriage return the two loaders produce the same list. -/
theorem loaders_agree_without_cr (content : List Char) (old : List (List Char))
    (h : '\r' ∉ content) :
    (CDNUpdater.loadAliveIPs (some content) old).2 =
      (CDNTracker.loadIPRanges CDNTracker.new (some content)).2.ip_ranges_ := by
  unfold CDNUpdater.loadAliveIPs CDNTracker.loadIPRanges
  simp only [CDNTracker.new, List.nil_append]
  apply List.filterMap_congr
  intro line hline
  have hc := getlineLoop_chars content [] line hline
  apply CDNUpdater.loadAliveIPsLine_eq
  · intro e
    rcases (hc _ e).1 with h' | h'
    · simp at h'
    · exact h h'
  · intro e
    have := (hc _ e).2 rfl
    simp at this

namespace CDNTracker

/-- Claim C22 on a block file whose lines end with carriage return and newline: the carriage
return stays at the end of the declaration, and the blank line gives a declaration that holds
a carriage return alone. With newline alone the same file gives the one declaration. -/
theorem loadIPRanges_carriage_return :
    getlines "# ranges\r\n173.245.48.0/20\r\n\r\n".toList
      = ["# ranges\r".toList, "173.245.48.0/20\r".toList, "\r".toList] ∧
    loadIPRanges new (some "# ranges\r\n173.245.48.0/20\r\n\r\n".toList)
      = (true, { new with ip_ranges_ := ["173.245.48.0/20\r".toList, "\r".toList] }) ∧
    loadIPRanges new (some "# ranges\n173.245.48.0/20\n\n".toList)
      = (true, { new with ip_ranges_ := ["173.245.48.0/20".toList] }) := by
  refine ⟨by decide, by decide, by decide⟩

end CDNTracker

namespace CDNUpdater

/-- Claim C23 on a file whose lines end with carriage return and newline: `loadAliveIPs`
drops the carriage returns, `loadIPRanges` keeps them, and the two lists differ. -/
theorem loadAliveIPs_differs :
    loadAliveIPs (some "# alive\r\n104.16.0.1\r\n\r\n".toList) []
      = (true, ["104.16.0.1".toList]) ∧
    (CDNTracker.loadIPRanges CDNTracker.new
        (some "# alive\r\n104.16.0.1\r\n\r\n".toList)).2.ip_ranges_
      = ["104.16.0.1\r".toList, "\r".toList] ∧
    (loadAliveIPs (some "# alive\r\n104.16.0.1\r\n\r\n".toList) []).2 ≠
      (CDNTracker.loadIPRanges CDNTracker.new
        (some "# alive\r\n104.16.0.1\r\n\r\n".toList)).2.ip_ranges_ := by
  refine ⟨by decide, by decide, by decide⟩

end CDNUpdater

end cfpinner
